import Mathlib

/-!
# Verification of the reading-guides core (chapter segmentation, JSON repair, retry client)

Shallow embedding of `src/tools/extract_pdf.py` (chapter segmenter, image extractor)
and `src/tools/analyze_book.py` (JSON repair, resilient generation client), with
theorems settling the frozen claims about them.

Python strings are modelled as Lean `String`/`List Char`; Python's `\s` and `\d`
regex classes are modelled over their ASCII members (the inputs at issue are ASCII).
-/

namespace ReadingGuides

/-! ## Python character-class helpers -/

/-- Python whitespace (`str.strip`, regex `\s`), restricted to ASCII. -/
def isPySpace (c : Char) : Bool :=
  c == ' ' || c == '\t' || c == '\n' || c == '\r' || c == '\x0b' || c == '\x0c'

/-- Regex `\d`, ASCII decimal digits. -/
def isPyDigit (c : Char) : Bool :=
  '0' ≤ c && c ≤ '9'

/-- Python `str.strip()`: drop leading and trailing whitespace. -/
def pyStrip (s : String) : String :=
  String.mk (((s.toList.dropWhile isPySpace).reverse.dropWhile isPySpace).reverse)

/-- Python `str.rstrip()`: drop trailing whitespace. -/
def pyRstripWs (s : String) : String :=
  String.mk ((s.toList.reverse.dropWhile isPySpace).reverse)

/-- Python `str.rstrip(',')`: drop trailing commas. -/
def pyRstripComma (s : String) : String :=
  String.mk ((s.toList.reverse.dropWhile (fun c => c == ',')).reverse)

/-- Python `str.lower()` (ASCII). -/
def pyLower (s : String) : String :=
  String.mk (s.toList.map Char.toLower)

/-- Drop a literal from the front of a character list, returning the remainder. -/
def dropLit : List Char → List Char → Option (List Char)
  | [], cs => some cs
  | _ :: _, [] => none
  | l :: ls, c :: cs => if c = l then dropLit ls cs else none

/-- Python `needle in hay` for strings: substring test. -/
def listHasInfix (hay needle : List Char) : Bool :=
  (hay.tails).any (fun t => needle.isPrefixOf t)

/-- Python `needle in hay` on `String`. -/
def pyContains (hay needle : String) : Bool :=
  listHasInfix hay.toList needle.toList

/-! ## Chapter segmenter (`src/tools/extract_pdf.py`, `detect_chapters`)

The four heading regexes are searched with `re.MULTILINE`, so `^` anchors at the
start of the text and after every newline; only the existence of a match is used
by `detect_chapters`, so each pattern is embedded as a Boolean test at a line
start, plus a search over all line starts. -/

/-- Match `\s+` followed by `\d`: at least one whitespace char, and the first
character after the maximal whitespace run is a digit (`\s` and `\d` are
disjoint, so backtracking adds nothing). -/
def wsPlusThen (good : Char → Bool) : List Char → Bool
  | [] => false
  | c :: rest =>
    isPySpace c &&
      (match (c :: rest).dropWhile isPySpace with
       | d :: _ => good d
       | [] => false)

/-- Pattern `^(?:Chapter|CHAPTER)\s+(\d+)` tested at one line start. -/
def chapterLit (cs : List Char) : Bool :=
  (match dropLit ("Chapter".toList) cs with
   | some rest => wsPlusThen isPyDigit rest
   | none => false) ||
  (match dropLit ("CHAPTER".toList) cs with
   | some rest => wsPlusThen isPyDigit rest
   | none => false)

/-- After the digit run of pattern `^(\d+)\s*\n`: succeed iff a newline occurs
within the maximal whitespace run that follows. -/
def wsRunHasNewline : List Char → Bool
  | [] => false
  | c :: rest => if c = '\n' then true else if isPySpace c then wsRunHasNewline rest else false

/-- Pattern `^(\d+)\s*\n` tested at one line start. -/
def bareNumberLit : List Char → Bool
  | [] => false
  | c :: rest =>
    isPyDigit c && wsRunHasNewline ((c :: rest).dropWhile isPyDigit)

/-- Roman-numeral characters of `[IVXLC]`. -/
def isRomanChar (c : Char) : Bool :=
  c == 'I' || c == 'V' || c == 'X' || c == 'L' || c == 'C'

/-- Pattern `^Part\s+([IVXLC]+)` tested at one line start. -/
def partLit (cs : List Char) : Bool :=
  match dropLit ("Part".toList) cs with
  | some rest => wsPlusThen isRomanChar rest
  | none => false

/-- Pattern `^PART\s+([IVXLC]+)` tested at one line start. -/
def partUpperLit (cs : List Char) : Bool :=
  match dropLit ("PART".toList) cs with
  | some rest => wsPlusThen isRomanChar rest
  | none => false

/-- Test `p` after every newline of `cs`. -/
def afterNewlines (p : List Char → Bool) : List Char → Bool
  | [] => false
  | c :: rest => ((c = '\n') && p rest) || afterNewlines p rest

/-- `re.search(pat, text, re.MULTILINE)` for a line-start-anchored pattern:
test at position 0 and after every newline. -/
def searchMultiline (p : List Char → Bool) (cs : List Char) : Bool :=
  p cs || afterNewlines p cs

/-- Whether any of the four `chapter_patterns` matches `text`; the Python loop
breaks at the first matching pattern but only uses the match's existence. -/
def patternFound (text : String) : Bool :=
  let cs := text.toList
  searchMultiline chapterLit cs || searchMultiline bareNumberLit cs ||
    searchMultiline partLit cs || searchMultiline partUpperLit cs

/-- A page, as produced by `extract_text_from_pdf`. -/
structure Page where
  page_num : Nat
  text : String
  deriving Repr, DecidableEq

/-- A chapter record as built by `detect_chapters` (the working `pages` list is
kept; `main` deletes it after segmentation). -/
structure Chapter where
  chapter_num : Nat
  title : String
  pages : List Page
  start_page : Nat
  end_page : Nat
  text : String
  deriving Repr, DecidableEq

/-- The honored-match test: some pattern matches and `page["page_num"] > 5`. -/
def headingHonored (p : Page) : Bool :=
  patternFound p.text && decide (5 < p.page_num)

/-- Python `text.split('\n')` on a character list (keeps empty pieces). -/
def splitNewline : List Char → List (List Char)
  | [] => [[]]
  | c :: rest =>
    let r := splitNewline rest
    if c = '\n' then [] :: r
    else
      match r with
      | [] => [[c]]
      | l :: ls => (c :: l) :: ls

/-- Python `text.split('\n')` on `String`. -/
def pyLines (text : String) : List String :=
  (splitNewline text.toList).map String.mk

/-- Title derivation: `lines[:5]`, keep non-empty stripped lines, join the first
two with a space. -/
def titleOf (text : String) : String :=
  let lines := pyLines text
  let title_lines := (lines.take 5).filterMap
    (fun l => let s := pyStrip l; if s = "" then none else some s)
  String.intercalate " " (title_lines.take 2)

/-- Closing the current accumulator: set `text` to the pages' text joined by a
blank line, and `start_page`/`end_page` to the first/last page number.  In the
source this happens only when the page list is non-empty, so the defaults of
`headD`/`getLastD` are never used. -/
def closeChapter (c : Chapter) : Chapter :=
  { c with
    text := String.intercalate "\n\n" (c.pages.map Page.text)
    start_page := (c.pages.map Page.page_num).headD c.start_page
    end_page := (c.pages.map Page.page_num).getLastD c.end_page }

/-- The front-matter accumulator `detect_chapters` starts from. -/
def initialChapter : Chapter :=
  { chapter_num := 0, title := "Front Matter", pages := [], start_page := 1,
    end_page := 1, text := "" }

/-- One iteration of the page loop of `detect_chapters`. -/
def detectStep (st : List Chapter × Chapter) (page : Page) : List Chapter × Chapter :=
  let done := st.1
  let current := st.2
  if headingHonored page then
    let done' := if current.pages.isEmpty then done else done ++ [closeChapter current]
    (done',
     { chapter_num := done'.length + 1
       title := titleOf page.text
       pages := [page]
       start_page := page.page_num
       end_page := page.page_num
       text := "" })
  else
    (done, { current with pages := current.pages ++ [page] })

/-- `detect_chapters` from `src/tools/extract_pdf.py`. -/
def detect_chapters (pages : List Page) : List Chapter :=
  let st := pages.foldl detectStep ([], initialChapter)
  if st.2.pages.isEmpty then st.1 else st.1 ++ [closeChapter st.2]

/-! ## JSON repair (`src/tools/analyze_book.py`, `repair_json`)

The scanner walks the text once, tracking a stack of open brackets (a Python
list: pushes and pops at the end), whether the position is inside a string
literal, a one-character escape flag, and `last_valid`, the offset just past
the most recent complete `}`/`]` closure. -/

/-- The `{` character (written via its code point throughout this file). -/
def lbrace : Char := Char.ofNat 123

/-- The `}` character. -/
def rbrace : Char := Char.ofNat 125

/-- Scanner state of `repair_json`. -/
structure RState where
  stack : List Char
  lastValid : Nat
  inString : Bool
  escape : Bool
  deriving Repr, DecidableEq

/-- One character of the `repair_json` scan, at absolute index `i`.  The Python
guard `ch == '"' and not escape` always has `not escape` true because the
escape flag is consumed by the first branch. -/
def rstep (i : Nat) (ch : Char) (st : RState) : RState :=
  if st.escape then { st with escape := false }
  else if ch = '\\' ∧ st.inString then { st with escape := true }
  else if ch = '"' then { st with inString := !st.inString }
  else if st.inString then st
  else if ch = lbrace ∨ ch = '[' then { st with stack := st.stack ++ [ch] }
  else if ch = rbrace ∧ st.stack.getLast? = some lbrace then
    { st with stack := st.stack.dropLast, lastValid := i + 1 }
  else if ch = ']' ∧ st.stack.getLast? = some '[' then
    { st with stack := st.stack.dropLast, lastValid := i + 1 }
  else st

/-- Run the scanner from state `st`, the next character having index `i`. -/
def scanFrom : RState → Nat → List Char → RState
  | st, _, [] => st
  | st, i, c :: rest => scanFrom (rstep i c st) (i + 1) rest

/-- Initial scanner state. -/
def initRState : RState := ⟨[], 0, false, false⟩

/-- `'}' if bracket == '{' else ']'`. -/
def closerOf (b : Char) : Char := if b = lbrace then rbrace else ']'

/-- `repair_json` from `src/tools/analyze_book.py`: if the scan leaves open
brackets, truncate to `last_valid`, strip trailing whitespace and commas, and
append a closer for each still-open bracket, most recent first. -/
def repair_json (text : String) : String :=
  let st := scanFrom initRState 0 text.toList
  if st.stack.isEmpty then text
  else
    pyRstripComma (pyRstripWs (String.mk (text.toList.take st.lastValid))) ++
      String.mk (st.stack.reverse.map closerOf)

/-! ## JSON values, serialization and parsing

`repair_json`'s contract is stated in terms of JSON values, their
serialization (Python `json.dumps`, default separators `", "`/`": "`), and
strict parsing (Python `json.loads`).  Both are embedded here.  Modelling
notes: numbers are integers (the code never serializes floats; the parser
validates fraction/exponent syntax but the model keeps the integer part),
string escapes are validated by the parser but not decoded (no claim depends
on decoded string contents), and non-ASCII escaping is not modelled. -/

/-- Decimal digits of `n`, accumulated most-significant first; `fuel ≥ n + 1`
makes the fuel case unreachable (the digit count is at most `n + 1`). -/
def natReprAux : Nat → Nat → List Char → List Char
  | 0, _, acc => acc
  | fuel + 1, n, acc =>
    let acc' := Char.ofNat (48 + n % 10) :: acc
    if n < 10 then acc' else natReprAux fuel (n / 10) acc'

/-- Decimal representation of a natural number. -/
def natRepr (n : Nat) : List Char := natReprAux (n + 1) n []

/-- Decimal representation of an integer (Python `repr` of an `int`). -/
def intRepr : Int → List Char
  | .ofNat n => natRepr n
  | .negSucc n => '-' :: natRepr (n + 1)

mutual

/-- A JSON value.  Arrays and objects carry their own list types so that all
recursion over values is mutual-structural. -/
inductive Json where
  | null
  | bool (b : Bool)
  | num (n : Int)
  | str (s : String)
  | arr (elems : JsonArr)
  | obj (members : JsonObj)

/-- A list of JSON array elements. -/
inductive JsonArr where
  | nil
  | cons (head : Json) (tail : JsonArr)

/-- A list of JSON object members. -/
inductive JsonObj where
  | nil
  | cons (key : String) (val : Json) (tail : JsonObj)

end

/-- Build a `JsonArr` from a list. -/
def JsonArr.ofList : List Json → JsonArr
  | [] => .nil
  | v :: rest => .cons v (JsonArr.ofList rest)

/-- Build a `JsonObj` from a list of pairs. -/
def JsonObj.ofList : List (String × Json) → JsonObj
  | [] => .nil
  | (k, v) :: rest => .cons k v (JsonObj.ofList rest)

/-- Hex digit for string escapes. -/
def hexDigit (n : Nat) : Char :=
  if n < 10 then Char.ofNat (48 + n) else Char.ofNat (87 + n)

/-- `json.dumps` escaping of one character (ASCII fragment). -/
def escChar (c : Char) : List Char :=
  if c = '"' then ['\\', '"']
  else if c = '\\' then ['\\', '\\']
  else if c = '\n' then ['\\', 'n']
  else if c = '\t' then ['\\', 't']
  else if c = '\r' then ['\\', 'r']
  else if c = Char.ofNat 8 then ['\\', 'b']
  else if c = Char.ofNat 12 then ['\\', 'f']
  else if c.toNat < 32 then ['\\', 'u', '0', '0', hexDigit (c.toNat / 16), hexDigit (c.toNat % 16)]
  else [c]

/-- Serialization of a string literal. -/
def serStr (s : String) : List Char :=
  '"' :: (s.toList.map escChar).flatten ++ ['"']

mutual

/-- `json.dumps` with default separators, as a character list. -/
def serialize : Json → List Char
  | .null => "null".toList
  | .bool b => if b then "true".toList else "false".toList
  | .num n => intRepr n
  | .str s => serStr s
  | .arr xs => '[' :: serElems xs ++ [']']
  | .obj kvs => lbrace :: serMembers kvs ++ [rbrace]

/-- Array elements joined by `", "`. -/
def serElems : JsonArr → List Char
  | .nil => []
  | .cons x .nil => serialize x
  | .cons x (.cons y rest) => serialize x ++ ',' :: ' ' :: serElems (.cons y rest)

/-- Object members `key: value` joined by `", "`. -/
def serMembers : JsonObj → List Char
  | .nil => []
  | .cons k v .nil => serStr k ++ ':' :: ' ' :: serialize v
  | .cons k v (.cons k2 v2 rest) =>
    serStr k ++ ':' :: ' ' :: serialize v ++ ',' :: ' ' :: serMembers (.cons k2 v2 rest)

end

/-- A parse failure: the `json.JSONDecodeError` message and character offset. -/
structure ParseErr where
  msg : String
  pos : Nat
  deriving Repr, DecidableEq

/-- JSON whitespace (`json.loads` skips exactly these). -/
def isJsonWs (c : Char) : Bool :=
  c == ' ' || c == '\t' || c == '\n' || c == '\r'

/-- Skip whitespace, tracking the absolute offset. -/
def skipWs : List Char → Nat → List Char × Nat
  | [], p => ([], p)
  | c :: rest, p => if isJsonWs c then skipWs rest (p + 1) else (c :: rest, p)

/-- Characters allowed after a backslash in a string literal (besides `u`). -/
def isEscapable (c : Char) : Bool :=
  c == '"' || c == '\\' || c == '/' || c == 'b' || c == 'f' || c == 'n' || c == 'r' || c == 't'

/-- Hexadecimal digit test. -/
def isHexDigit (c : Char) : Bool :=
  isPyDigit c || ('a' ≤ c && c ≤ 'f') || ('A' ≤ c && c ≤ 'F')

/-- Parse a string literal body (after the opening quote at offset `start`).
Returns the raw (undecoded) content, the remainder, and the offset one past
the closing quote. -/
def parseStringBody : List Char → Nat → Nat → Except ParseErr (List Char × List Char × Nat)
  | [], _, start => .error ⟨"Unterminated string starting at", start⟩
  | c :: rest, p, start =>
    if c = '"' then .ok ([], rest, p + 1)
    else if c = '\\' then
      match rest with
      | [] => .error ⟨"Unterminated string starting at", start⟩
      | e :: rest' =>
        if e = 'u' then
          match rest' with
          | h1 :: h2 :: h3 :: h4 :: rest'' =>
            if isHexDigit h1 && isHexDigit h2 && isHexDigit h3 && isHexDigit h4 then
              match parseStringBody rest'' (p + 6) start with
              | .ok (content, rem, q) => .ok (c :: e :: h1 :: h2 :: h3 :: h4 :: content, rem, q)
              | .error err => .error err
            else .error ⟨"Invalid \\uXXXX escape", p + 2⟩
          | _ => .error ⟨"Invalid \\uXXXX escape", p + 2⟩
        else if isEscapable e then
          match parseStringBody rest' (p + 2) start with
          | .ok (content, rem, q) => .ok (c :: e :: content, rem, q)
          | .error err => .error err
        else .error ⟨"Invalid \\escape", p + 1⟩
    else if c.toNat < 32 then .error ⟨"Invalid control character at", p⟩
    else
      match parseStringBody rest (p + 1) start with
      | .ok (content, rem, q) => .ok (c :: content, rem, q)
      | .error err => .error err

/-- Digits to a natural number. -/
def digitsToNat (ds : List Char) : Nat :=
  ds.foldl (fun acc c => acc * 10 + (c.toNat - 48)) 0

/-- Consume a well-formed fraction part (`.` followed by digits), if present. -/
def fracSplit : List Char × Nat → List Char × Nat
  | (cs2, p2) =>
    match cs2 with
    | '.' :: d :: rest =>
      if isPyDigit d then
        let fs := (d :: rest).takeWhile isPyDigit
        ((d :: rest).drop fs.length, p2 + 1 + fs.length)
      else (cs2, p2)
    | _ => (cs2, p2)

/-- Consume a well-formed exponent part (`e`/`E`, optional sign, digits), if
present. -/
def expSplit : List Char × Nat → List Char × Nat
  | (cs3, p3) =>
    match cs3 with
    | e :: rest =>
      if e = 'e' ∨ e = 'E' then
        match rest with
        | s :: rest' =>
          if s = '+' ∨ s = '-' then
            let es := rest'.takeWhile isPyDigit
            if es.isEmpty then (cs3, p3) else (rest'.drop es.length, p3 + 2 + es.length)
          else
            let es := rest.takeWhile isPyDigit
            if es.isEmpty then (cs3, p3) else (rest.drop es.length, p3 + 1 + es.length)
        | [] => (cs3, p3)
      else (cs3, p3)
    | [] => (cs3, p3)

/-- Parse a JSON number starting at offset `p` (first char is `-` or a digit).
The integer part becomes the value; a fraction/exponent is consumed when
syntactically well-formed, mirroring the `json` number regex (leading-zero
strictness is not modelled; the serializer never emits leading zeros). -/
def parseNumber (cs : List Char) (p : Nat) : Except ParseErr (Json × List Char × Nat) :=
  let neg := cs.headD ' ' = '-'
  let cs1 := if neg then cs.tail else cs
  let p1 := if neg then p + 1 else p
  let ds := cs1.takeWhile isPyDigit
  if ds.isEmpty then .error ⟨"Expecting value", p⟩
  else
    let s3 := expSplit (fracSplit (cs1.drop ds.length, p1 + ds.length))
    let n : Int := digitsToNat ds
    .ok (.num (if neg then -n else n), s3.1, s3.2)

mutual

/-- `json.loads`'s recursive value parser, fuel-indexed.  With fuel larger than
the nesting/element structure of the input the fuel case is unreachable. -/
def parseValue : Nat → List Char → Nat → Except ParseErr (Json × List Char × Nat)
  | 0, _, p => .error ⟨"Expecting value", p⟩
  | fuel + 1, cs, p =>
    match cs with
    | [] => .error ⟨"Expecting value", p⟩
    | c :: rest =>
      if c = '"' then
        match parseStringBody rest (p + 1) p with
        | .ok (content, rem, q) => .ok (.str (String.mk content), rem, q)
        | .error e => .error e
      else if c = lbrace then
        let s1 := skipWs rest (p + 1)
        match s1.1 with
        | d :: rest1 =>
          if d = rbrace then .ok (.obj .nil, rest1, s1.2 + 1) else parseMembers fuel s1.1 s1.2 []
        | [] => parseMembers fuel [] s1.2 []
      else if c = '[' then
        let s1 := skipWs rest (p + 1)
        match s1.1 with
        | d :: rest1 =>
          if d = ']' then .ok (.arr .nil, rest1, s1.2 + 1) else parseElems fuel s1.1 s1.2 []
        | [] => parseElems fuel [] s1.2 []
      else if c = 't' then
        match dropLit ("rue".toList) rest with
        | some rem => .ok (.bool true, rem, p + 4)
        | none => .error ⟨"Expecting value", p⟩
      else if c = 'f' then
        match dropLit ("alse".toList) rest with
        | some rem => .ok (.bool false, rem, p + 5)
        | none => .error ⟨"Expecting value", p⟩
      else if c = 'n' then
        match dropLit ("ull".toList) rest with
        | some rem => .ok (.null, rem, p + 4)
        | none => .error ⟨"Expecting value", p⟩
      else if c = '-' ∨ isPyDigit c then parseNumber (c :: rest) p
      else .error ⟨"Expecting value", p⟩

/-- Array elements after `[` (first element not yet parsed). -/
def parseElems : Nat → List Char → Nat → List Json → Except ParseErr (Json × List Char × Nat)
  | 0, _, p, _ => .error ⟨"Expecting value", p⟩
  | fuel + 1, cs, p, acc =>
    match parseValue fuel cs p with
    | .error e => .error e
    | .ok (v, cs1, p1) =>
      let s2 := skipWs cs1 p1
      match s2.1 with
      | [] => .error ⟨"Expecting \x27,\x27 delimiter", s2.2⟩
      | d :: rest2 =>
        if d = ']' then .ok (.arr (JsonArr.ofList (acc ++ [v])), rest2, s2.2 + 1)
        else if d = ',' then
          let s3 := skipWs rest2 (s2.2 + 1)
          parseElems fuel s3.1 s3.2 (acc ++ [v])
        else .error ⟨"Expecting \x27,\x27 delimiter", s2.2⟩

/-- Object members after `{` (first key not yet parsed). -/
def parseMembers : Nat → List Char → Nat → List (String × Json) →
    Except ParseErr (Json × List Char × Nat)
  | 0, _, p, _ => .error ⟨"Expecting value", p⟩
  | fuel + 1, cs, p, acc =>
    match cs with
    | [] => .error ⟨"Expecting property name enclosed in double quotes", p⟩
    | c :: rest =>
      if c = '"' then
        match parseStringBody rest (p + 1) p with
        | .error e => .error e
        | .ok (key, cs1, p1) =>
          let s2 := skipWs cs1 p1
          match s2.1 with
          | d :: rest2 =>
            if d = ':' then
              let s3 := skipWs rest2 (s2.2 + 1)
              match parseValue fuel s3.1 s3.2 with
              | .error e => .error e
              | .ok (v, cs4, p4) =>
                let s5 := skipWs cs4 p4
                match s5.1 with
                | e :: rest5 =>
                  if e = rbrace then
                    .ok (.obj (JsonObj.ofList (acc ++ [(String.mk key, v)])), rest5, s5.2 + 1)
                  else if e = ',' then
                    let s6 := skipWs rest5 (s5.2 + 1)
                    parseMembers fuel s6.1 s6.2 (acc ++ [(String.mk key, v)])
                  else .error ⟨"Expecting \x27,\x27 delimiter", s5.2⟩
                | [] => .error ⟨"Expecting \x27,\x27 delimiter", s5.2⟩
            else .error ⟨"Expecting \x27:\x27 delimiter", s2.2⟩
          | [] => .error ⟨"Expecting \x27:\x27 delimiter", s2.2⟩
      else .error ⟨"Expecting property name enclosed in double quotes", p⟩

end

/-- `json.loads`: parse a complete document, rejecting trailing content. -/
def jsonLoads (s : String) : Except ParseErr Json :=
  let cs := s.toList
  let s1 := skipWs cs 0
  match parseValue (cs.length + 1) s1.1 s1.2 with
  | .error e => .error e
  | .ok (v, rest, p2) =>
    let s3 := skipWs rest p2
    if s3.1.isEmpty then .ok v else .error ⟨"Extra data", s3.2⟩

/-- Number of newlines before `pos`, plus one: `JSONDecodeError.lineno`. -/
def lineOf (doc : List Char) (pos : Nat) : Nat :=
  ((doc.take pos).filter (fun c => c == '\n')).length + 1

/-- `JSONDecodeError.colno`: offset since the previous newline, plus one. -/
def colOf (doc : List Char) (pos : Nat) : Nat :=
  ((doc.take pos).reverse.takeWhile (fun c => c ≠ '\n')).length + 1

/-- Python `str(e)` for a `JSONDecodeError`:
`"{msg}: line {lineno} column {colno} (char {pos})"` (braces here describe the
format; the code builds it by concatenation). -/
def renderErr (doc : String) (e : ParseErr) : String :=
  e.msg ++ ": line " ++ String.mk (natRepr (lineOf doc.toList e.pos)) ++
    " column " ++ String.mk (natRepr (colOf doc.toList e.pos)) ++
    " (char " ++ String.mk (natRepr e.pos) ++ ")"

/-- `json.dumps` on `String`. -/
def serializeStr (v : Json) : String := String.mk (serialize v)

/-! ## Resilient generation client (`src/tools/analyze_book.py`, `call_gemini`)

The external model call is abstracted as a map from attempt index to outcome:
either the transport raises (with a message) or a response text is returned.
The embedded loop returns the list of backoff sleeps performed and the final
result, with exceptions as `Except` errors. -/

/-- Outcome of one `model.generate_content` call. -/
inductive GenOutcome where
  | raiseErr (msg : String)
  | respond (text : String)
  deriving Repr, DecidableEq

/-- Exceptions observable from `call_gemini`: a transport error, a
`json.JSONDecodeError` (document plus error), or the `IndexError` from
`text.split("\n", 1)[1]` when a fenced response has no newline. -/
inductive PyExn where
  | transport (msg : String)
  | jsonDecode (doc : String) (err : ParseErr)
  | indexErr
  deriving Repr, DecidableEq

/-- Python `str(e)` for the modelled exceptions. -/
def strOfExn : PyExn → String
  | .transport m => m
  | .jsonDecode doc e => renderErr doc e
  | .indexErr => "list index out of range"

/-- The rate-limit test of `call_gemini`:
`"429" in err or "quota" in err.lower() or "rate" in err.lower()`. -/
def isRateFlavored (err : String) : Bool :=
  pyContains err "429" || pyContains (pyLower err) "quota" || pyContains (pyLower err) "rate"

/-- Characters after the first newline, if any (Python `split("\n", 1)[1]`). -/
def afterFirstNewline : List Char → Option (List Char)
  | [] => none
  | c :: rest => if c = '\n' then some rest else afterFirstNewline rest

/-- Python `str.endswith`. -/
def pyEndsWith (s suffix : String) : Bool :=
  suffix.toList.reverse.isPrefixOf s.toList.reverse

/-- Python `str.startswith`. -/
def pyStartsWith (s pre : String) : Bool :=
  pre.toList.isPrefixOf s.toList

/-- Code-fence stripping in `call_gemini`; raises `IndexError` when the text
starts with a fence but has no newline. -/
def stripFence (t : String) : Except PyExn String :=
  if pyStartsWith t "```" then
    match afterFirstNewline t.toList with
    | none => .error .indexErr
    | some rest =>
      let t1 := String.mk rest
      if pyEndsWith t1 "```" then .ok (String.mk (rest.take (rest.length - 3))) else .ok t1
  else .ok t

/-- Response handling of one attempt: strip/fence the text, strict-parse it,
on parse failure parse the repaired text, and surface the second parse error
as a `JSONDecodeError` on the repaired document. -/
def processResponse (raw : String) : Except PyExn Json :=
  match stripFence (pyStrip raw) with
  | .error e => .error e
  | .ok text =>
    match jsonLoads text with
    | .ok v => .ok v
    | .error _ =>
      let repaired := repair_json text
      match jsonLoads repaired with
      | .ok v => .ok v
      | .error e2 => .error (.jsonDecode repaired e2)

/-- Result of a single attempt given its outcome. -/
def attemptResult : GenOutcome → Except PyExn Json
  | .raiseErr m => .error (.transport m)
  | .respond raw => processResponse raw

/-- `max_retries = 3` in `call_gemini`. -/
def max_retries : Nat := 3

/-- `base_delay = 30` seconds in `call_gemini`. -/
def base_delay : Nat := 30

/-- The attempt loop of `call_gemini` from attempt index `attempt`: sleep
`base_delay * 2^(attempt-1)` before every attempt but the first, run the
attempt, and on an error whose `str` looks rate-limited retry while attempts
remain; otherwise re-raise.  Returns the performed sleeps and the result.
`fuel` is `max_retries + 1 - attempt`; the fuel-0 case is unreachable because
a retry requires `attempt < max_retries`. -/
def runAttemptsAux (outcomes : Nat → GenOutcome) :
    Nat → Nat → List Nat × Except PyExn Json
  | 0, _ => ([], .error .indexErr)
  | fuel + 1, attempt =>
    let sleeps := if 0 < attempt then [base_delay * 2 ^ (attempt - 1)] else []
    match attemptResult (outcomes attempt) with
    | .ok v => (sleeps, .ok v)
    | .error e =>
      if isRateFlavored (strOfExn e) ∧ attempt < max_retries then
        let next := runAttemptsAux outcomes fuel (attempt + 1)
        (sleeps ++ next.1, next.2)
      else (sleeps, .error e)

/-- `call_gemini`, abstracted over the transport outcomes. -/
def call_gemini (outcomes : Nat → GenOutcome) : List Nat × Except PyExn Json :=
  runAttemptsAux outcomes (max_retries + 1) 0

/-! ## Image extractor (`src/tools/extract_pdf.py`, `extract_images`)

The document is modelled as a list of pages, each a list of embedded-image
references; extracting a reference yields raw bytes (with `ok = false`
covering `extract_image` returning `None` or raising), an extension and pixel
dimensions.  The MD5 content hash is modelled by the byte content itself, and
each written file is returned as a `(filename, bytes)` pair alongside the
metadata records. -/

/-- An embedded image reference, as seen through `doc.extract_image`. -/
structure ImageRef where
  ok : Bool
  bytes : List Nat
  ext : String
  width : Nat
  height : Nat
  deriving Repr, DecidableEq

/-- An extracted-image metadata record. -/
structure ImgRec where
  filename : String
  page_num : Nat
  width : Nat
  height : Nat
  size_bytes : Nat
  caption : String
  deriving Repr, DecidableEq

/-- State of the extraction loop. -/
structure ImgState where
  counter : Nat
  seen : List (List Nat)
  recs : List ImgRec
  writes : List (String × List Nat)
  deriving Repr, DecidableEq

/-- Zero-padded decimal of width `w` (Python `f"{n:0wd}"`). -/
def padNat (w n : Nat) : String :=
  let s := natRepr n
  String.mk (List.replicate (w - s.length) '0' ++ s)

/-- `f"page{page_num + 1:03d}_img{img_counter:02d}.{ext}"`. -/
def imgFilename (pageIdx counter : Nat) (ext : String) : String :=
  "page" ++ padNat 3 (pageIdx + 1) ++ "_img" ++ padNat 2 counter ++ "." ++ ext

/-- One image occurrence: skip failures, tiny byte sizes, already-seen content
(recording the hash happens before the dimension check, as in the source),
and small dimensions; otherwise write the file and record metadata. -/
def imgStep (min_size : Nat) (st : ImgState) (occ : Nat × ImageRef) : ImgState :=
  let pageIdx := occ.1
  let r := occ.2
  if ¬ r.ok then st
  else if r.bytes.length < min_size then st
  else if r.bytes ∈ st.seen then st
  else
    let st' := { st with seen := st.seen ++ [r.bytes] }
    if r.width < 150 ∨ r.height < 150 then st'
    else
      let counter' := st.counter + 1
      let fname := imgFilename pageIdx counter' r.ext
      { st' with
        counter := counter'
        recs := st.recs ++ [⟨fname, pageIdx + 1, r.width, r.height, r.bytes.length, ""⟩]
        writes := st.writes ++ [(fname, r.bytes)] }

/-- All image occurrences in document order, tagged with their 0-based page
index (the nested page/image loops of the source, flattened). -/
def occurrences (doc : List (List ImageRef)) : List (Nat × ImageRef) :=
  (doc.enum.map (fun pr => pr.2.map (fun r => (pr.1, r)))).flatten

/-- `extract_images`: the surviving metadata records and the written files. -/
def extract_images (doc : List (List ImageRef)) (min_size : Nat) :
    List ImgRec × List (String × List Nat) :=
  let st := (occurrences doc).foldl (imgStep min_size) ⟨0, [], [], []⟩
  (st.recs, st.writes)

/-! ## Specification predicates for the segmenter proofs -/

/-- The shape of the emitted `chapter_num` sequence: `0, 2, 3, ...` when the
front-matter chapter was emitted first (`b = true`), else `1, 2, 3, ...`. -/
def numsSpec (b : Bool) (n : Nat) : List Nat :=
  if b then 0 :: List.range' 2 (n - 1) else List.range' 1 n

/-- Loop invariant of `detect_chapters`: `done` are the closed chapters,
`cur` the open accumulator, `processed` the pages consumed so far. -/
structure SegInv (done : List Chapter) (cur : Chapter) (processed : List Page) : Prop where
  join_eq : (done.map Chapter.pages).flatten ++ cur.pages = processed
  done_nonempty : ∀ c ∈ done, c.pages ≠ []
  done_start : ∀ c ∈ done, c.start_page = (c.pages.map Page.page_num).headD 0
  done_end : ∀ c ∈ done, c.end_page = (c.pages.map Page.page_num).getLastD 0
  done_text : ∀ c ∈ done, c.text = String.intercalate "\n\n" (c.pages.map Page.text)
  done_title : ∀ c ∈ done, c.chapter_num ≠ 0 →
    ∃ p, c.pages.head? = some p ∧ headingHonored p = true ∧ c.title = titleOf p.text
  cur_nonempty : cur.chapter_num ≠ 0 → cur.pages ≠ []
  cur_title : cur.chapter_num ≠ 0 →
    ∃ p, cur.pages.head? = some p ∧ headingHonored p = true ∧ cur.title = titleOf p.text
  nums : ∃ b, done.map Chapter.chapter_num = numsSpec b done.length ∧
    (b = true → 0 < done.length)
  cur_num : (cur.chapter_num = 0 ∧ done = []) ∨ cur.chapter_num = done.length + 1

/-- What `detect_chapters` guarantees about its output, before any ordering
assumption on the input pages. -/
structure ChapsOK (chs : List Chapter) (pages : List Page) : Prop where
  join_eq : (chs.map Chapter.pages).flatten = pages
  nonempty : ∀ c ∈ chs, c.pages ≠ []
  starts : ∀ c ∈ chs, c.start_page = (c.pages.map Page.page_num).headD 0
  ends : ∀ c ∈ chs, c.end_page = (c.pages.map Page.page_num).getLastD 0
  texts : ∀ c ∈ chs, c.text = String.intercalate "\n\n" (c.pages.map Page.text)
  titles : ∀ c ∈ chs, c.chapter_num ≠ 0 →
    ∃ p, c.pages.head? = some p ∧ headingHonored p = true ∧ c.title = titleOf p.text
  nums : ∃ b, chs.map Chapter.chapter_num = numsSpec b chs.length ∧
    (b = true → 0 < chs.length)

/-- The title C8 describes, following the claim's words: the first two
non-empty lines of the page's whole text, trimmed and space-joined.  Defined
for comparison against the code's `titleOf` (which looks only at the first
five lines). -/
def claimTitle (text : String) : String :=
  String.intercalate " "
    (((pyLines text).filterMap
      (fun l => let s := pyStrip l; if s = "" then none else some s)).take 2)

/-! ## Scan-chunk predicates

Used to relate the `repair_json` scanner to the parser and the serializer: a
*neutral* chunk leaves any out-of-string scan state's bracket stack unchanged
(moving only `last_valid`); an *in-string* chunk finishes a string literal; a
*closing* chunk consumes exactly one pending open bracket `br`. -/

/-- Characters the scanner ignores outside strings. -/
def PlainChar (c : Char) : Prop :=
  c ≠ '"' ∧ c ≠ lbrace ∧ c ≠ '[' ∧ c ≠ rbrace ∧ c ≠ ']'

instance (c : Char) : Decidable (PlainChar c) := by
  unfold PlainChar
  infer_instance

/-- Scanning `p` from an out-of-string state with any stack returns the same
stack, out of string, having consumed exactly `p`. -/
def NeutralChunk (p : List Char) : Prop :=
  ∀ (S : List Char) (L i : Nat) (rest : List Char),
    ∃ L2, scanFrom ⟨S, L, false, false⟩ i (p ++ rest) =
      scanFrom ⟨S, L2, false, false⟩ (i + p.length) rest

/-- Scanning `p` from inside a string literal (no pending escape) ends just
outside the literal, with the stack untouched. -/
def InStringChunk (p : List Char) : Prop :=
  ∀ (S : List Char) (L i : Nat) (rest : List Char),
    ∃ L2, scanFrom ⟨S, L, true, false⟩ i (p ++ rest) =
      scanFrom ⟨S, L2, false, false⟩ (i + p.length) rest

/-- Scanning `p` from a state whose top (last) bracket is `br` pops exactly
that bracket. -/
def CloseChunk (br : Char) (p : List Char) : Prop :=
  ∀ (S : List Char) (L i : Nat) (rest : List Char),
    ∃ L2, scanFrom ⟨S ++ [br], L, false, false⟩ i (p ++ rest) =
      scanFrom ⟨S, L2, false, false⟩ (i + p.length) rest

/-- Scanning `p` pushes exactly `bs` on top of any stack (and ends outside a
string literal): the generalisation of `NeutralChunk` to unclosed brackets. -/
def OpenChunk (p bs : List Char) : Prop :=
  ∀ (S : List Char) (L i : Nat) (rest : List Char),
    ∃ L2, scanFrom ⟨S, L, false, false⟩ i (p ++ rest) =
      scanFrom ⟨S ++ bs, L2, false, false⟩ (i + p.length) rest

/-- Scanning `p` from inside a string literal returns to exactly the same
state: stack, `lastValid` and the in-string flag are all preserved.  This is
the behaviour of every complete escape block inside a serialized string. -/
def StrInner (p : List Char) : Prop :=
  ∀ (S : List Char) (L i : Nat) (rest : List Char),
    scanFrom ⟨S, L, true, false⟩ i (p ++ rest) =
      scanFrom ⟨S, L, true, false⟩ (i + p.length) rest

/-- A continuation on which the value parser may stop: empty, or starting
with a separator/closer.  Every context in which the serializer embeds a
value satisfies this. -/
def Stopper (rest : List Char) : Prop :=
  rest = [] ∨ ∃ c t, rest = c :: t ∧ (c = ',' ∨ c = ']' ∨ c = rbrace)

mutual

/-- Fuel sufficient for `parseValue` on the serialization of `v`. -/
def jsonWeight : Json → Nat
  | .null => 1
  | .bool _ => 1
  | .num _ => 1
  | .str _ => 1
  | .arr xs => jsonWeightA xs + 1
  | .obj ms => jsonWeightO ms + 1

/-- Fuel sufficient for `parseElems` on serialized elements. -/
def jsonWeightA : JsonArr → Nat
  | .nil => 1
  | .cons x t => max (jsonWeight x) (jsonWeightA t) + 1

/-- Fuel sufficient for `parseMembers` on serialized members. -/
def jsonWeightO : JsonObj → Nat
  | .nil => 1
  | .cons _ v t => max (jsonWeight v) (jsonWeightO t) + 1

end

/-! ## Concrete inputs used by witnesses and counterexamples -/

/-- The seven-page example from the spec (C3). -/
def c3pages : List Page :=
  [⟨1, "cover"⟩, ⟨2, "toc"⟩, ⟨3, "..."⟩, ⟨4, "..."⟩, ⟨5, "..."⟩,
   ⟨6, "Chapter 1\nIntro"⟩, ⟨7, "body"⟩]

/-- Two pages (fewer than 6) whose page numbers exceed the early-page guard:
blank-page removal makes such inputs possible. -/
def c4cex : List Page := [⟨10, "intro"⟩, ⟨11, "Chapter 1 Basics"⟩]

/-- A single low-numbered page. -/
def c4wPages : List Page := [⟨1, "hello"⟩]

/-- Sorted two-page input with one heading page. -/
def c1wPages : List Page := [⟨1, "alpha"⟩, ⟨6, "Chapter 1\nBody"⟩]

/-- A heading page whose first two non-empty lines sit beyond the first five
lines' window: four blank lines, then the heading, then a subtitle. -/
def c8cexPage : Page := ⟨6, "\n\n\n\nChapter 1\nIntro"⟩

/-- A heading page used by the C8 witness. -/
def c8wPage : Page := ⟨6, "Chapter 1\nIntro"⟩

/-- Transport that always raises a rate-limit error (C6 witness). -/
def c6wOutcomes : Nat → GenOutcome := fun _ => .raiseErr "429 Resource has been exhausted"

/-- A response whose parse error lands at character offset 429: a string
literal of 427 `a`s followed by a stray `x`.  `str(e)` is then
`"Extra data: line 1 column 430 (char 429)"`, which contains `"429"`. -/
def c7raw : String := String.mk ('"' :: (List.replicate 427 'a' ++ ['"', 'x']))

/-- Transport that always responds with `c7raw` (C7 counterexample). -/
def c7outcomes : Nat → GenOutcome := fun _ => .respond c7raw

/-- Transport that always responds with the unparseable text `"x"`
(C7 witness). -/
def c7wOutcomes : Nat → GenOutcome := fun _ => .respond "x"

/-- The one-element array `[1]` (C2 counterexample). -/
def c2cexVal : Json := .arr (.cons (.num 1) .nil)

/-- The nested array `[[1]]` (C2 witness). -/
def c2wVal : Json := .arr (.cons (.arr (.cons (.num 1) .nil)) .nil)

/-- A large-enough embedded image (C9 witness). -/
def c9ref : ImageRef := ⟨true, [7, 7], "png", 200, 200⟩

/-- A document bearing the same image on two pages (C9 witness). -/
def c9doc : List (List ImageRef) := [[c9ref], [c9ref]]

end ReadingGuides

namespace ReadingGuides

/-! ## Segmenter invariant lemmas -/

theorem headD_congr {α : Type} {l : List α} (h : l ≠ []) (a b : α) :
    l.headD a = l.headD b := by
  cases l with
  | nil => exact absurd rfl h
  | cons x xs => rfl

theorem getLastD_congr {α : Type} {l : List α} (h : l ≠ []) (a b : α) :
    l.getLastD a = l.getLastD b := by
  rcases List.exists_mem_of_ne_nil l h with ⟨x, -⟩
  rcases hy : l.getLast? with - | y
  · exact absurd (List.getLast?_eq_none_iff.mp hy) h
  · rw [List.getLastD_eq_getLast?, List.getLastD_eq_getLast?, hy]
    rfl

theorem range'_snoc (s n : Nat) : List.range' s n ++ [s + n] = List.range' s (n + 1) := by
  induction n generalizing s with
  | zero => simp
  | succ n ih =>
    rw [List.range'_succ s (n + 1), List.range'_succ s n]
    have h1 : s + (n + 1) = (s + 1) + n := by omega
    rw [List.cons_append, h1, ih (s + 1)]

theorem numsSpec_snoc (b : Bool) (n : Nat) (h : b = true → 0 < n) :
    numsSpec b n ++ [n + 1] = numsSpec b (n + 1) := by
  cases b with
  | false =>
    have := range'_snoc 1 n
    simpa [numsSpec, Nat.add_comm] using this
  | true =>
    have hn := h rfl
    have h2 : 2 + (n - 1) = n + 1 := by omega
    have h3 : (n + 1) - 1 = (n - 1) + 1 := by omega
    simp only [numsSpec, if_true, List.cons_append, h3]
    rw [← range'_snoc 2 (n - 1), h2]

theorem detectStep_inv {done : List Chapter} {cur : Chapter} {processed : List Page}
    (h : SegInv done cur processed) (page : Page) :
    SegInv (detectStep (done, cur) page).1 (detectStep (done, cur) page).2
      (processed ++ [page]) := by
  obtain ⟨hjoin, hne, hst, hen, htx, hti, hcne, hcti, hnums, hcn⟩ := h
  by_cases hh : headingHonored page = true
  · by_cases hc : cur.pages = []
    · -- honored match, empty accumulator: the accumulator is dropped
      have hstep : detectStep (done, cur) page =
          (done,
           { chapter_num := done.length + 1, title := titleOf page.text, pages := [page],
             start_page := page.page_num, end_page := page.page_num, text := "" }) := by
        simp [detectStep, hh, hc]
      rw [hstep]
      refine ⟨?_, hne, hst, hen, htx, hti, ?_, ?_, hnums, ?_⟩
      · simpa [hc] using congrArg (fun l => l ++ [page]) hjoin
      · simp
      · intro _
        exact ⟨page, rfl, hh, rfl⟩
      · exact Or.inr rfl
    · -- honored match, non-empty accumulator: close it and start a new one
      have hstep : detectStep (done, cur) page =
          (done ++ [closeChapter cur],
           { chapter_num := (done ++ [closeChapter cur]).length + 1,
             title := titleOf page.text, pages := [page],
             start_page := page.page_num, end_page := page.page_num, text := "" }) := by
        simp [detectStep, hh, List.isEmpty_iff, hc]
      rw [hstep]
      have hmapne : cur.pages.map Page.page_num ≠ [] := by
        simpa using hc
      refine ⟨?_, ?_, ?_, ?_, ?_, ?_, ?_, ?_, ?_, ?_⟩
      · simpa [closeChapter, List.append_assoc] using
          congrArg (fun l => l ++ [page]) hjoin
      · intro c hcmem
        rcases List.mem_append.mp hcmem with hmem | hmem
        · exact hne c hmem
        · simp only [List.mem_singleton] at hmem
          subst hmem
          simpa [closeChapter] using hc
      · intro c hcmem
        rcases List.mem_append.mp hcmem with hmem | hmem
        · exact hst c hmem
        · simp only [List.mem_singleton] at hmem
          subst hmem
          simpa [closeChapter] using headD_congr hmapne cur.start_page 0
      · intro c hcmem
        rcases List.mem_append.mp hcmem with hmem | hmem
        · exact hen c hmem
        · simp only [List.mem_singleton] at hmem
          subst hmem
          simpa [closeChapter] using getLastD_congr hmapne cur.end_page 0
      · intro c hcmem
        rcases List.mem_append.mp hcmem with hmem | hmem
        · exact htx c hmem
        · simp only [List.mem_singleton] at hmem
          subst hmem
          simp [closeChapter]
      · intro c hcmem
        rcases List.mem_append.mp hcmem with hmem | hmem
        · exact hti c hmem
        · simp only [List.mem_singleton] at hmem
          subst hmem
          intro hnz
          have := hcti (by simpa [closeChapter] using hnz)
          simpa [closeChapter] using this
      · simp
      · intro _
        exact ⟨page, rfl, hh, rfl⟩
      · obtain ⟨b, hb, hb0⟩ := hnums
        rcases hcn with ⟨h0, hdone⟩ | hlen
        · subst hdone
          refine ⟨true, ?_, fun _ => by simp⟩
          simp [closeChapter, h0, numsSpec]
        · refine ⟨b, ?_, fun hb' => by simp⟩
          have : (done ++ [closeChapter cur]).map Chapter.chapter_num =
              numsSpec b done.length ++ [done.length + 1] := by
            simp [closeChapter, hb, hlen]
          rw [this, numsSpec_snoc b done.length hb0]
          simp
      · exact Or.inr rfl
  · -- no honored match: append the page to the accumulator
    have hstep : detectStep (done, cur) page =
        (done, { cur with pages := cur.pages ++ [page] }) := by
      simp [detectStep, hh]
    rw [hstep]
    refine ⟨?_, hne, hst, hen, htx, hti, ?_, ?_, hnums, ?_⟩
    · simpa [List.append_assoc] using congrArg (fun l => l ++ [page]) hjoin
    · intro _
      simp
    · intro hnz
      obtain ⟨p, hp, hhp, htp⟩ := hcti hnz
      refine ⟨p, ?_, hhp, htp⟩
      rcases hpages : cur.pages with - | ⟨q, qs⟩
      · exact absurd hpages (hcne hnz)
      · simpa [hpages] using (by simpa [hpages] using hp)
    · simpa using hcn

theorem foldl_detectStep_inv (ps : List Page) :
    ∀ done cur processed, SegInv done cur processed →
      SegInv ((ps.foldl detectStep (done, cur)).1) ((ps.foldl detectStep (done, cur)).2)
        (processed ++ ps) := by
  induction ps with
  | nil =>
    intro done cur processed h
    simpa using h
  | cons p ps ih =>
    intro done cur processed h
    have h1 := detectStep_inv h p
    have h2 := ih (detectStep (done, cur) p).1 (detectStep (done, cur) p).2
      (processed ++ [p]) h1
    simpa [List.foldl_cons, List.append_assoc] using h2

theorem segInv_init : SegInv [] initialChapter [] := by
  refine ⟨rfl, ?_, ?_, ?_, ?_, ?_, ?_, ?_, ⟨false, rfl, by simp⟩, Or.inl ⟨rfl, rfl⟩⟩ <;>
    simp [initialChapter]

theorem detect_chapters_ok (pages : List Page) : ChapsOK (detect_chapters pages) pages := by
  have hinv := foldl_detectStep_inv pages [] initialChapter [] segInv_init
  obtain ⟨hjoin, hne, hst, hen, htx, hti, hcne, hcti, hnums, hcn⟩ := hinv
  set st := pages.foldl detectStep ([], initialChapter) with hstdef
  by_cases hemp : st.2.pages = []
  · have hres : detect_chapters pages = st.1 := by
      simp [detect_chapters, List.isEmpty_iff, hemp, ← hstdef]
    rw [hres]
    exact ⟨by simpa [hemp] using hjoin, hne, hst, hen, htx, hti, hnums⟩
  · have hres : detect_chapters pages = st.1 ++ [closeChapter st.2] := by
      simp [detect_chapters, List.isEmpty_iff, hemp, ← hstdef]
    rw [hres]
    have hmapne : st.2.pages.map Page.page_num ≠ [] := by simpa using hemp
    refine ⟨?_, ?_, ?_, ?_, ?_, ?_, ?_⟩
    · simpa [closeChapter, List.append_assoc] using hjoin
    · intro c hcmem
      rcases List.mem_append.mp hcmem with hmem | hmem
      · exact hne c hmem
      · simp only [List.mem_singleton] at hmem
        subst hmem
        simpa [closeChapter] using hemp
    · intro c hcmem
      rcases List.mem_append.mp hcmem with hmem | hmem
      · exact hst c hmem
      · simp only [List.mem_singleton] at hmem
        subst hmem
        simpa [closeChapter] using headD_congr hmapne st.2.start_page 0
    · intro c hcmem
      rcases List.mem_append.mp hcmem with hmem | hmem
      · exact hen c hmem
      · simp only [List.mem_singleton] at hmem
        subst hmem
        simpa [closeChapter] using getLastD_congr hmapne st.2.end_page 0
    · intro c hcmem
      rcases List.mem_append.mp hcmem with hmem | hmem
      · exact htx c hmem
      · simp only [List.mem_singleton] at hmem
        subst hmem
        simp [closeChapter]
    · intro c hcmem
      rcases List.mem_append.mp hcmem with hmem | hmem
      · exact hti c hmem
      · simp only [List.mem_singleton] at hmem
        subst hmem
        intro hnz
        have := hcti (by simpa [closeChapter] using hnz)
        simpa [closeChapter] using this
    · obtain ⟨b, hb, hb0⟩ := hnums
      rcases hcn with ⟨h0, hdone⟩ | hlen
      · rw [hdone]
        refine ⟨true, ?_, fun _ => by simp⟩
        simp [closeChapter, h0, numsSpec]
      · refine ⟨b, ?_, fun hb' => by simp⟩
        have : (st.1 ++ [closeChapter st.2]).map Chapter.chapter_num =
            numsSpec b st.1.length ++ [st.1.length + 1] := by
          simp [closeChapter, hb, hlen]
        rw [this, numsSpec_snoc b st.1.length hb0]
        simp

/-! ## Ordering consequences for sorted inputs -/

theorem le_getLastD_of_chain_lt :
    ∀ (l : List Nat), l.Chain' (· < ·) → ∀ x ∈ l, x ≤ l.getLastD 0 := by
  intro l
  induction l with
  | nil => intro _ x hx; cases hx
  | cons a l ih =>
    intro hchain x hx
    rw [List.chain'_cons'] at hchain
    rcases List.mem_cons.mp hx with rfl | hx'
    · rcases l with - | ⟨b, m⟩
      · simp
      · have hab : x < b := hchain.1 b rfl
        have hb := ih hchain.2 b (by simp)
        have hlast : (x :: b :: m).getLastD 0 = (b :: m).getLastD 0 := by
          simp [List.getLastD_cons]
        rw [hlast]
        exact le_trans (le_of_lt hab) hb
    · have hx2 := ih hchain.2 x hx'
      rcases l with - | ⟨b, m⟩
      · cases hx'
      · have hlast : (a :: b :: m).getLastD 0 = (b :: m).getLastD 0 := by
          simp [List.getLastD_cons]
        rw [hlast]
        exact hx2

theorem headD_le_of_chain_lt :
    ∀ (l : List Nat), l.Chain' (· < ·) → ∀ x ∈ l, l.headD 0 ≤ x := by
  intro l
  induction l with
  | nil => intro _ x hx; cases hx
  | cons a l ih =>
    intro hchain x hx
    rw [List.chain'_cons'] at hchain
    rcases List.mem_cons.mp hx with rfl | hx'
    · simp
    · rcases l with - | ⟨b, m⟩
      · cases hx'
      · have hab : a < b := hchain.1 b rfl
        have := ih hchain.2 x hx'
        simp only [List.headD_cons] at this ⊢
        exact le_trans (le_of_lt hab) this

/-- C1's conclusions, given input pages sorted by strictly increasing
`page_num` (the Page Extractor's output contract). -/
theorem segmenter_sorted_facts (pages : List Page)
    (hsorted : pages.Chain' (fun a b => a.page_num < b.page_num)) :
    (∀ c ∈ detect_chapters pages, c.start_page ≤ c.end_page) ∧
    (detect_chapters pages).Chain' (fun c1 c2 => c1.end_page < c2.start_page) ∧
    (∀ c ∈ detect_chapters pages, ∀ p ∈ c.pages,
      c.start_page ≤ p.page_num ∧ p.page_num ≤ c.end_page) := by
  have OK := detect_chapters_ok pages
  have hnil : [] ∉ (detect_chapters pages).map Chapter.pages := by
    intro hmem
    obtain ⟨c, hc, hcp⟩ := List.mem_map.mp hmem
    exact OK.nonempty c hc hcp
  have hflat : ((detect_chapters pages).map Chapter.pages).flatten.Chain'
      (fun a b => a.page_num < b.page_num) := by
    rw [OK.join_eq]; exact hsorted
  rw [List.chain'_flatten hnil] at hflat
  obtain ⟨hwithin, hacross⟩ := hflat
  have hnumchain : ∀ c ∈ detect_chapters pages,
      (c.pages.map Page.page_num).Chain' (· < ·) := by
    intro c hc
    rw [List.chain'_map]
    exact hwithin c.pages (List.mem_map_of_mem _ hc)
  have hinrange : ∀ c ∈ detect_chapters pages, ∀ p ∈ c.pages,
      c.start_page ≤ p.page_num ∧ p.page_num ≤ c.end_page := by
    intro c hc p hp
    have hmem : p.page_num ∈ c.pages.map Page.page_num := List.mem_map_of_mem _ hp
    rw [OK.starts c hc, OK.ends c hc]
    exact ⟨headD_le_of_chain_lt _ (hnumchain c hc) _ hmem,
      le_getLastD_of_chain_lt _ (hnumchain c hc) _ hmem⟩
  refine ⟨?_, ?_, hinrange⟩
  · intro c hc
    obtain ⟨p, hp⟩ := List.exists_mem_of_ne_nil c.pages (OK.nonempty c hc)
    obtain ⟨h1, h2⟩ := hinrange c hc p hp
    omega
  · rw [List.chain'_iff_get]
    intro i hi
    have hlen : (detect_chapters pages).length =
        ((detect_chapters pages).map Chapter.pages).length := by simp
    have hacross' := (List.chain'_iff_get.mp hacross) i (by omega)
    set c1 := (detect_chapters pages).get ⟨i, by omega⟩ with hc1
    set c2 := (detect_chapters pages).get ⟨i + 1, by omega⟩ with hc2
    have hm1 : c1 ∈ detect_chapters pages := List.get_mem _ _ _
    have hm2 : c2 ∈ detect_chapters pages := List.get_mem _ _ _
    have hg1 : ((detect_chapters pages).map Chapter.pages).get
        ⟨i, by omega⟩ = c1.pages := by
      simp [hc1, List.getElem_map, List.get_eq_getElem]
    have hg2 : ((detect_chapters pages).map Chapter.pages).get
        ⟨i + 1, by omega⟩ = c2.pages := by
      simp [hc2, List.getElem_map, List.get_eq_getElem]
    rw [hg1, hg2] at hacross'
    obtain ⟨x, hx⟩ := List.exists_mem_of_ne_nil c1.pages (OK.nonempty c1 hm1)
    obtain ⟨y, hy⟩ := List.exists_mem_of_ne_nil c2.pages (OK.nonempty c2 hm2)
    rcases hlast : c1.pages.getLast? with - | xe
    · exact absurd (List.getLast?_eq_none_iff.mp hlast) (OK.nonempty c1 hm1)
    rcases hhead : c2.pages.head? with - | yh
    · exact absurd (List.head?_eq_none_iff.mp hhead) (OK.nonempty c2 hm2)
    have hrel := hacross' xe hlast yh hhead
    have hend : c1.end_page = xe.page_num := by
      rw [OK.ends c1 hm1, List.getLastD_eq_getLast?, List.getLast?_map, hlast]
      rfl
    have hstart : c2.start_page = yh.page_num := by
      rw [OK.starts c2 hm2]
      rcases hps : c2.pages with - | ⟨q, qs⟩
      · exact absurd hps (OK.nonempty c2 hm2)
      · rw [hps] at hhead
        simp only [List.head?_cons, Option.some.injEq] at hhead
        simp [hhead]
    rw [hend, hstart]
    exact hrel

/-- Interval separation between chapters at distinct indices. -/
theorem segmenter_sep (pages : List Page)
    (hsorted : pages.Chain' (fun a b => a.page_num < b.page_num)) :
    ∀ i j (hij : i < j) (hj : j < (detect_chapters pages).length),
      ((detect_chapters pages).get ⟨i, by omega⟩).end_page <
        ((detect_chapters pages).get ⟨j, hj⟩).start_page := by
  obtain ⟨hse, hchain, -⟩ := segmenter_sorted_facts pages hsorted
  intro i j hij hj
  induction j with
  | zero => omega
  | succ k ihk =>
    have hk : k < (detect_chapters pages).length := by omega
    have hstep := (List.chain'_iff_get.mp hchain) k (by omega)
    rcases Nat.lt_or_ge i k with hik | hik
    · have := ihk hik hk
      have hsek := hse ((detect_chapters pages).get ⟨k, hk⟩) (List.get_mem _ _ _)
      omega
    · have : i = k := by omega
      subst this
      exact hstep

/-! ## Claim theorems: chapter segmenter -/

/-- C1: for every input page sequence (ordered by strictly increasing page
number, the Page Extractor's contract), the chapters returned by
`detect_chapters` cover every input page exactly once and in order: the
concatenation of the chapters' page lists is the input, every chapter has at
least one page, page ranges satisfy `start_page ≤ end_page`, consecutive
ranges are disjoint and ascending, and every input page falls in the range of
exactly one returned chapter. -/
theorem C1_segmenter_partition (pages : List Page)
    (hsorted : pages.Chain' (fun a b => a.page_num < b.page_num)) :
    ((detect_chapters pages).map Chapter.pages).flatten = pages ∧
    (∀ c ∈ detect_chapters pages, c.pages ≠ []) ∧
    (∀ c ∈ detect_chapters pages, c.start_page ≤ c.end_page) ∧
    (detect_chapters pages).Chain' (fun c1 c2 => c1.end_page < c2.start_page) ∧
    ∀ p ∈ pages, ∃! c, c ∈ detect_chapters pages ∧
      c.start_page ≤ p.page_num ∧ p.page_num ≤ c.end_page := by
  have OK := detect_chapters_ok pages
  obtain ⟨hse, hchain, hinrange⟩ := segmenter_sorted_facts pages hsorted
  refine ⟨OK.join_eq, OK.nonempty, hse, hchain, ?_⟩
  intro p hp
  have hpin : p ∈ ((detect_chapters pages).map Chapter.pages).flatten := by
    rw [OK.join_eq]; exact hp
  obtain ⟨lp, hlp, hplp⟩ := List.mem_flatten.mp hpin
  obtain ⟨c, hc, hcp⟩ := List.mem_map.mp hlp
  subst hcp
  obtain ⟨hb1, hb2⟩ := hinrange c hc p hplp
  refine ⟨c, ⟨hc, hb1, hb2⟩, ?_⟩
  rintro c' ⟨hc', hs', he'⟩
  by_contra hne'
  obtain ⟨⟨j, hj⟩, hgj⟩ := List.mem_iff_get.mp hc'
  obtain ⟨⟨i, hi⟩, hgi⟩ := List.mem_iff_get.mp hc
  have hij : i ≠ j := by
    intro hh
    subst hh
    rw [hgj] at hgi
    exact hne' hgi
  rcases Nat.lt_or_ge i j with hlt | hge
  · have := segmenter_sep pages hsorted i j hlt hj
    rw [hgi, hgj] at this
    omega
  · have hlt : j < i := by omega
    have := segmenter_sep pages hsorted j i hlt hi
    rw [hgi, hgj] at this
    omega

/-- Witness for C1 at a concrete sorted input. -/
theorem C1_witness :
    (c1wPages.Chain' (fun a b => a.page_num < b.page_num)) ∧
    (((detect_chapters c1wPages).map Chapter.pages).flatten = c1wPages ∧
    (∀ c ∈ detect_chapters c1wPages, c.pages ≠ []) ∧
    (∀ c ∈ detect_chapters c1wPages, c.start_page ≤ c.end_page) ∧
    (detect_chapters c1wPages).Chain' (fun c1 c2 => c1.end_page < c2.start_page) ∧
    ∀ p ∈ c1wPages, ∃! c, c ∈ detect_chapters c1wPages ∧
      c.start_page ≤ p.page_num ∧ p.page_num ≤ c.end_page) := by
  have hch : c1wPages.Chain' (fun a b => a.page_num < b.page_num) :=
    List.chain'_cons.mpr ⟨by decide, List.chain'_singleton _⟩
  exact ⟨hch, C1_segmenter_partition c1wPages hch⟩

/-- C10: the emitted `chapter_num`s are strictly increasing; a chapter
numbered 0 (front matter) forces the sequence `0, 2, 3, ...` (1 is never
assigned), and without a front-matter chapter the sequence is `1, 2, 3, ...`. -/
theorem C10_numbering (pages : List Page) :
    ((detect_chapters pages).map Chapter.chapter_num).Chain' (· < ·) ∧
    (∀ c ∈ detect_chapters pages, c.chapter_num = 0 →
      (detect_chapters pages).map Chapter.chapter_num =
        0 :: List.range' 2 ((detect_chapters pages).length - 1)) ∧
    ((∀ c ∈ detect_chapters pages, c.chapter_num ≠ 0) →
      (detect_chapters pages).map Chapter.chapter_num =
        List.range' 1 (detect_chapters pages).length) := by
  obtain ⟨b, hb, hb0⟩ := (detect_chapters_ok pages).nums
  have hrangechain : ∀ s n : Nat, (List.range' s n).Chain' (· < ·) := by
    intro s n
    exact (List.pairwise_lt_range' s n 1 (by omega)).chain'
  refine ⟨?_, ?_, ?_⟩
  · rw [hb]
    cases b with
    | false => exact hrangechain 1 _
    | true =>
      simp only [numsSpec, if_true]
      rw [List.chain'_cons']
      refine ⟨?_, hrangechain 2 _⟩
      intro y hy
      rcases hn : (detect_chapters pages).length - 1 with - | m
      · rw [hn] at hy; cases hy
      · rw [hn, List.range'_succ] at hy
        simp only [List.head?_cons, Option.mem_def, Option.some.injEq] at hy
        omega
  · intro c hc h0
    cases b with
    | false =>
      have h0mem : (0 : Nat) ∈ (detect_chapters pages).map Chapter.chapter_num := by
        rw [← h0]; exact List.mem_map_of_mem _ hc
      rw [hb] at h0mem
      simp only [numsSpec, if_neg Bool.false_ne_true] at h0mem
      have := (List.mem_range'_1.mp h0mem).1
      omega
    | true =>
      rw [hb]
      simp [numsSpec]
  · intro hall
    cases b with
    | true =>
      exfalso
      have h1 : 0 < (detect_chapters pages).length := hb0 rfl
      have h0mem : (0 : Nat) ∈ (detect_chapters pages).map Chapter.chapter_num := by
        rw [hb]
        simp [numsSpec]
      obtain ⟨c, hc, hc0⟩ := List.mem_map.mp h0mem
      exact hall c hc hc0
    | false =>
      rw [hb]
      simp [numsSpec]

/-- Witness for C10 at the spec's seven-page input. -/
theorem C10_witness :
    ((detect_chapters c3pages).map Chapter.chapter_num).Chain' (· < ·) ∧
    (∀ c ∈ detect_chapters c3pages, c.chapter_num = 0 →
      (detect_chapters c3pages).map Chapter.chapter_num =
        0 :: List.range' 2 ((detect_chapters c3pages).length - 1)) ∧
    ((∀ c ∈ detect_chapters c3pages, c.chapter_num ≠ 0) →
      (detect_chapters c3pages).map Chapter.chapter_num =
        List.range' 1 (detect_chapters c3pages).length) :=
  C10_numbering c3pages

/-- C3 counterexample: on the spec's seven-page input no returned chapter is
numbered 1 — the detected chapter is numbered 2 (`len(chapters) + 1` counts
the already-emitted front-matter chapter). -/
theorem C3_counterexample :
    ¬ ∃ c ∈ detect_chapters c3pages, c.chapter_num = 1 := by decide

/-- C3 amended: the seven-page input yields exactly two chapters, the
front-matter chapter (number 0) covering pages 1–5 and a chapter numbered 2
(not 1) covering pages 6–7. -/
theorem C3_example_amended :
    detect_chapters c3pages =
      [⟨0, "Front Matter",
        [⟨1, "cover"⟩, ⟨2, "toc"⟩, ⟨3, "..."⟩, ⟨4, "..."⟩, ⟨5, "..."⟩], 1, 5,
        "cover\n\ntoc\n\n...\n\n...\n\n..."⟩,
       ⟨2, "Chapter 1 Intro", [⟨6, "Chapter 1\nIntro"⟩, ⟨7, "body"⟩], 6, 7,
        "Chapter 1\nIntro\n\nbody"⟩] := by decide

/-- C4 counterexample: two pages (fewer than 6) with page numbers past the
early-page guard produce two chapters, not one. -/
theorem C4_counterexample :
    c4cex.length < 6 ∧ (detect_chapters c4cex).length ≠ 1 := by decide

/-- C4 amended: for every non-empty page sequence all of whose page numbers
are at most 5 — in particular the pages of any document with fewer than 6
pages — the segmenter returns exactly one chapter. -/
theorem C4_amended (pages : List Page) (hne : pages ≠ [])
    (hlow : ∀ p ∈ pages, p.page_num ≤ 5) :
    (detect_chapters pages).length = 1 := by
  have hnh : ∀ p ∈ pages, headingHonored p = false := by
    intro p hp
    unfold headingHonored
    have hd : decide (5 < p.page_num) = false := by
      rw [decide_eq_false_iff_not]
      have := hlow p hp
      omega
    rw [hd]
    exact Bool.and_false _
  have key : ∀ (ps : List Page) (done : List Chapter) (cur : Chapter),
      (∀ p ∈ ps, headingHonored p = false) →
      ps.foldl detectStep (done, cur) = (done, { cur with pages := cur.pages ++ ps }) := by
    intro ps
    induction ps with
    | nil => intro done cur _; simp
    | cons p ps ih =>
      intro done cur hall
      have hp := hall p (by simp)
      rw [List.foldl_cons]
      have hstep : detectStep (done, cur) p = (done, { cur with pages := cur.pages ++ [p] }) := by
        simp [detectStep, hp]
      rw [hstep, ih done _ (fun q hq => hall q (by simp [hq]))]
      simp
  have hres := key pages [] initialChapter hnh
  unfold detect_chapters
  rw [hres]
  simp [initialChapter, List.isEmpty_iff, hne]

/-- Witness for C4 at a one-page input. -/
theorem C4_witness :
    c4wPages ≠ [] ∧ (∀ p ∈ c4wPages, p.page_num ≤ 5) ∧
      (detect_chapters c4wPages).length = 1 :=
  ⟨by decide, by decide, C4_amended c4wPages (by decide) (by decide)⟩

/-- C8 counterexample: a heading honored on a page whose first two non-empty
lines extend beyond the five-line window gets a title from the window only
(`"Chapter 1"`), not from the first two non-empty lines of the whole text
(`"Chapter 1 Intro"`). -/
theorem C8_counterexample :
    ∃ c ∈ detect_chapters [c8cexPage], c.pages.head? = some c8cexPage ∧
      headingHonored c8cexPage = true ∧ c.title ≠ claimTitle c8cexPage.text := by decide

/-- C8 amended: every non-front-matter chapter starts with its honored
heading page, and its title is the first two non-empty lines *among the first
five lines* of that page's text, each trimmed, joined by one space (which is
what `titleOf` computes). -/
theorem C8_title_amended (pages : List Page) {c : Chapter}
    (hc : c ∈ detect_chapters pages) (hnz : c.chapter_num ≠ 0) :
    ∃ p, c.pages.head? = some p ∧ headingHonored p = true ∧ c.title = titleOf p.text :=
  (detect_chapters_ok pages).titles c hc hnz

/-- Witness for C8 at a one-page input. -/
theorem C8_witness :
    (⟨1, "Chapter 1 Intro", [c8wPage], 6, 6, "Chapter 1\nIntro"⟩ : Chapter) ∈
        detect_chapters [c8wPage] ∧
    (⟨1, "Chapter 1 Intro", [c8wPage], 6, 6, "Chapter 1\nIntro"⟩ : Chapter).chapter_num ≠ 0 ∧
    ∃ p, (⟨1, "Chapter 1 Intro", [c8wPage], 6, 6, "Chapter 1\nIntro"⟩ : Chapter).pages.head?
        = some p ∧ headingHonored p = true ∧
      (⟨1, "Chapter 1 Intro", [c8wPage], 6, 6, "Chapter 1\nIntro"⟩ : Chapter).title
        = titleOf p.text :=
  ⟨by decide, by decide, C8_title_amended [c8wPage] (by decide) (by decide)⟩

/-! ## Claim theorems: resilient generation client -/

theorem runAux_rate_retry (outcomes : Nat → GenOutcome) (fuel attempt : Nat) (m : String)
    (ho : outcomes attempt = .raiseErr m) (hm : isRateFlavored m = true)
    (hlt : attempt < max_retries) :
    runAttemptsAux outcomes (fuel + 1) attempt =
      ((if 0 < attempt then [base_delay * 2 ^ (attempt - 1)] else []) ++
        (runAttemptsAux outcomes fuel (attempt + 1)).1,
       (runAttemptsAux outcomes fuel (attempt + 1)).2) := by
  simp [runAttemptsAux, ho, attemptResult, strOfExn, hm, hlt]

theorem runAux_last (outcomes : Nat → GenOutcome) (fuel : Nat) (m : String)
    (ho : outcomes 3 = .raiseErr m) :
    runAttemptsAux outcomes (fuel + 1) 3 = ([120], .error (.transport m)) := by
  simp [runAttemptsAux, ho, attemptResult, strOfExn, max_retries, base_delay]

/-- C6: when every attempt raises a transport error whose message indicates a
rate limit, `call_gemini` retries exactly 3 times after the initial attempt,
sleeping exactly 30, 60 and 120 seconds before retries 1, 2 and 3, and then
propagates the last attempt's error. -/
theorem C6_rate_limit_backoff (outcomes : Nat → GenOutcome)
    (h : ∀ k, k ≤ 3 → ∃ m, outcomes k = .raiseErr m ∧ isRateFlavored m = true) :
    ∃ m, outcomes 3 = .raiseErr m ∧
      call_gemini outcomes = ([30, 60, 120], .error (.transport m)) := by
  obtain ⟨m0, h0, r0⟩ := h 0 (by omega)
  obtain ⟨m1, h1, r1⟩ := h 1 (by omega)
  obtain ⟨m2, h2, r2⟩ := h 2 (by omega)
  obtain ⟨m3, h3, r3⟩ := h 3 (by omega)
  refine ⟨m3, h3, ?_⟩
  have s3 : runAttemptsAux outcomes 1 3 = ([120], .error (.transport m3)) :=
    runAux_last outcomes 0 m3 h3
  have s2 : runAttemptsAux outcomes 2 2 = ([60, 120], .error (.transport m3)) := by
    rw [runAux_rate_retry outcomes 1 2 m2 h2 r2 (by decide), s3]
    norm_num [base_delay]
  have s1 : runAttemptsAux outcomes 3 1 = ([30, 60, 120], .error (.transport m3)) := by
    rw [runAux_rate_retry outcomes 2 1 m1 h1 r1 (by decide), s2]
    norm_num [base_delay]
  have s0 : runAttemptsAux outcomes 4 0 = ([30, 60, 120], .error (.transport m3)) := by
    rw [runAux_rate_retry outcomes 3 0 m0 h0 r0 (by decide), s1]
    norm_num
  exact s0

/-- Witness for C6: a transport that always raises a 429 error. -/
theorem C6_witness :
    ∃ m, c6wOutcomes 3 = .raiseErr m ∧
      call_gemini c6wOutcomes = ([30, 60, 120], .error (.transport m)) :=
  C6_rate_limit_backoff c6wOutcomes (fun k _ => ⟨_, rfl, by decide⟩)

set_option maxRecDepth 200000 in
/-- C7 counterexample: a response whose strict parse and repaired parse both
fail, where the parse error's rendered message happens to contain `"429"`
(the failure offset), is retried with the full backoff — the sleeps are
`[30, 60, 120]`, not none. -/
theorem C7_counterexample :
    stripFence (pyStrip c7raw) = .ok c7raw ∧
    jsonLoads c7raw = .error ⟨"Extra data", 429⟩ ∧
    jsonLoads (repair_json c7raw) = .error ⟨"Extra data", 429⟩ ∧
    (call_gemini c7outcomes).1 = [30, 60, 120] :=
  ⟨rfl, rfl, rfl, rfl⟩

/-- C7 amended: when the strict parse of the (fence-stripped) response fails,
the parse of the repaired text also fails, and the rendered
`JSONDecodeError` message does not itself contain a rate-limit indicator
(`"429"`, `"quota"` or `"rate"`), the parse error propagates immediately as
fatal: no backoff sleep is performed and no further attempt is made,
whatever the transport would have returned on later attempts. -/
theorem C7_parse_failure_fatal (outcomes : Nat → GenOutcome) (raw text : String)
    (h0 : outcomes 0 = .respond raw)
    (hsf : stripFence (pyStrip raw) = .ok text)
    (e1 : ParseErr) (h1 : jsonLoads text = .error e1)
    (e2 : ParseErr) (h2 : jsonLoads (repair_json text) = .error e2)
    (hnr : isRateFlavored (renderErr (repair_json text) e2) = false) :
    call_gemini outcomes = ([], .error (.jsonDecode (repair_json text) e2)) := by
  have hres : attemptResult (outcomes 0) = .error (.jsonDecode (repair_json text) e2) := by
    rw [h0]
    simp [attemptResult, processResponse, hsf, h1, h2]
  show runAttemptsAux outcomes 4 0 = _
  simp [runAttemptsAux, hres, strOfExn, hnr]

/-- Witness for C7 at the unparseable response `"x"`. -/
theorem C7_witness :
    c7wOutcomes 0 = .respond "x" ∧
    stripFence (pyStrip "x") = .ok "x" ∧
    jsonLoads "x" = .error ⟨"Expecting value", 0⟩ ∧
    jsonLoads (repair_json "x") = .error ⟨"Expecting value", 0⟩ ∧
    isRateFlavored (renderErr (repair_json "x") ⟨"Expecting value", 0⟩) = false ∧
    call_gemini c7wOutcomes = ([], .error (.jsonDecode (repair_json "x") ⟨"Expecting value", 0⟩)) :=
  ⟨rfl, rfl, rfl, rfl, rfl,
   C7_parse_failure_fatal c7wOutcomes "x" "x" rfl rfl _ rfl _ rfl rfl⟩

/-! ## Claim theorems: image extractor -/

theorem imgStep_fold_names (min_size : Nat) :
    ∀ (os : List (Nat × ImageRef)) (st : ImgState),
    st.recs.map ImgRec.filename = st.writes.map Prod.fst →
    (os.foldl (imgStep min_size) st).recs.map ImgRec.filename =
      (os.foldl (imgStep min_size) st).writes.map Prod.fst := by
  intro os
  induction os with
  | nil => intro st h; exact h
  | cons o os ih =>
    intro st h
    rw [List.foldl_cons]
    refine ih _ ?_
    unfold imgStep
    by_cases h1 : o.2.ok
    · by_cases h2 : o.2.bytes.length < min_size
      · simp [h1, h2, h]
      · by_cases h3 : o.2.bytes ∈ st.seen
        · simp [h1, h2, h3, h]
        · by_cases h4 : o.2.width < 150 ∨ o.2.height < 150
          · simp [h1, h2, h3, h4, h]
          · simp [h1, h2, h3, h4, h]
    · simp [h1, h]

theorem imgStep_skip_seen (min_size : Nat) (st : ImgState) (o : Nat × ImageRef)
    (hok : o.2.ok = true) (hsz : min_size ≤ o.2.bytes.length)
    (hseen : o.2.bytes ∈ st.seen) : imgStep min_size st o = st := by
  unfold imgStep
  have h2 : ¬ o.2.bytes.length < min_size := by omega
  simp [hok, h2, hseen]

theorem imgStep_eligible (min_size : Nat) (st : ImgState) (o : Nat × ImageRef)
    (hok : o.2.ok = true) (hsz : min_size ≤ o.2.bytes.length)
    (hw : 150 ≤ o.2.width) (hh : 150 ≤ o.2.height) (hseen : o.2.bytes ∉ st.seen) :
    (imgStep min_size st o).seen = st.seen ++ [o.2.bytes] ∧
    (imgStep min_size st o).writes =
      st.writes ++ [(imgFilename o.1 (st.counter + 1) o.2.ext, o.2.bytes)] := by
  unfold imgStep
  have h2 : ¬ o.2.bytes.length < min_size := by omega
  have h4 : ¬ (o.2.width < 150 ∨ o.2.height < 150) := by omega
  simp [hok, h2, hseen, h4]

theorem imgStep_cases (min_size : Nat) (st : ImgState) (o : Nat × ImageRef) :
    ((imgStep min_size st o).seen = st.seen ∧ (imgStep min_size st o).writes = st.writes) ∨
    ((imgStep min_size st o).seen = st.seen ++ [o.2.bytes] ∧
      ((imgStep min_size st o).writes = st.writes ∨
       (imgStep min_size st o).writes =
         st.writes ++ [(imgFilename o.1 (st.counter + 1) o.2.ext, o.2.bytes)])) := by
  unfold imgStep
  by_cases h1 : o.2.ok
  · by_cases h2 : o.2.bytes.length < min_size
    · left; simp [h1, h2]
    · by_cases h3 : o.2.bytes ∈ st.seen
      · left; simp [h1, h2, h3]
      · by_cases h4 : o.2.width < 150 ∨ o.2.height < 150
        · right; simp [h1, h2, h3, h4]
        · right; simp [h1, h2, h3, h4]
  · left; simp [h1]

theorem imgStep_fold_count (min_size : Nat) (b : List Nat) :
    ∀ (os : List (Nat × ImageRef)) (st : ImgState),
    (∀ pr ∈ os, pr.2.bytes = b → pr.2.ok = true ∧ min_size ≤ pr.2.bytes.length ∧
      150 ≤ pr.2.width ∧ 150 ≤ pr.2.height) →
    ((st.writes.filter (fun w => w.2 = b)).length = if b ∈ st.seen then 1 else 0) →
    ((os.foldl (imgStep min_size) st).writes.filter (fun w => w.2 = b)).length =
      if b ∈ st.seen ∨ ∃ pr ∈ os, pr.2.bytes = b then 1 else 0 := by
  intro os
  induction os with
  | nil =>
    intro st _ hinv
    simpa using hinv
  | cons o os ih =>
    intro st hall hinv
    rw [List.foldl_cons]
    have halltail : ∀ pr ∈ os, pr.2.bytes = b → pr.2.ok = true ∧
        min_size ≤ pr.2.bytes.length ∧ 150 ≤ pr.2.width ∧ 150 ≤ pr.2.height :=
      fun pr hpr => hall pr (List.mem_cons_of_mem _ hpr)
    by_cases hob : o.2.bytes = b
    · obtain ⟨hok, hsz, hw, hh⟩ := hall o (List.mem_cons_self _ _) hob
      by_cases hseen : b ∈ st.seen
      · rw [imgStep_skip_seen min_size st o hok hsz (by rw [hob]; exact hseen)]
        rw [ih st halltail hinv]
        exact if_congr (iff_of_true (Or.inl hseen) (Or.inl hseen)) rfl rfl
      · obtain ⟨hs1, hw1⟩ :=
          imgStep_eligible min_size st o hok hsz hw hh (by rw [hob]; exact hseen)
        have hmem1 : b ∈ (imgStep min_size st o).seen := by
          rw [hs1, hob]
          exact List.mem_append_right _ (List.mem_singleton_self b)
        have hinv1 : (((imgStep min_size st o).writes.filter (fun w => w.2 = b)).length =
            if b ∈ (imgStep min_size st o).seen then 1 else 0) := by
          rw [hw1, List.filter_append, if_pos hmem1]
          simp [hob, hinv, hseen]
        rw [ih _ halltail hinv1]
        exact if_congr
          (iff_of_true (Or.inl hmem1) (Or.inr ⟨o, List.mem_cons_self _ _, hob⟩)) rfl rfl
    · have hecons : (∃ pr ∈ o :: os, pr.2.bytes = b) ↔ (∃ pr ∈ os, pr.2.bytes = b) := by
        constructor
        · rintro ⟨pr, hpr, hb⟩
          rcases List.mem_cons.mp hpr with rfl | hpr'
          · exact absurd hb hob
          · exact ⟨pr, hpr', hb⟩
        · rintro ⟨pr, hpr, hb⟩
          exact ⟨pr, List.mem_cons_of_mem _ hpr, hb⟩
      have hob2 : b ≠ o.2.bytes := fun hb => hob hb.symm
      rcases imgStep_cases min_size st o with ⟨hs1, hw1⟩ | ⟨hs1, hw1⟩
      · have hinv1 : (((imgStep min_size st o).writes.filter (fun w => w.2 = b)).length =
            if b ∈ (imgStep min_size st o).seen then 1 else 0) := by
          rw [hs1, hw1]; exact hinv
        rw [ih _ halltail hinv1, hs1]
        exact if_congr (or_congr Iff.rfl hecons.symm) rfl rfl
      · have hmemI : b ∈ (imgStep min_size st o).seen ↔ b ∈ st.seen := by
          rw [hs1]
          simp [List.mem_append, hob2]
        have hfil : (imgStep min_size st o).writes.filter (fun w => w.2 = b) =
            st.writes.filter (fun w => w.2 = b) := by
          rcases hw1 with hw1 | hw1
          · rw [hw1]
          · rw [hw1, List.filter_append]
            simp [hob]
        have hinv1 : (((imgStep min_size st o).writes.filter (fun w => w.2 = b)).length =
            if b ∈ (imgStep min_size st o).seen then 1 else 0) := by
          rw [hfil, hinv]
          exact (if_congr hmemI rfl rfl).symm
        rw [ih _ halltail hinv1]
        exact if_congr (or_congr hmemI hecons.symm) rfl rfl

/-- C9: if every occurrence of a given byte content in the document is a
successful, large-enough extraction, and that content appears (at least) on
two different pages, then exactly one file with that content is written, and
the metadata records correspond one-to-one (by filename) to the written
files — deduplication by content hash keeps only the first occurrence. -/
theorem C9_image_dedup (doc : List (List ImageRef)) (min_size : Nat) (b : List Nat)
    (hall : ∀ pr ∈ occurrences doc, pr.2.bytes = b → pr.2.ok = true ∧
      min_size ≤ pr.2.bytes.length ∧ 150 ≤ pr.2.width ∧ 150 ≤ pr.2.height)
    (htwo : ∃ p1 r1 p2 r2, (p1, r1) ∈ occurrences doc ∧ (p2, r2) ∈ occurrences doc ∧
      p1 ≠ p2 ∧ r1.bytes = b ∧ r2.bytes = b) :
    ((extract_images doc min_size).2.filter (fun w => w.2 = b)).length = 1 ∧
    (extract_images doc min_size).1.map ImgRec.filename =
      (extract_images doc min_size).2.map Prod.fst := by
  constructor
  · have hcount := imgStep_fold_count min_size b (occurrences doc) ⟨0, [], [], []⟩ hall (by simp)
    obtain ⟨p1, r1, p2, r2, hm1, hm2, hne, hb1, hb2⟩ := htwo
    have hex : ∃ pr ∈ occurrences doc, pr.2.bytes = b := ⟨(p1, r1), hm1, hb1⟩
    rw [show (extract_images doc min_size).2 =
      ((occurrences doc).foldl (imgStep min_size) ⟨0, [], [], []⟩).writes from rfl]
    rw [hcount]
    simp [hex]
  · exact imgStep_fold_names min_size (occurrences doc) ⟨0, [], [], []⟩ rfl

/-- Witness for C9: the same image on two pages, one surviving write. -/
theorem C9_witness :
    (∀ pr ∈ occurrences c9doc, pr.2.bytes = [7, 7] → pr.2.ok = true ∧
      1 ≤ pr.2.bytes.length ∧ 150 ≤ pr.2.width ∧ 150 ≤ pr.2.height) ∧
    ((0, c9ref) ∈ occurrences c9doc ∧ (1, c9ref) ∈ occurrences c9doc ∧ (0 : Nat) ≠ 1) ∧
    ((extract_images c9doc 1).2.filter (fun w => w.2 = [7, 7])).length = 1 ∧
    (extract_images c9doc 1).1.map ImgRec.filename =
      (extract_images c9doc 1).2.map Prod.fst :=
  ⟨by decide, ⟨by decide, by decide, by decide⟩,
   C9_image_dedup c9doc 1 [7, 7] (by decide)
     ⟨0, c9ref, 1, c9ref, by decide, by decide, by decide, rfl, rfl⟩⟩

/-! ## Scanner chunk lemmas -/

theorem scanFrom_append (st : RState) (i : Nat) (p q : List Char) :
    scanFrom st i (p ++ q) = scanFrom (scanFrom st i p) (i + p.length) q := by
  induction p generalizing st i with
  | nil => simp [scanFrom]
  | cons c cs ih =>
    show scanFrom (rstep i c st) (i + 1) (cs ++ q) =
      scanFrom (scanFrom (rstep i c st) (i + 1) cs) (i + (c :: cs).length) q
    rw [ih]
    congr 1
    simp only [List.length_cons]
    omega

theorem neutral_nil : NeutralChunk [] := by
  intro S L i rest
  exact ⟨L, by simp⟩

theorem neutral_append {p q : List Char} (hp : NeutralChunk p) (hq : NeutralChunk q) :
    NeutralChunk (p ++ q) := by
  intro S L i rest
  obtain ⟨L2, h2⟩ := hp S L i (q ++ rest)
  obtain ⟨L3, h3⟩ := hq S L2 (i + p.length) rest
  refine ⟨L3, ?_⟩
  have hlen : i + p.length + q.length = i + (p ++ q).length := by
    rw [List.length_append]; omega
  rw [List.append_assoc, h2, h3, hlen]

theorem neutral_plain {c : Char} (h : PlainChar c) : NeutralChunk [c] := by
  obtain ⟨h1, h2, h3, h4, h5⟩ := h
  intro S L i rest
  refine ⟨L, ?_⟩
  have hr : rstep i c ⟨S, L, false, false⟩ = ⟨S, L, false, false⟩ := by
    simp [rstep, h1, h2, h3, h4, h5]
  simp [scanFrom, hr]

theorem neutral_all_plain {p : List Char} (h : ∀ c ∈ p, PlainChar c) : NeutralChunk p := by
  induction p with
  | nil => exact neutral_nil
  | cons c cs ih =>
    have h2 := neutral_append (neutral_plain (h c (by simp)))
      (ih fun d hd => h d (by simp [hd]))
    simpa using h2

theorem close_single_sq : CloseChunk '[' [']'] := by
  intro S L i rest
  refine ⟨i + 1, ?_⟩
  have hr : rstep i ']' ⟨S ++ ['['], L, false, false⟩ =
      ⟨S, i + 1, false, false⟩ := by
    simp [rstep, lbrace, List.getLast?_append, List.dropLast_concat]
  simp [scanFrom, hr]

theorem close_single_br : CloseChunk lbrace [rbrace] := by
  intro S L i rest
  refine ⟨i + 1, ?_⟩
  have hr : rstep i rbrace ⟨S ++ [lbrace], L, false, false⟩ =
      ⟨S, i + 1, false, false⟩ := by
    simp [rstep, lbrace, rbrace, List.getLast?_append, List.dropLast_concat]
  simp [scanFrom, hr]

theorem close_pre {br : Char} {p q : List Char} (hp : NeutralChunk p) (hq : CloseChunk br q) :
    CloseChunk br (p ++ q) := by
  intro S L i rest
  obtain ⟨L2, h2⟩ := hp (S ++ [br]) L i (q ++ rest)
  obtain ⟨L3, h3⟩ := hq S L2 (i + p.length) rest
  refine ⟨L3, ?_⟩
  have hlen : i + p.length + q.length = i + (p ++ q).length := by
    rw [List.length_append]; omega
  rw [List.append_assoc, h2, h3, hlen]

theorem neutral_open_sq {p : List Char} (hp : CloseChunk '[' p) :
    NeutralChunk ('[' :: p) := by
  intro S L i rest
  obtain ⟨L2, h2⟩ := hp S L (i + 1) rest
  refine ⟨L2, ?_⟩
  have hr : rstep i '[' ⟨S, L, false, false⟩ = ⟨S ++ ['['], L, false, false⟩ := by
    simp [rstep, lbrace]
  have hstep : scanFrom ⟨S, L, false, false⟩ i (('[' :: p) ++ rest) =
      scanFrom (rstep i '[' ⟨S, L, false, false⟩) (i + 1) (p ++ rest) := rfl
  rw [hstep, hr, h2]
  congr 1
  simp only [List.length_cons]
  omega

theorem neutral_open_br {p : List Char} (hp : CloseChunk lbrace p) :
    NeutralChunk (lbrace :: p) := by
  intro S L i rest
  obtain ⟨L2, h2⟩ := hp S L (i + 1) rest
  refine ⟨L2, ?_⟩
  have hr : rstep i lbrace ⟨S, L, false, false⟩ = ⟨S ++ [lbrace], L, false, false⟩ := by
    simp [rstep, lbrace, rbrace]
  have hstep : scanFrom ⟨S, L, false, false⟩ i ((lbrace :: p) ++ rest) =
      scanFrom (rstep i lbrace ⟨S, L, false, false⟩) (i + 1) (p ++ rest) := rfl
  rw [hstep, hr, h2]
  congr 1
  simp only [List.length_cons]
  omega

theorem neutral_string {p : List Char} (hp : InStringChunk p) :
    NeutralChunk ('"' :: p) := by
  intro S L i rest
  obtain ⟨L2, h2⟩ := hp S L (i + 1) rest
  refine ⟨L2, ?_⟩
  have hr : rstep i '"' ⟨S, L, false, false⟩ = ⟨S, L, true, false⟩ := by
    simp [rstep]
  have hstep : scanFrom ⟨S, L, false, false⟩ i (('"' :: p) ++ rest) =
      scanFrom (rstep i '"' ⟨S, L, false, false⟩) (i + 1) (p ++ rest) := rfl
  rw [hstep, hr, h2]
  congr 1
  simp only [List.length_cons]
  omega

theorem plain_of_ws {c : Char} (h : isJsonWs c = true) : PlainChar c := by
  unfold isJsonWs at h
  simp only [Bool.or_eq_true, beq_iff_eq] at h
  rcases h with ((rfl | rfl) | rfl) | rfl <;> decide

theorem plain_of_digit {c : Char} (h : isPyDigit c = true) : PlainChar c := by
  unfold isPyDigit at h
  simp only [Bool.and_eq_true, decide_eq_true_eq] at h
  refine ⟨?_, ?_, ?_, ?_, ?_⟩ <;>
    · intro hc
      subst hc
      revert h
      decide

theorem skipWs_decomp (cs : List Char) (p : Nat) :
    ∃ ws, cs = ws ++ (skipWs cs p).1 ∧ (∀ c ∈ ws, isJsonWs c = true) := by
  induction cs generalizing p with
  | nil => exact ⟨[], rfl, by simp⟩
  | cons c rest ih =>
    by_cases h : isJsonWs c
    · obtain ⟨ws, hw, hall⟩ := ih (p + 1)
      refine ⟨c :: ws, ?_, ?_⟩
      · have heq : skipWs (c :: rest) p = skipWs rest (p + 1) := by
          simp [skipWs, h]
        rw [heq, List.cons_append]
        exact congrArg (c :: ·) hw
      · intro d hd
        rcases List.mem_cons.mp hd with rfl | hd'
        · exact h
        · exact hall d hd'
    · refine ⟨[], ?_, by simp⟩
      simp [skipWs, h]

theorem skipWs_neutral (cs : List Char) (p : Nat) :
    ∃ ws, cs = ws ++ (skipWs cs p).1 ∧ NeutralChunk ws := by
  obtain ⟨ws, hw, hall⟩ := skipWs_decomp cs p
  exact ⟨ws, hw, neutral_all_plain fun c hc => plain_of_ws (hall c hc)⟩

theorem dropLit_decomp : ∀ (lit cs rem : List Char), dropLit lit cs = some rem →
    cs = lit ++ rem := by
  intro lit
  induction lit with
  | nil =>
    intro cs rem h
    simp only [dropLit, Option.some.injEq] at h
    rw [h]
    rfl
  | cons l ls ih =>
    intro cs rem h
    rcases cs with - | ⟨c, cs'⟩
    · cases h
    · simp only [dropLit] at h
      by_cases hc : c = l
      · rw [if_pos hc] at h
        rw [hc, List.cons_append]
        exact congrArg (l :: ·) (ih cs' rem h)
      · rw [if_neg hc] at h
        cases h

theorem takeWhile_decomp (q : Char → Bool) : ∀ (l : List Char),
    l = l.takeWhile q ++ l.drop (l.takeWhile q).length := by
  intro l
  induction l with
  | nil => rfl
  | cons c rest ih =>
    by_cases h : q c
    · simp only [List.takeWhile_cons, h, if_true, List.length_cons, List.drop_succ_cons,
        List.cons_append]
      exact congrArg (c :: ·) ih
    · simp [List.takeWhile_cons, h]

theorem fracSplit_decomp (pr : List Char × Nat) :
    ∃ fr, pr.1 = fr ++ (fracSplit pr).1 ∧ ∀ c ∈ fr, PlainChar c := by
  obtain ⟨cs2, p2⟩ := pr
  rcases cs2 with - | ⟨c, cs'⟩
  · exact ⟨[], rfl, by simp⟩
  · by_cases hdot : c = '.'
    · subst hdot
      rcases cs' with - | ⟨d, rest⟩
      · exact ⟨[], rfl, by simp⟩
      · by_cases hd : isPyDigit d
        · refine ⟨'.' :: (d :: rest).takeWhile isPyDigit, ?_, ?_⟩
          · have heq : (fracSplit ('.' :: d :: rest, p2)).1 =
                (d :: rest).drop ((d :: rest).takeWhile isPyDigit).length := by
              simp [fracSplit, hd]
            rw [heq, List.cons_append]
            exact congrArg ('.' :: ·) (takeWhile_decomp isPyDigit (d :: rest))
          · intro e he
            rcases List.mem_cons.mp he with rfl | he'
            · decide
            · exact plain_of_digit (List.mem_takeWhile_imp he')
        · refine ⟨[], ?_, by simp⟩
          simp [fracSplit, hd]
    · refine ⟨[], ?_, by simp⟩
      rcases cs' with - | ⟨d, rest⟩
      · simp [fracSplit]
      · simp [fracSplit, hdot]

theorem expSplit_decomp (pr : List Char × Nat) :
    ∃ ex, pr.1 = ex ++ (expSplit pr).1 ∧ ∀ c ∈ ex, PlainChar c := by
  obtain ⟨cs3, p3⟩ := pr
  rcases cs3 with - | ⟨e, rest⟩
  · exact ⟨[], rfl, by simp⟩
  · by_cases he : e = 'e' ∨ e = 'E'
    · rcases rest with - | ⟨s, rest'⟩
      · refine ⟨[], ?_, by simp⟩
        simp [expSplit, he]
      · by_cases hs : s = '+' ∨ s = '-'
        · by_cases hemp : (rest'.takeWhile isPyDigit).isEmpty
          · refine ⟨[], ?_, by simp⟩
            simp [expSplit, he, hs, hemp]
          · refine ⟨e :: s :: rest'.takeWhile isPyDigit, ?_, ?_⟩
            · have heq : (expSplit (e :: s :: rest', p3)).1 =
                  rest'.drop (rest'.takeWhile isPyDigit).length := by
                simp [expSplit, he, hs, hemp]
              rw [heq, List.cons_append, List.cons_append]
              exact congrArg (e :: ·) (congrArg (s :: ·) (takeWhile_decomp isPyDigit rest'))
            · intro d hd
              rcases List.mem_cons.mp hd with rfl | hd'
              · rcases he with rfl | rfl <;> decide
              · rcases List.mem_cons.mp hd' with rfl | hd''
                · rcases hs with rfl | rfl <;> decide
                · exact plain_of_digit (List.mem_takeWhile_imp hd'')
        · by_cases hemp : ((s :: rest').takeWhile isPyDigit).isEmpty
          · refine ⟨[], ?_, by simp⟩
            simp [expSplit, he, hs, hemp]
          · refine ⟨e :: (s :: rest').takeWhile isPyDigit, ?_, ?_⟩
            · have heq : (expSplit (e :: s :: rest', p3)).1 =
                  (s :: rest').drop ((s :: rest').takeWhile isPyDigit).length := by
                simp [expSplit, he, hs, hemp]
              rw [heq, List.cons_append]
              exact congrArg (e :: ·) (takeWhile_decomp isPyDigit (s :: rest'))
            · intro d hd
              rcases List.mem_cons.mp hd with rfl | hd'
              · rcases he with rfl | rfl <;> decide
              · exact plain_of_digit (List.mem_takeWhile_imp hd')
    · refine ⟨[], ?_, by simp⟩
      simp [expSplit, he]

theorem cons_of_headD_dash {cs : List Char} (h : cs.headD ' ' = '-') :
    cs = '-' :: cs.tail := by
  rcases cs with - | ⟨c, rest⟩
  · simp at h
  · simp only [List.headD_cons] at h
    rw [h]
    rfl

theorem parseNumber_consumed (cs : List Char) (p : Nat) (v : Json) (rest : List Char)
    (p2 : Nat) (h : parseNumber cs p = .ok (v, rest, p2)) :
    ∃ consumed, cs = consumed ++ rest ∧ NeutralChunk consumed := by
  unfold parseNumber at h
  by_cases hneg : cs.headD ' ' = '-'
  · simp only [hneg, if_true] at h
    by_cases hemp : (cs.tail.takeWhile isPyDigit).isEmpty
    · rw [if_pos hemp] at h
      cases h
    · rw [if_neg hemp] at h
      simp only [Except.ok.injEq, Prod.mk.injEq] at h
      obtain ⟨-, hrest, -⟩ := h
      obtain ⟨fr, hfr, hfrp⟩ := fracSplit_decomp
        (cs.tail.drop (cs.tail.takeWhile isPyDigit).length,
         p + 1 + (cs.tail.takeWhile isPyDigit).length)
      obtain ⟨ex, hex, hexp⟩ := expSplit_decomp (fracSplit
        (cs.tail.drop (cs.tail.takeWhile isPyDigit).length,
         p + 1 + (cs.tail.takeWhile isPyDigit).length))
      rw [hrest] at hex
      refine ⟨'-' :: (cs.tail.takeWhile isPyDigit ++ (fr ++ ex)), ?_, ?_⟩
      · have hfr2 : cs.tail.drop (cs.tail.takeWhile isPyDigit).length =
            fr ++ (fracSplit
              (cs.tail.drop (cs.tail.takeWhile isPyDigit).length,
               p + 1 + (cs.tail.takeWhile isPyDigit).length)).1 := hfr
        have hchain : cs.tail = cs.tail.takeWhile isPyDigit ++ (fr ++ (ex ++ rest)) := by
          conv_lhs => rw [takeWhile_decomp isPyDigit cs.tail]
          rw [hfr2, hex]
        calc cs = '-' :: cs.tail := cons_of_headD_dash hneg
          _ = '-' :: (cs.tail.takeWhile isPyDigit ++ (fr ++ (ex ++ rest))) :=
            congrArg ('-' :: ·) hchain
          _ = ('-' :: (cs.tail.takeWhile isPyDigit ++ (fr ++ ex))) ++ rest := by
            simp [List.append_assoc]
      · refine neutral_all_plain ?_
        intro c hc
        rcases List.mem_cons.mp hc with rfl | hc'
        · decide
        · rcases List.mem_append.mp hc' with hcds | hcfe
          · exact plain_of_digit (List.mem_takeWhile_imp hcds)
          · rcases List.mem_append.mp hcfe with hcfr | hcex
            · exact hfrp c hcfr
            · exact hexp c hcex
  · simp only [hneg, if_false] at h
    by_cases hemp : (cs.takeWhile isPyDigit).isEmpty
    · rw [if_pos hemp] at h
      cases h
    · rw [if_neg hemp] at h
      simp only [Except.ok.injEq, Prod.mk.injEq] at h
      obtain ⟨-, hrest, -⟩ := h
      obtain ⟨fr, hfr, hfrp⟩ := fracSplit_decomp
        (cs.drop (cs.takeWhile isPyDigit).length, p + (cs.takeWhile isPyDigit).length)
      obtain ⟨ex, hex, hexp⟩ := expSplit_decomp (fracSplit
        (cs.drop (cs.takeWhile isPyDigit).length, p + (cs.takeWhile isPyDigit).length))
      rw [hrest] at hex
      refine ⟨cs.takeWhile isPyDigit ++ (fr ++ ex), ?_, ?_⟩
      · have hfr2 : cs.drop (cs.takeWhile isPyDigit).length =
            fr ++ (fracSplit
              (cs.drop (cs.takeWhile isPyDigit).length,
               p + (cs.takeWhile isPyDigit).length)).1 := hfr
        have hchain : cs = cs.takeWhile isPyDigit ++ (fr ++ (ex ++ rest)) := by
          conv_lhs => rw [takeWhile_decomp isPyDigit cs]
          rw [hfr2, hex]
        calc cs = cs.takeWhile isPyDigit ++ (fr ++ (ex ++ rest)) := hchain
          _ = (cs.takeWhile isPyDigit ++ (fr ++ ex)) ++ rest := by
            simp [List.append_assoc]
      · refine neutral_all_plain ?_
        intro c hc
        rcases List.mem_append.mp hc with hcds | hcfe
        · exact plain_of_digit (List.mem_takeWhile_imp hcds)
        · rcases List.mem_append.mp hcfe with hcfr | hcex
          · exact hfrp c hcfr
          · exact hexp c hcex

theorem instr_close : InStringChunk ['"'] := by
  intro S L i rest
  refine ⟨L, ?_⟩
  have hr : rstep i '"' ⟨S, L, true, false⟩ = ⟨S, L, false, false⟩ := by
    simp [rstep]
  have hstep : scanFrom ⟨S, L, true, false⟩ i (['"'] ++ rest) =
      scanFrom (rstep i '"' ⟨S, L, true, false⟩) (i + 1) rest := rfl
  rw [hstep, hr]
  simp

theorem instr_escape (e : Char) {p : List Char} (hp : InStringChunk p) :
    InStringChunk ('\\' :: e :: p) := by
  intro S L i rest
  obtain ⟨L2, h2⟩ := hp S L (i + 2) rest
  refine ⟨L2, ?_⟩
  have hr1 : rstep i '\\' ⟨S, L, true, false⟩ = ⟨S, L, true, true⟩ := by
    simp [rstep]
  have hr2 : rstep (i + 1) e ⟨S, L, true, true⟩ = ⟨S, L, true, false⟩ := by
    simp [rstep]
  have hstep : scanFrom ⟨S, L, true, false⟩ i (('\\' :: e :: p) ++ rest) =
      scanFrom (rstep (i + 1) e (rstep i '\\' ⟨S, L, true, false⟩)) (i + 2) (p ++ rest) := rfl
  rw [hstep, hr1, hr2, h2]
  congr 1
  simp only [List.length_cons]
  omega

theorem instr_plain (c : Char) (h1 : c ≠ '"') (h2 : c ≠ '\\') {p : List Char}
    (hp : InStringChunk p) : InStringChunk (c :: p) := by
  intro S L i rest
  obtain ⟨L2, h2'⟩ := hp S L (i + 1) rest
  refine ⟨L2, ?_⟩
  have hr : rstep i c ⟨S, L, true, false⟩ = ⟨S, L, true, false⟩ := by
    simp [rstep, h1, h2]
  have hstep : scanFrom ⟨S, L, true, false⟩ i ((c :: p) ++ rest) =
      scanFrom (rstep i c ⟨S, L, true, false⟩) (i + 1) (p ++ rest) := rfl
  rw [hstep, hr, h2']
  congr 1
  simp only [List.length_cons]
  omega

theorem hex_ne {c : Char} (h : isHexDigit c = true) : c ≠ '"' ∧ c ≠ '\\' := by
  constructor <;>
    · intro hc
      subst hc
      revert h
      decide

theorem parseStringBody_cons (c : Char) (rest : List Char) (p start : Nat) :
    parseStringBody (c :: rest) p start =
      (if c = '"' then .ok ([], rest, p + 1)
       else if c = '\\' then
         match rest with
         | [] => .error ⟨"Unterminated string starting at", start⟩
         | e :: rest' =>
           if e = 'u' then
             match rest' with
             | h1 :: h2 :: h3 :: h4 :: rest'' =>
               if isHexDigit h1 && isHexDigit h2 && isHexDigit h3 && isHexDigit h4 then
                 match parseStringBody rest'' (p + 6) start with
                 | .ok (content, rem, q) => .ok (c :: e :: h1 :: h2 :: h3 :: h4 :: content, rem, q)
                 | .error err => .error err
               else .error ⟨"Invalid \\uXXXX escape", p + 2⟩
             | _ => .error ⟨"Invalid \\uXXXX escape", p + 2⟩
           else if isEscapable e then
             match parseStringBody rest' (p + 2) start with
             | .ok (content, rem, q) => .ok (c :: e :: content, rem, q)
             | .error err => .error err
           else .error ⟨"Invalid \\escape", p + 1⟩
       else if c.toNat < 32 then .error ⟨"Invalid control character at", p⟩
       else
         match parseStringBody rest (p + 1) start with
         | .ok (content, rem, q) => .ok (c :: content, rem, q)
         | .error err => .error err) := by
  rw [parseStringBody.eq_def]

theorem parseStringBody_consumed :
    ∀ (n : Nat) (cs : List Char) (p start : Nat) (content rem : List Char) (q : Nat),
    cs.length ≤ n →
    parseStringBody cs p start = .ok (content, rem, q) →
    cs = (content ++ ['"']) ++ rem ∧ InStringChunk (content ++ ['"']) := by
  intro n
  induction n with
  | zero =>
    intro cs p start content rem q hlen h
    rcases cs with - | ⟨c, rest⟩
    · cases h
    · simp at hlen
  | succ n ih =>
    intro cs p start content rem q hlen h
    rcases cs with - | ⟨c, rest⟩
    · cases h
    · rw [parseStringBody_cons] at h
      by_cases hq : c = '"'
      · rw [if_pos hq] at h
        simp only [Except.ok.injEq, Prod.mk.injEq] at h
        obtain ⟨hcon, hrem, -⟩ := h
        subst hq
        rw [← hcon, ← hrem]
        exact ⟨rfl, instr_close⟩
      · rw [if_neg hq] at h
        by_cases hbs : c = '\\'
        · rw [if_pos hbs] at h
          rcases rest with - | ⟨e, rest'⟩
          · cases h
          · dsimp only at h
            by_cases hu : e = 'u'
            · rw [if_pos hu] at h
              rcases rest' with - | ⟨h1, rest1⟩
              · cases h
              rcases rest1 with - | ⟨h2, rest2⟩
              · cases h
              rcases rest2 with - | ⟨h3, rest3⟩
              · cases h
              rcases rest3 with - | ⟨h4, rest''⟩
              · cases h
              dsimp only at h
              by_cases hhex : isHexDigit h1 && isHexDigit h2 && isHexDigit h3 && isHexDigit h4
              · rw [if_pos hhex] at h
                cases hrec : parseStringBody rest'' (p + 6) start with
                | error err =>
                  rw [hrec] at h
                  cases h
                | ok res =>
                  obtain ⟨content', rem', q'⟩ := res
                  rw [hrec] at h
                  simp only [Except.ok.injEq, Prod.mk.injEq] at h
                  obtain ⟨hcon, hrem, -⟩ := h
                  have hlen' : rest''.length ≤ n := by
                    simp only [List.length_cons] at hlen
                    omega
                  obtain ⟨hdec, hins⟩ := ih rest'' (p + 6) start content' rem' q' hlen' hrec
                  simp only [Bool.and_eq_true] at hhex
                  obtain ⟨⟨⟨hx1, hx2⟩, hx3⟩, hx4⟩ := hhex
                  subst hbs hu
                  rw [← hcon, ← hrem]
                  constructor
                  · simp only [List.cons_append, List.append_assoc] at hdec ⊢
                    rw [hdec]
                  · refine instr_escape 'u' ?_
                    refine instr_plain h1 (hex_ne hx1).1 (hex_ne hx1).2 ?_
                    refine instr_plain h2 (hex_ne hx2).1 (hex_ne hx2).2 ?_
                    refine instr_plain h3 (hex_ne hx3).1 (hex_ne hx3).2 ?_
                    exact instr_plain h4 (hex_ne hx4).1 (hex_ne hx4).2 hins
              · rw [if_neg hhex] at h
                cases h
            · rw [if_neg hu] at h
              by_cases hesc : isEscapable e
              · rw [if_pos hesc] at h
                cases hrec : parseStringBody rest' (p + 2) start with
                | error err =>
                  rw [hrec] at h
                  cases h
                | ok res =>
                  obtain ⟨content', rem', q'⟩ := res
                  rw [hrec] at h
                  simp only [Except.ok.injEq, Prod.mk.injEq] at h
                  obtain ⟨hcon, hrem, -⟩ := h
                  have hlen' : rest'.length ≤ n := by
                    simp only [List.length_cons] at hlen
                    omega
                  obtain ⟨hdec, hins⟩ := ih rest' (p + 2) start content' rem' q' hlen' hrec
                  subst hbs
                  rw [← hcon, ← hrem]
                  constructor
                  · simp only [List.cons_append, List.append_assoc] at hdec ⊢
                    rw [hdec]
                  · exact instr_escape e hins
              · rw [if_neg hesc] at h
                cases h
        · rw [if_neg hbs] at h
          by_cases hctl : c.toNat < 32
          · rw [if_pos hctl] at h
            cases h
          · rw [if_neg hctl] at h
            cases hrec : parseStringBody rest (p + 1) start with
            | error err =>
              rw [hrec] at h
              cases h
            | ok res =>
              obtain ⟨content', rem', q'⟩ := res
              rw [hrec] at h
              simp only [Except.ok.injEq, Prod.mk.injEq] at h
              obtain ⟨hcon, hrem, -⟩ := h
              have hlen' : rest.length ≤ n := by
                simp only [List.length_cons] at hlen
                omega
              obtain ⟨hdec, hins⟩ := ih rest (p + 1) start content' rem' q' hlen' hrec
              rw [← hcon, ← hrem]
              constructor
              · simp only [List.cons_append, List.append_assoc] at hdec ⊢
                rw [hdec]
              · exact instr_plain c hq hbs hins

/-! ## Parser equation lemmas (fuel-indexed unfoldings) -/

theorem parseValue_zero (cs : List Char) (p : Nat) :
    parseValue 0 cs p = .error ⟨"Expecting value", p⟩ := by
  rw [parseValue.eq_def]

theorem parseValue_succ_nil (fuel p : Nat) :
    parseValue (fuel + 1) [] p = .error ⟨"Expecting value", p⟩ := by
  rw [parseValue.eq_def]

theorem parseValue_succ_cons (fuel : Nat) (c : Char) (rest : List Char) (p : Nat) :
    parseValue (fuel + 1) (c :: rest) p =
      (if c = '"' then
        match parseStringBody rest (p + 1) p with
        | .ok (content, rem, q) => .ok (.str (String.mk content), rem, q)
        | .error e => .error e
      else if c = lbrace then
        let s1 := skipWs rest (p + 1)
        match s1.1 with
        | d :: rest1 =>
          if d = rbrace then .ok (.obj .nil, rest1, s1.2 + 1) else parseMembers fuel s1.1 s1.2 []
        | [] => parseMembers fuel [] s1.2 []
      else if c = '[' then
        let s1 := skipWs rest (p + 1)
        match s1.1 with
        | d :: rest1 =>
          if d = ']' then .ok (.arr .nil, rest1, s1.2 + 1) else parseElems fuel s1.1 s1.2 []
        | [] => parseElems fuel [] s1.2 []
      else if c = 't' then
        match dropLit ("rue".toList) rest with
        | some rem => .ok (.bool true, rem, p + 4)
        | none => .error ⟨"Expecting value", p⟩
      else if c = 'f' then
        match dropLit ("alse".toList) rest with
        | some rem => .ok (.bool false, rem, p + 5)
        | none => .error ⟨"Expecting value", p⟩
      else if c = 'n' then
        match dropLit ("ull".toList) rest with
        | some rem => .ok (.null, rem, p + 4)
        | none => .error ⟨"Expecting value", p⟩
      else if c = '-' ∨ isPyDigit c then parseNumber (c :: rest) p
      else .error ⟨"Expecting value", p⟩) := by
  rw [parseValue.eq_def]

theorem parseElems_zero (cs : List Char) (p : Nat) (acc : List Json) :
    parseElems 0 cs p acc = .error ⟨"Expecting value", p⟩ := by
  rw [parseElems.eq_def]

theorem parseElems_succ (fuel : Nat) (cs : List Char) (p : Nat) (acc : List Json) :
    parseElems (fuel + 1) cs p acc =
      (match parseValue fuel cs p with
      | .error e => .error e
      | .ok (v, cs1, p1) =>
        let s2 := skipWs cs1 p1
        match s2.1 with
        | [] => .error ⟨"Expecting \x27,\x27 delimiter", s2.2⟩
        | d :: rest2 =>
          if d = ']' then .ok (.arr (JsonArr.ofList (acc ++ [v])), rest2, s2.2 + 1)
          else if d = ',' then
            let s3 := skipWs rest2 (s2.2 + 1)
            parseElems fuel s3.1 s3.2 (acc ++ [v])
          else .error ⟨"Expecting \x27,\x27 delimiter", s2.2⟩) := by
  rw [parseElems.eq_def]

theorem parseMembers_zero (cs : List Char) (p : Nat) (acc : List (String × Json)) :
    parseMembers 0 cs p acc = .error ⟨"Expecting value", p⟩ := by
  rw [parseMembers.eq_def]

theorem parseMembers_succ (fuel : Nat) (cs : List Char) (p : Nat)
    (acc : List (String × Json)) :
    parseMembers (fuel + 1) cs p acc =
      (match cs with
      | [] => .error ⟨"Expecting property name enclosed in double quotes", p⟩
      | c :: rest =>
        if c = '"' then
          match parseStringBody rest (p + 1) p with
          | .error e => .error e
          | .ok (key, cs1, p1) =>
            let s2 := skipWs cs1 p1
            match s2.1 with
            | d :: rest2 =>
              if d = ':' then
                let s3 := skipWs rest2 (s2.2 + 1)
                match parseValue fuel s3.1 s3.2 with
                | .error e => .error e
                | .ok (v, cs4, p4) =>
                  let s5 := skipWs cs4 p4
                  match s5.1 with
                  | e :: rest5 =>
                    if e = rbrace then
                      .ok (.obj (JsonObj.ofList (acc ++ [(String.mk key, v)])), rest5, s5.2 + 1)
                    else if e = ',' then
                      let s6 := skipWs rest5 (s5.2 + 1)
                      parseMembers fuel s6.1 s6.2 (acc ++ [(String.mk key, v)])
                    else .error ⟨"Expecting \x27,\x27 delimiter", s5.2⟩
                  | [] => .error ⟨"Expecting \x27,\x27 delimiter", s5.2⟩
            else .error ⟨"Expecting \x27:\x27 delimiter", s2.2⟩
            | [] => .error ⟨"Expecting \x27:\x27 delimiter", s2.2⟩
        else .error ⟨"Expecting property name enclosed in double quotes", p⟩) := by
  rw [parseMembers.eq_def]

/-- Joint consumption/neutrality of the three mutual parsers: a successful
`parseValue` consumes a scanner-neutral chunk; a successful `parseElems`
(resp. `parseMembers`) consumes a chunk that pops exactly the matching `[`
(resp. `\x7b`) from the repair scanner's stack. -/
theorem parser_consumed : ∀ fuel : Nat,
    (∀ cs p v rest p2, parseValue fuel cs p = .ok (v, rest, p2) →
      ∃ consumed, cs = consumed ++ rest ∧ NeutralChunk consumed) ∧
    (∀ cs p acc v rest p2, parseElems fuel cs p acc = .ok (v, rest, p2) →
      ∃ consumed, cs = consumed ++ rest ∧ CloseChunk '[' consumed) ∧
    (∀ cs p acc v rest p2, parseMembers fuel cs p acc = .ok (v, rest, p2) →
      ∃ consumed, cs = consumed ++ rest ∧ CloseChunk lbrace consumed) := by
  intro fuel
  induction fuel with
  | zero =>
    refine ⟨?_, ?_, ?_⟩
    · intro cs p v rest p2 h
      rw [parseValue_zero] at h
      exact Except.noConfusion h
    · intro cs p acc v rest p2 h
      rw [parseElems_zero] at h
      exact Except.noConfusion h
    · intro cs p acc v rest p2 h
      rw [parseMembers_zero] at h
      exact Except.noConfusion h
  | succ fuel ih =>
    obtain ⟨ihV, ihE, ihM⟩ := ih
    refine ⟨?_, ?_, ?_⟩
    · -- parseValue
      intro cs p v rest p2 h
      rcases cs with - | ⟨c, cs'⟩
      · rw [parseValue_succ_nil] at h
        exact Except.noConfusion h
      rw [parseValue_succ_cons] at h
      by_cases hq : c = '"'
      · subst hq
        rw [if_pos rfl] at h
        cases hsb : parseStringBody cs' (p + 1) p with
        | error err =>
          rw [hsb] at h
          exact Except.noConfusion h
        | ok res =>
          obtain ⟨content, rem, q⟩ := res
          rw [hsb] at h
          simp only [Except.ok.injEq, Prod.mk.injEq] at h
          obtain ⟨hv, hrest, hp2⟩ := h
          subst hrest
          obtain ⟨hdec, hins⟩ := parseStringBody_consumed cs'.length cs' (p + 1) p
            content rem q (le_refl _) hsb
          refine ⟨'"' :: (content ++ ['"']), ?_, neutral_string hins⟩
          rw [hdec]
          rfl
      by_cases hbr : c = lbrace
      · subst hbr
        rw [if_neg hq, if_pos rfl] at h
        dsimp only at h
        obtain ⟨ws, hws, hwsN⟩ := skipWs_neutral cs' (p + 1)
        cases hs1 : (skipWs cs' (p + 1)).1 with
        | nil =>
          rw [hs1] at h
          dsimp only at h
          rcases fuel with - | fuel2
          · rw [parseMembers_zero] at h
            exact Except.noConfusion h
          · rw [parseMembers_succ] at h
            exact Except.noConfusion h
        | cons d rest1 =>
          rw [hs1] at h
          dsimp only at h
          by_cases hd : d = rbrace
          · subst hd
            rw [if_pos rfl] at h
            simp only [Except.ok.injEq, Prod.mk.injEq] at h
            obtain ⟨hv, hrest, hp2⟩ := h
            subst hrest
            refine ⟨lbrace :: (ws ++ [rbrace]), ?_,
              neutral_open_br (close_pre hwsN close_single_br)⟩
            rw [hws, hs1]
            simp
          · rw [if_neg hd] at h
            obtain ⟨con2, hcon2, hclose2⟩ := ihM _ _ _ _ _ _ h
            refine ⟨lbrace :: (ws ++ con2), ?_,
              neutral_open_br (close_pre hwsN hclose2)⟩
            have h1 : (skipWs cs' (p + 1)).1 = con2 ++ rest := by
              rw [hs1]
              exact hcon2
            have h2 : cs' = ws ++ (con2 ++ rest) := by
              rw [← h1]
              exact hws
            rw [h2]
            simp
      by_cases hsq : c = '['
      · subst hsq
        rw [if_neg hq, if_neg hbr, if_pos rfl] at h
        dsimp only at h
        obtain ⟨ws, hws, hwsN⟩ := skipWs_neutral cs' (p + 1)
        cases hs1 : (skipWs cs' (p + 1)).1 with
        | nil =>
          rw [hs1] at h
          dsimp only at h
          rcases fuel with - | fuel2
          · rw [parseElems_zero] at h
            exact Except.noConfusion h
          · rw [parseElems_succ] at h
            rcases fuel2 with - | fuel3
            · rw [parseValue_zero] at h
              exact Except.noConfusion h
            · rw [parseValue_succ_nil] at h
              exact Except.noConfusion h
        | cons d rest1 =>
          rw [hs1] at h
          dsimp only at h
          by_cases hd : d = ']'
          · subst hd
            rw [if_pos rfl] at h
            simp only [Except.ok.injEq, Prod.mk.injEq] at h
            obtain ⟨hv, hrest, hp2⟩ := h
            subst hrest
            refine ⟨'[' :: (ws ++ [']']), ?_,
              neutral_open_sq (close_pre hwsN close_single_sq)⟩
            rw [hws, hs1]
            simp
          · rw [if_neg hd] at h
            obtain ⟨con2, hcon2, hclose2⟩ := ihE _ _ _ _ _ _ h
            refine ⟨'[' :: (ws ++ con2), ?_,
              neutral_open_sq (close_pre hwsN hclose2)⟩
            have h1 : (skipWs cs' (p + 1)).1 = con2 ++ rest := by
              rw [hs1]
              exact hcon2
            have h2 : cs' = ws ++ (con2 ++ rest) := by
              rw [← h1]
              exact hws
            rw [h2]
            simp
      by_cases ht : c = 't'
      · subst ht
        rw [if_neg hq, if_neg hbr, if_neg hsq, if_pos rfl] at h
        cases hlit : dropLit ("rue".toList) cs' with
        | none =>
          rw [hlit] at h
          exact Except.noConfusion h
        | some rem =>
          rw [hlit] at h
          simp only [Except.ok.injEq, Prod.mk.injEq] at h
          obtain ⟨hv, hrest, hp2⟩ := h
          subst hrest
          refine ⟨'t' :: "rue".toList, ?_, neutral_all_plain (by decide)⟩
          rw [dropLit_decomp _ _ _ hlit]
          rfl
      by_cases hf : c = 'f'
      · subst hf
        rw [if_neg hq, if_neg hbr, if_neg hsq, if_neg ht, if_pos rfl] at h
        cases hlit : dropLit ("alse".toList) cs' with
        | none =>
          rw [hlit] at h
          exact Except.noConfusion h
        | some rem =>
          rw [hlit] at h
          simp only [Except.ok.injEq, Prod.mk.injEq] at h
          obtain ⟨hv, hrest, hp2⟩ := h
          subst hrest
          refine ⟨'f' :: "alse".toList, ?_, neutral_all_plain (by decide)⟩
          rw [dropLit_decomp _ _ _ hlit]
          rfl
      by_cases hn : c = 'n'
      · subst hn
        rw [if_neg hq, if_neg hbr, if_neg hsq, if_neg ht, if_neg hf, if_pos rfl] at h
        cases hlit : dropLit ("ull".toList) cs' with
        | none =>
          rw [hlit] at h
          exact Except.noConfusion h
        | some rem =>
          rw [hlit] at h
          simp only [Except.ok.injEq, Prod.mk.injEq] at h
          obtain ⟨hv, hrest, hp2⟩ := h
          subst hrest
          refine ⟨'n' :: "ull".toList, ?_, neutral_all_plain (by decide)⟩
          rw [dropLit_decomp _ _ _ hlit]
          rfl
      by_cases hnum : c = '-' ∨ isPyDigit c
      · rw [if_neg hq, if_neg hbr, if_neg hsq, if_neg ht, if_neg hf, if_neg hn,
          if_pos hnum] at h
        exact parseNumber_consumed _ _ _ _ _ h
      · rw [if_neg hq, if_neg hbr, if_neg hsq, if_neg ht, if_neg hf, if_neg hn,
          if_neg hnum] at h
        exact Except.noConfusion h
    · -- parseElems
      intro cs p acc v rest p2 h
      rw [parseElems_succ] at h
      cases hv1 : parseValue fuel cs p with
      | error e =>
        rw [hv1] at h
        exact Except.noConfusion h
      | ok res =>
        obtain ⟨v1, cs1, p1⟩ := res
        rw [hv1] at h
        dsimp only at h
        obtain ⟨con1, hcon1, hN1⟩ := ihV cs p v1 cs1 p1 hv1
        obtain ⟨ws, hws, hwsN⟩ := skipWs_neutral cs1 p1
        cases hs2 : (skipWs cs1 p1).1 with
        | nil =>
          rw [hs2] at h
          exact Except.noConfusion h
        | cons d rest2 =>
          rw [hs2] at h
          dsimp only at h
          by_cases hd : d = ']'
          · subst hd
            rw [if_pos rfl] at h
            simp only [Except.ok.injEq, Prod.mk.injEq] at h
            obtain ⟨hv, hrest, hp2⟩ := h
            subst hrest
            refine ⟨con1 ++ (ws ++ [']']), ?_,
              close_pre hN1 (close_pre hwsN close_single_sq)⟩
            rw [hcon1, hws, hs2]
            simp
          by_cases hc : d = ','
          · subst hc
            rw [if_neg hd, if_pos rfl] at h
            obtain ⟨ws3, hws3, hws3N⟩ := skipWs_neutral rest2 ((skipWs cs1 p1).2 + 1)
            obtain ⟨con2, hcon2, hclose2⟩ := ihE _ _ _ _ _ _ h
            refine ⟨con1 ++ (ws ++ ([','] ++ (ws3 ++ con2))), ?_,
              close_pre hN1 (close_pre hwsN
                (close_pre (neutral_plain (by decide)) (close_pre hws3N hclose2)))⟩
            have h1 : rest2 = ws3 ++ (con2 ++ rest) := by
              rw [← hcon2]
              exact hws3
            have h2 : (skipWs cs1 p1).1 = ',' :: (ws3 ++ (con2 ++ rest)) := by
              rw [hs2, h1]
            have h3 : cs1 = ws ++ (',' :: (ws3 ++ (con2 ++ rest))) := by
              rw [← h2]
              exact hws
            rw [hcon1, h3]
            simp
          · rw [if_neg hd, if_neg hc] at h
            exact Except.noConfusion h
    · -- parseMembers
      intro cs p acc v rest p2 h
      rw [parseMembers_succ] at h
      rcases cs with - | ⟨c, cs0⟩
      · exact Except.noConfusion h
      dsimp only at h
      by_cases hq : c = '"'
      · subst hq
        rw [if_pos rfl] at h
        cases hsb : parseStringBody cs0 (p + 1) p with
        | error err =>
          rw [hsb] at h
          exact Except.noConfusion h
        | ok res =>
          obtain ⟨key, cs1, p1⟩ := res
          rw [hsb] at h
          dsimp only at h
          obtain ⟨hdec0, hkey⟩ := parseStringBody_consumed cs0.length cs0 (p + 1) p
            key cs1 p1 (le_refl _) hsb
          obtain ⟨ws2, hws2, hws2N⟩ := skipWs_neutral cs1 p1
          cases hs2 : (skipWs cs1 p1).1 with
          | nil =>
            rw [hs2] at h
            exact Except.noConfusion h
          | cons d rest2 =>
            rw [hs2] at h
            dsimp only at h
            by_cases hd : d = ':'
            · subst hd
              rw [if_pos rfl] at h
              obtain ⟨ws3, hws3, hws3N⟩ := skipWs_neutral rest2 ((skipWs cs1 p1).2 + 1)
              cases hpv : parseValue fuel (skipWs rest2 ((skipWs cs1 p1).2 + 1)).1
                  (skipWs rest2 ((skipWs cs1 p1).2 + 1)).2 with
              | error e2 =>
                rw [hpv] at h
                exact Except.noConfusion h
              | ok res2 =>
                obtain ⟨v1, cs4, p4⟩ := res2
                rw [hpv] at h
                dsimp only at h
                obtain ⟨conv, hconv, hconvN⟩ := ihV _ _ _ _ _ hpv
                obtain ⟨ws5, hws5, hws5N⟩ := skipWs_neutral cs4 p4
                cases hs5 : (skipWs cs4 p4).1 with
                | nil =>
                  rw [hs5] at h
                  exact Except.noConfusion h
                | cons e rest5 =>
                  rw [hs5] at h
                  dsimp only at h
                  by_cases he : e = rbrace
                  · subst he
                    rw [if_pos rfl] at h
                    simp only [Except.ok.injEq, Prod.mk.injEq] at h
                    obtain ⟨hv, hrest, hp2⟩ := h
                    subst hrest
                    refine ⟨('"' :: (key ++ ['"'])) ++
                      (ws2 ++ ([':'] ++ (ws3 ++ (conv ++ (ws5 ++ [rbrace]))))), ?_,
                      close_pre (neutral_string hkey) (close_pre hws2N
                        (close_pre (neutral_plain (by decide)) (close_pre hws3N
                          (close_pre hconvN (close_pre hws5N close_single_br)))))⟩
                    rw [hdec0, hws2, hs2, hws3, hconv, hws5, hs5]
                    simp
                  by_cases hec : e = ','
                  · subst hec
                    rw [if_neg he, if_pos rfl] at h
                    obtain ⟨ws6, hws6, hws6N⟩ :=
                      skipWs_neutral rest5 ((skipWs cs4 p4).2 + 1)
                    obtain ⟨con2, hcon2, hclose2⟩ := ihM _ _ _ _ _ _ h
                    refine ⟨('"' :: (key ++ ['"'])) ++
                      (ws2 ++ ([':'] ++ (ws3 ++ (conv ++
                        (ws5 ++ ([','] ++ (ws6 ++ con2))))))), ?_,
                      close_pre (neutral_string hkey) (close_pre hws2N
                        (close_pre (neutral_plain (by decide)) (close_pre hws3N
                          (close_pre hconvN (close_pre hws5N
                            (close_pre (neutral_plain (by decide))
                              (close_pre hws6N hclose2)))))))⟩
                    rw [hdec0, hws2, hs2, hws3, hconv, hws5, hs5, hws6, hcon2]
                    simp
                  · rw [if_neg he, if_neg hec] at h
                    exact Except.noConfusion h
            · rw [if_neg hd] at h
              exact Except.noConfusion h
      · rw [if_neg hq] at h
        exact Except.noConfusion h

/-- C5: `repair_json` is idempotent on well-formed input — for every string
`text` that is valid JSON (strict `json.loads` succeeds), `repair_json`
returns it unchanged. -/
theorem C5_repair_idempotent (text : String) (h : (jsonLoads text).isOk = true) :
    repair_json text = text := by
  unfold jsonLoads at h
  dsimp only at h
  cases hpv : parseValue (text.toList.length + 1) (skipWs text.toList 0).1
      (skipWs text.toList 0).2 with
  | error e =>
    rw [hpv] at h
    simp [Except.isOk, Except.toBool] at h
  | ok res =>
    obtain ⟨v, rest, p2⟩ := res
    rw [hpv] at h
    dsimp only at h
    by_cases hemp : (skipWs rest p2).1.isEmpty = true
    · have hrestnil : (skipWs rest p2).1 = [] := by
        rwa [List.isEmpty_iff] at hemp
      obtain ⟨con, hcon, hconN⟩ :=
        (parser_consumed (text.toList.length + 1)).1 _ _ _ _ _ hpv
      obtain ⟨ws0, hws0, hws0N⟩ := skipWs_neutral text.toList 0
      obtain ⟨wr, hwr, hwrN⟩ := skipWs_neutral rest p2
      rw [hrestnil, List.append_nil] at hwr
      have hdec : text.toList = ws0 ++ (con ++ wr) := by
        rw [hws0, hcon, hwr]
      have hN : NeutralChunk (ws0 ++ (con ++ wr)) :=
        neutral_append hws0N (neutral_append hconN hwrN)
      obtain ⟨L2, hscan⟩ := hN [] 0 0 []
      rw [List.append_nil] at hscan
      have hfinal : scanFrom initRState 0 text.toList = ⟨[], L2, false, false⟩ := by
        rw [hdec]
        exact hscan
      unfold repair_json
      dsimp only
      rw [hfinal]
      simp
    · rw [if_neg hemp] at h
      simp [Except.isOk, Except.toBool] at h

/-- C5 witness: `"[1]"` is valid JSON and `repair_json` returns it unchanged. -/
theorem C5_witness :
    (jsonLoads (String.mk ['[', '1', ']'])).isOk = true ∧
      repair_json (String.mk ['[', '1', ']']) = String.mk ['[', '1', ']'] :=
  ⟨rfl, C5_repair_idempotent (String.mk ['[', '1', ']']) rfl⟩

/-! ## Serializer shape facts -/

theorem dropLit_self : ∀ (lit rest : List Char), dropLit lit (lit ++ rest) = some rest := by
  intro lit
  induction lit with
  | nil => intro rest; rfl
  | cons l ls ih =>
    intro rest
    show dropLit (l :: ls) (l :: (ls ++ rest)) = some rest
    simp [dropLit, ih]

theorem digit_char (n : Nat) : isPyDigit (Char.ofNat (48 + n % 10)) = true := by
  have hm : n % 10 < 10 := Nat.mod_lt _ (by norm_num)
  set m := n % 10 with hmdef
  interval_cases m <;> decide

theorem natReprAux_shape : ∀ (fuel n : Nat) (acc : List Char),
    ∃ ds, natReprAux fuel n acc = ds ++ acc ∧ (∀ c ∈ ds, isPyDigit c = true) ∧
      (1 ≤ fuel → ds ≠ []) := by
  intro fuel
  induction fuel with
  | zero =>
    intro n acc
    exact ⟨[], rfl, by simp, by omega⟩
  | succ f ih =>
    intro n acc
    by_cases hn : n < 10
    · refine ⟨[Char.ofNat (48 + n % 10)], ?_, ?_, ?_⟩
      · simp [natReprAux, hn]
      · intro c hc
        simp at hc
        subst hc
        exact digit_char n
      · simp
    · obtain ⟨ds, hds, hdig, -⟩ := ih (n / 10) (Char.ofNat (48 + n % 10) :: acc)
      refine ⟨ds ++ [Char.ofNat (48 + n % 10)], ?_, ?_, ?_⟩
      · simp only [natReprAux, hn, if_false]
        rw [hds]
        simp
      · intro c hc
        rcases List.mem_append.mp hc with h | h
        · exact hdig c h
        · simp at h
          subst h
          exact digit_char n
      · simp

theorem digit_facts {c : Char} (h : isPyDigit c = true) :
    c ≠ ' ' ∧ c ≠ '\t' ∧ c ≠ '\n' ∧ c ≠ '\r' ∧ c ≠ ',' ∧ c ≠ ']' ∧ c ≠ rbrace ∧
      c ≠ '"' ∧ c ≠ lbrace ∧ c ≠ '[' ∧ c ≠ 't' ∧ c ≠ 'f' ∧ c ≠ 'n' ∧ c ≠ '-' ∧
      c ≠ '.' ∧ c ≠ 'e' ∧ c ≠ 'E' ∧ c ≠ ':' := by
  refine ⟨?_, ?_, ?_, ?_, ?_, ?_, ?_, ?_, ?_, ?_, ?_, ?_, ?_, ?_, ?_, ?_, ?_, ?_⟩ <;>
    · intro he
      subst he
      exact absurd h (by decide)

theorem isJsonWs_eq_false {c : Char} (h1 : c ≠ ' ') (h2 : c ≠ '\t') (h3 : c ≠ '\n')
    (h4 : c ≠ '\r') : isJsonWs c = false := by
  simp [isJsonWs, h1, h2, h3, h4]

theorem serialize_head (v : Json) :
    ∃ h t, serialize v = h :: t ∧ isJsonWs h = false ∧ h ≠ ']' ∧ h ≠ rbrace := by
  cases v with
  | null => exact ⟨'n', ['u', 'l', 'l'], rfl, by decide, by decide, by decide⟩
  | bool b =>
    cases b
    · exact ⟨'f', ['a', 'l', 's', 'e'], rfl, by decide, by decide, by decide⟩
    · exact ⟨'t', ['r', 'u', 'e'], rfl, by decide, by decide, by decide⟩
  | num n =>
    cases n with
    | ofNat m =>
      obtain ⟨ds, hds, hdig, hne⟩ := natReprAux_shape (m + 1) m []
      rcases ds with - | ⟨d, ds'⟩
      · exact absurd rfl (hne (by omega))
      · refine ⟨d, ds', ?_, ?_, ?_, ?_⟩
        · show natRepr m = d :: ds'
          unfold natRepr
          rw [hds]
          simp
        · obtain ⟨f1, f2, f3, f4, -⟩ := digit_facts (hdig d (by simp))
          exact isJsonWs_eq_false f1 f2 f3 f4
        · exact (digit_facts (hdig d (by simp))).2.2.2.2.2.1
        · exact (digit_facts (hdig d (by simp))).2.2.2.2.2.2.1
    | negSucc m =>
      exact ⟨'-', natRepr (m + 1), rfl, by decide, by decide, by decide⟩
  | str s =>
    exact ⟨'"', (s.toList.map escChar).flatten ++ ['"'], rfl, by decide, by decide, by decide⟩
  | arr xs =>
    exact ⟨'[', serElems xs ++ [']'], rfl, by decide, by decide, by decide⟩
  | obj ms =>
    exact ⟨lbrace, serMembers ms ++ [rbrace], rfl, by decide, by decide, by decide⟩

theorem takeWhile_all_stop {q : Char → Bool} : ∀ (l r : List Char),
    (∀ c ∈ l, q c = true) → (∀ c rr, r = c :: rr → q c = false) →
    (l ++ r).takeWhile q = l := by
  intro l
  induction l with
  | nil =>
    intro r hall hstop
    cases r with
    | nil => rfl
    | cons c rr => simp [List.takeWhile_cons, hstop c rr rfl]
  | cons a l ih =>
    intro r hall hstop
    simp only [List.cons_append, List.takeWhile_cons, hall a (by simp), if_true]
    rw [ih r (fun c hc => hall c (by simp [hc])) hstop]

theorem hexDigit_facts (m : Nat) (hm : m < 16) :
    isHexDigit (hexDigit m) = true ∧ hexDigit m ≠ '"' ∧ hexDigit m ≠ '\\' := by
  interval_cases m <;> exact ⟨by decide, by decide, by decide⟩

/-! ## The serializer's string literals parse back -/

theorem parseStringBody_escape_step (e : Char) (he : e ≠ 'u') (hesc : isEscapable e = true)
    (X : List Char) (p start : Nat) (ct REST : List Char) (p1 : Nat)
    (hih : parseStringBody X (p + 2) start = .ok (ct, REST, p1)) :
    parseStringBody ('\\' :: e :: X) p start = .ok ('\\' :: e :: ct, REST, p1) := by
  rw [parseStringBody_cons]
  rw [if_neg (by decide : ¬(('\\' : Char) = '"')), if_pos (rfl : ('\\' : Char) = '\\')]
  dsimp only
  rw [if_neg he, if_pos hesc, hih]

theorem parseStringBody_u_step (a b d e : Char) (X : List Char) (p start : Nat)
    (hhex : (isHexDigit a && isHexDigit b && isHexDigit d && isHexDigit e) = true)
    (ct REST : List Char) (p1 : Nat)
    (hih : parseStringBody X (p + 6) start = .ok (ct, REST, p1)) :
    parseStringBody ('\\' :: 'u' :: a :: b :: d :: e :: X) p start =
      .ok ('\\' :: 'u' :: a :: b :: d :: e :: ct, REST, p1) := by
  rw [parseStringBody_cons]
  rw [if_neg (by decide : ¬(('\\' : Char) = '"')), if_pos (rfl : ('\\' : Char) = '\\')]
  dsimp only
  rw [if_pos (rfl : ('u' : Char) = 'u')]
  rw [if_pos hhex, hih]

theorem parseStringBody_plain_step (c : Char) (hq : c ≠ '"') (hb : c ≠ '\\')
    (hctl : ¬(c.toNat < 32)) (X : List Char) (p start : Nat) (ct REST : List Char)
    (p1 : Nat) (hih : parseStringBody X (p + 1) start = .ok (ct, REST, p1)) :
    parseStringBody (c :: X) p start = .ok (c :: ct, REST, p1) := by
  rw [parseStringBody_cons, if_neg hq, if_neg hb, if_neg hctl, hih]

theorem serStrBody_parses : ∀ (l REST : List Char) (p start : Nat),
    ∃ content p1, parseStringBody ((l.map escChar).flatten ++ '"' :: REST) p start =
      .ok (content, REST, p1) := by
  intro l
  induction l with
  | nil =>
    intro REST p start
    refine ⟨[], p + 1, ?_⟩
    show parseStringBody ('"' :: REST) p start = .ok ([], REST, p + 1)
    rw [parseStringBody_cons, if_pos rfl]
  | cons c l ih =>
    intro REST p start
    have hflat : (((c :: l).map escChar).flatten ++ '"' :: REST) =
        escChar c ++ ((l.map escChar).flatten ++ '"' :: REST) := by
      simp
    rw [hflat]
    by_cases h1 : c = '"'
    · subst h1
      rw [show escChar '"' = ['\\', '"'] from by decide]
      obtain ⟨ct, p1, hih⟩ := ih REST (p + 2) start
      exact ⟨_, _, parseStringBody_escape_step '"' (by decide) (by decide) _ _ _ _ _ _ hih⟩
    by_cases h2 : c = '\\'
    · subst h2
      rw [show escChar '\\' = ['\\', '\\'] from by decide]
      obtain ⟨ct, p1, hih⟩ := ih REST (p + 2) start
      exact ⟨_, _, parseStringBody_escape_step '\\' (by decide) (by decide) _ _ _ _ _ _ hih⟩
    by_cases h3 : c = '\n'
    · subst h3
      rw [show escChar '\n' = ['\\', 'n'] from by decide]
      obtain ⟨ct, p1, hih⟩ := ih REST (p + 2) start
      exact ⟨_, _, parseStringBody_escape_step 'n' (by decide) (by decide) _ _ _ _ _ _ hih⟩
    by_cases h4 : c = '\t'
    · subst h4
      rw [show escChar '\t' = ['\\', 't'] from by decide]
      obtain ⟨ct, p1, hih⟩ := ih REST (p + 2) start
      exact ⟨_, _, parseStringBody_escape_step 't' (by decide) (by decide) _ _ _ _ _ _ hih⟩
    by_cases h5 : c = '\r'
    · subst h5
      rw [show escChar '\r' = ['\\', 'r'] from by decide]
      obtain ⟨ct, p1, hih⟩ := ih REST (p + 2) start
      exact ⟨_, _, parseStringBody_escape_step 'r' (by decide) (by decide) _ _ _ _ _ _ hih⟩
    by_cases h6 : c = Char.ofNat 8
    · subst h6
      rw [show escChar (Char.ofNat 8) = ['\\', 'b'] from by decide]
      obtain ⟨ct, p1, hih⟩ := ih REST (p + 2) start
      exact ⟨_, _, parseStringBody_escape_step 'b' (by decide) (by decide) _ _ _ _ _ _ hih⟩
    by_cases h7 : c = Char.ofNat 12
    · subst h7
      rw [show escChar (Char.ofNat 12) = ['\\', 'f'] from by decide]
      obtain ⟨ct, p1, hih⟩ := ih REST (p + 2) start
      exact ⟨_, _, parseStringBody_escape_step 'f' (by decide) (by decide) _ _ _ _ _ _ hih⟩
    by_cases h8 : c.toNat < 32
    · have hec : escChar c =
          ['\\', 'u', '0', '0', hexDigit (c.toNat / 16), hexDigit (c.toNat % 16)] := by
        simp only [escChar]
        rw [if_neg h1, if_neg h2, if_neg h3, if_neg h4, if_neg h5, if_neg h6, if_neg h7,
          if_pos h8]
      rw [hec]
      obtain ⟨ct, p1, hih⟩ := ih REST (p + 6) start
      have hdiv : c.toNat / 16 < 16 := by omega
      have hmod : c.toNat % 16 < 16 := by omega
      refine ⟨_, _, parseStringBody_u_step '0' '0' _ _ _ _ _ ?_ _ _ _ hih⟩
      rw [(hexDigit_facts _ hdiv).1, (hexDigit_facts _ hmod).1]
      decide
    · have hec : escChar c = [c] := by
        simp only [escChar]
        rw [if_neg h1, if_neg h2, if_neg h3, if_neg h4, if_neg h5, if_neg h6, if_neg h7,
          if_neg h8]
      rw [hec]
      obtain ⟨ct, p1, hih⟩ := ih REST (p + 1) start
      exact ⟨_, _, parseStringBody_plain_step c h1 h2 h8 _ _ _ _ _ _ hih⟩

/-! ## Fuel bounds for parsing serialized values -/

mutual

theorem jsonWeight_le : ∀ v : Json, jsonWeight v ≤ (serialize v).length
  | .null => by decide
  | .bool true => by decide
  | .bool false => by decide
  | .num n => by
    cases n with
    | ofNat m =>
      obtain ⟨ds, hds, -, hne⟩ := natReprAux_shape (m + 1) m []
      have hpos : 0 < ds.length := List.length_pos.mpr (hne (by omega))
      show jsonWeight (.num (Int.ofNat m)) ≤ (intRepr (Int.ofNat m)).length
      simp only [jsonWeight, intRepr]
      unfold natRepr
      rw [hds]
      simp only [List.append_nil]
      omega
    | negSucc m =>
      show jsonWeight (.num (Int.negSucc m)) ≤ (intRepr (Int.negSucc m)).length
      simp [jsonWeight, intRepr]
  | .str s => by simp [jsonWeight, serialize, serStr]
  | .arr xs => by
    have h := jsonWeightA_le xs
    rw [show jsonWeight (.arr xs) = jsonWeightA xs + 1 from rfl,
      show serialize (.arr xs) = '[' :: serElems xs ++ [']'] from rfl]
    simp only [List.length_cons, List.length_append, List.length_singleton]
    omega
  | .obj ms => by
    have h := jsonWeightO_le ms
    rw [show jsonWeight (.obj ms) = jsonWeightO ms + 1 from rfl,
      show serialize (.obj ms) = lbrace :: serMembers ms ++ [rbrace] from rfl]
    simp only [List.length_cons, List.length_append, List.length_singleton]
    omega

theorem jsonWeightA_le : ∀ xs : JsonArr, jsonWeightA xs ≤ (serElems xs).length + 1
  | .nil => by simp [jsonWeightA, serElems]
  | .cons x .nil => by
    have h1 := jsonWeight_le x
    obtain ⟨hh, tt, hse, -⟩ := serialize_head x
    have h2 : 1 ≤ (serialize x).length := by
      rw [hse]
      simp
    rw [show jsonWeightA (.cons x .nil) = max (jsonWeight x) (jsonWeightA .nil) + 1 from rfl,
      show serElems (.cons x .nil) = serialize x from rfl,
      show jsonWeightA .nil = 1 from rfl]
    have hmax : max (jsonWeight x) 1 ≤ (serialize x).length := Nat.max_le.mpr ⟨h1, h2⟩
    omega
  | .cons x (.cons y t) => by
    have h1 := jsonWeight_le x
    have h2 := jsonWeightA_le (.cons y t)
    rw [show jsonWeightA (.cons x (.cons y t)) =
        max (jsonWeight x) (jsonWeightA (.cons y t)) + 1 from rfl,
      show serElems (.cons x (.cons y t)) =
        serialize x ++ ',' :: ' ' :: serElems (.cons y t) from rfl]
    simp only [List.length_append, List.length_cons]
    have hmax : max (jsonWeight x) (jsonWeightA (.cons y t)) ≤
        (serialize x).length + (serElems (.cons y t)).length + 1 :=
      Nat.max_le.mpr ⟨by omega, by omega⟩
    omega

theorem jsonWeightO_le : ∀ ms : JsonObj, jsonWeightO ms ≤ (serMembers ms).length + 1
  | .nil => by simp [jsonWeightO, serMembers]
  | .cons k v .nil => by
    have h1 := jsonWeight_le v
    rw [show jsonWeightO (.cons k v .nil) = max (jsonWeight v) (jsonWeightO .nil) + 1 from rfl,
      show serMembers (.cons k v .nil) = serStr k ++ ':' :: ' ' :: serialize v from rfl,
      show jsonWeightO .nil = 1 from rfl]
    simp only [List.length_append, List.length_cons]
    have hmax : max (jsonWeight v) 1 ≤ (serStr k).length + (2 + (serialize v).length) :=
      Nat.max_le.mpr ⟨by omega, by omega⟩
    omega
  | .cons k v (.cons k2 v2 t) => by
    have h1 := jsonWeight_le v
    have h2 := jsonWeightO_le (.cons k2 v2 t)
    rw [show jsonWeightO (.cons k v (.cons k2 v2 t)) =
        max (jsonWeight v) (jsonWeightO (.cons k2 v2 t)) + 1 from rfl,
      show serMembers (.cons k v (.cons k2 v2 t)) =
        serStr k ++ ':' :: ' ' :: serialize v ++ ',' :: ' ' :: serMembers (.cons k2 v2 t)
        from rfl]
    simp only [List.length_append, List.length_cons]
    have hmax : max (jsonWeight v) (jsonWeightO (.cons k2 v2 t)) ≤
        (serStr k).length + (2 + ((serialize v).length +
          (2 + (serMembers (.cons k2 v2 t)).length))) :=
      Nat.max_le.mpr ⟨by omega, by omega⟩
    omega

end

/-! ## Round-trip helpers -/

theorem digit_ne {c x : Char} (h : isPyDigit c = true) (hx : isPyDigit x = false) : c ≠ x := by
  intro he
  rw [he, hx] at h
  cases h

theorem skipWs_cons_no {c : Char} (h : isJsonWs c = false) (t : List Char) (p : Nat) :
    skipWs (c :: t) p = (c :: t, p) := by
  simp [skipWs, h]

theorem skipWs_cons_ws {c : Char} (h : isJsonWs c = true) (t : List Char) (p : Nat) :
    skipWs (c :: t) p = skipWs t (p + 1) := by
  simp [skipWs, h]

theorem stopper_not_digit {rest : List Char} (h : Stopper rest) :
    ∀ c rr, rest = c :: rr → isPyDigit c = false := by
  intro c rr hr
  rcases h with rfl | ⟨c', t', rfl, hc'⟩
  · cases hr
  · injection hr with h1 h2
    subst h1
    rcases hc' with rfl | rfl | rfl <;> decide

theorem fracSplit_stop (rest : List Char) (h : Stopper rest) (x : Nat) :
    fracSplit (rest, x) = (rest, x) := by
  rcases h with rfl | ⟨c, t, rfl, hc⟩
  · rfl
  · rcases hc with rfl | rfl | rfl <;> rfl

theorem expSplit_stop (rest : List Char) (h : Stopper rest) (x : Nat) :
    expSplit (rest, x) = (rest, x) := by
  rcases h with rfl | ⟨c, t, rfl, hc⟩
  · rfl
  · rcases hc with rfl | rfl | rfl <;>
      · unfold expSplit
        dsimp only
        rw [if_neg (by decide)]

theorem serElems_head (x : Json) (t : JsonArr) :
    ∃ hh tt, serElems (.cons x t) = hh :: tt ∧ isJsonWs hh = false ∧ hh ≠ ']' ∧
      hh ≠ rbrace := by
  obtain ⟨hh, tt0, hse, hws, h1, h2⟩ := serialize_head x
  cases t with
  | nil => exact ⟨hh, tt0, by rw [show serElems (.cons x .nil) = serialize x from rfl, hse],
      hws, h1, h2⟩
  | cons y t2 =>
    refine ⟨hh, tt0 ++ ',' :: ' ' :: serElems (.cons y t2), ?_, hws, h1, h2⟩
    rw [show serElems (.cons x (.cons y t2)) =
      serialize x ++ ',' :: ' ' :: serElems (.cons y t2) from rfl, hse]
    rfl

theorem serMembers_cons_eq (k : String) (v : Json) (t : JsonObj) :
    ∃ tl, serMembers (.cons k v t) =
      '"' :: (((k.toList.map escChar).flatten ++ ['"']) ++ ':' :: ' ' :: (serialize v ++ tl)) ∧
      (tl = [] ∨ ∃ k2 v2 t2, t = JsonObj.cons k2 v2 t2 ∧
        tl = ',' :: ' ' :: serMembers (.cons k2 v2 t2)) := by
  cases t with
  | nil =>
    refine ⟨[], ?_, Or.inl rfl⟩
    rw [show serMembers (.cons k v .nil) = serStr k ++ ':' :: ' ' :: serialize v from rfl]
    simp [serStr]
  | cons k2 v2 t2 =>
    refine ⟨',' :: ' ' :: serMembers (.cons k2 v2 t2), ?_, Or.inr ⟨k2, v2, t2, rfl, rfl⟩⟩
    rw [show serMembers (.cons k v (.cons k2 v2 t2)) = serStr k ++ ':' :: ' ' ::
      serialize v ++ ',' :: ' ' :: serMembers (.cons k2 v2 t2) from rfl]
    simp [serStr]

theorem parseNumber_digits (ds : List Char) (hne : ds ≠ [])
    (hdig : ∀ c ∈ ds, isPyDigit c = true) (rest : List Char) (p : Nat)
    (hstop : Stopper rest) :
    ∃ w p2, parseNumber (ds ++ rest) p = .ok (w, rest, p2) := by
  rcases ds with - | ⟨d, ds'⟩
  · exact absurd rfl hne
  have hd := hdig d (by simp)
  have hnegF : ¬(((d :: ds') ++ rest).headD ' ' = '-') := by
    simp only [List.cons_append, List.headD_cons]
    exact digit_ne hd (by decide)
  unfold parseNumber
  dsimp only
  rw [if_neg hnegF, if_neg hnegF]
  have htw : ((d :: ds') ++ rest).takeWhile isPyDigit = d :: ds' :=
    takeWhile_all_stop (d :: ds') rest hdig (stopper_not_digit hstop)
  rw [htw]
  rw [if_neg (by simp)]
  rw [show ((d :: ds') ++ rest).drop (d :: ds').length = rest from List.drop_left _ _]
  rw [fracSplit_stop rest hstop, expSplit_stop rest hstop]
  exact ⟨_, _, rfl⟩

theorem parseNumber_neg_digits (ds : List Char) (hne : ds ≠ [])
    (hdig : ∀ c ∈ ds, isPyDigit c = true) (rest : List Char) (p : Nat)
    (hstop : Stopper rest) :
    ∃ w p2, parseNumber (('-' :: ds) ++ rest) p = .ok (w, rest, p2) := by
  rcases ds with - | ⟨d, ds'⟩
  · exact absurd rfl hne
  unfold parseNumber
  dsimp only
  have hneg : (('-' :: (d :: ds')) ++ rest).headD ' ' = '-' := by simp
  rw [if_pos hneg, if_pos hneg]
  have htw : (List.tail (('-' :: (d :: ds')) ++ rest)).takeWhile isPyDigit = d :: ds' := by
    show ((d :: ds') ++ rest).takeWhile isPyDigit = d :: ds'
    exact takeWhile_all_stop (d :: ds') rest hdig (stopper_not_digit hstop)
  rw [htw]
  rw [if_neg (by simp)]
  rw [show (List.tail (('-' :: (d :: ds')) ++ rest)).drop (d :: ds').length = rest from
    List.drop_left _ _]
  rw [fracSplit_stop rest hstop, expSplit_stop rest hstop]
  exact ⟨_, _, rfl⟩

/-! ## Serialized values parse back (round trip) -/

mutual

theorem ser_parses : ∀ (v : Json) (fuel : Nat) (rest : List Char) (p : Nat),
    jsonWeight v ≤ fuel → Stopper rest →
    ∃ w p2, parseValue fuel (serialize v ++ rest) p = .ok (w, rest, p2)
  | .null => by
    intro fuel rest p hw hstop
    rcases fuel with - | f
    · exact absurd hw (by decide)
    refine ⟨.null, p + 4, ?_⟩
    show parseValue (f + 1) ('n' :: ("ull".toList ++ rest)) p = .ok (.null, rest, p + 4)
    rw [parseValue_succ_cons]
    rw [if_neg (show ¬(('n' : Char) = '"') by decide),
      if_neg (show ¬(('n' : Char) = lbrace) by decide),
      if_neg (show ¬(('n' : Char) = '[') by decide),
      if_neg (show ¬(('n' : Char) = 't') by decide),
      if_neg (show ¬(('n' : Char) = 'f') by decide), if_pos (rfl : ('n' : Char) = 'n')]
    rw [dropLit_self]
  | .bool true => by
    intro fuel rest p hw hstop
    rcases fuel with - | f
    · exact absurd hw (by decide)
    refine ⟨.bool true, p + 4, ?_⟩
    show parseValue (f + 1) ('t' :: ("rue".toList ++ rest)) p = .ok (.bool true, rest, p + 4)
    rw [parseValue_succ_cons]
    rw [if_neg (show ¬(('t' : Char) = '"') by decide),
      if_neg (show ¬(('t' : Char) = lbrace) by decide),
      if_neg (show ¬(('t' : Char) = '[') by decide), if_pos (rfl : ('t' : Char) = 't')]
    rw [dropLit_self]
  | .bool false => by
    intro fuel rest p hw hstop
    rcases fuel with - | f
    · exact absurd hw (by decide)
    refine ⟨.bool false, p + 5, ?_⟩
    show parseValue (f + 1) ('f' :: ("alse".toList ++ rest)) p = .ok (.bool false, rest, p + 5)
    rw [parseValue_succ_cons]
    rw [if_neg (show ¬(('f' : Char) = '"') by decide),
      if_neg (show ¬(('f' : Char) = lbrace) by decide),
      if_neg (show ¬(('f' : Char) = '[') by decide),
      if_neg (show ¬(('f' : Char) = 't') by decide), if_pos (rfl : ('f' : Char) = 'f')]
    rw [dropLit_self]
  | .num n => by
    intro fuel rest p hw hstop
    rcases fuel with - | f
    · exact absurd hw (by rw [show jsonWeight (.num n) = 1 from rfl]; omega)
    cases n with
    | ofNat m =>
      obtain ⟨ds, hds, hdig, hne0⟩ := natReprAux_shape (m + 1) m []
      have hds' : natRepr m = ds := by
        unfold natRepr
        rw [hds, List.append_nil]
      rcases ds with - | ⟨d, ds'⟩
      · exact absurd rfl (hne0 (by omega))
      have hd := hdig d (by simp)
      obtain ⟨w, p2, hnum⟩ := parseNumber_digits (d :: ds') (by simp) hdig rest p hstop
      refine ⟨w, p2, ?_⟩
      show parseValue (f + 1) (natRepr m ++ rest) p = .ok (w, rest, p2)
      rw [hds']
      show parseValue (f + 1) (d :: (ds' ++ rest)) p = .ok (w, rest, p2)
      rw [parseValue_succ_cons]
      rw [if_neg (digit_ne hd (by decide) : d ≠ '"'),
        if_neg (digit_ne hd (by decide) : d ≠ lbrace),
        if_neg (digit_ne hd (by decide) : d ≠ '['),
        if_neg (digit_ne hd (by decide) : d ≠ 't'),
        if_neg (digit_ne hd (by decide) : d ≠ 'f'),
        if_neg (digit_ne hd (by decide) : d ≠ 'n'),
        if_pos (Or.inr hd : d = '-' ∨ isPyDigit d)]
      exact hnum
    | negSucc m =>
      obtain ⟨ds, hds, hdig, hne0⟩ := natReprAux_shape (m + 2) (m + 1) []
      have hds' : natRepr (m + 1) = ds := by
        unfold natRepr
        rw [hds, List.append_nil]
      obtain ⟨w, p2, hnum⟩ := parseNumber_neg_digits ds
        (hne0 (by omega)) hdig rest p hstop
      refine ⟨w, p2, ?_⟩
      show parseValue (f + 1) ('-' :: (natRepr (m + 1) ++ rest)) p = .ok (w, rest, p2)
      rw [parseValue_succ_cons]
      rw [if_neg (show ¬(('-' : Char) = '"') by decide),
        if_neg (show ¬(('-' : Char) = lbrace) by decide),
        if_neg (show ¬(('-' : Char) = '[') by decide),
        if_neg (show ¬(('-' : Char) = 't') by decide),
        if_neg (show ¬(('-' : Char) = 'f') by decide),
        if_neg (show ¬(('-' : Char) = 'n') by decide),
        if_pos (Or.inl rfl : ('-' : Char) = '-' ∨ isPyDigit '-')]
      rw [hds']
      exact hnum
  | .str s => by
    intro fuel rest p hw hstop
    rcases fuel with - | f
    · exact absurd hw (by rw [show jsonWeight (.str s) = 1 from rfl]; omega)
    obtain ⟨ct, p1, hsb⟩ := serStrBody_parses s.toList rest (p + 1) p
    refine ⟨.str (String.mk ct), p1, ?_⟩
    show parseValue (f + 1)
      ('"' :: (((s.toList.map escChar).flatten ++ ['"']) ++ rest)) p = _
    rw [parseValue_succ_cons, if_pos rfl]
    rw [show ((s.toList.map escChar).flatten ++ ['"']) ++ rest =
      (s.toList.map escChar).flatten ++ '"' :: rest from by simp]
    rw [hsb]
  | .arr xs => by
    intro fuel rest p hw hstop
    rcases fuel with - | f
    · exact absurd hw (by rw [show jsonWeight (.arr xs) = jsonWeightA xs + 1 from rfl]; omega)
    cases xs with
    | nil =>
      refine ⟨.arr .nil, p + 2, ?_⟩
      show parseValue (f + 1) ('[' :: (']' :: rest)) p = .ok (.arr .nil, rest, p + 2)
      rw [parseValue_succ_cons]
      rw [if_neg (show ¬(('[' : Char) = '"') by decide),
        if_neg (show ¬(('[' : Char) = lbrace) by decide), if_pos (rfl : ('[' : Char) = '[')]
      dsimp only
      rw [skipWs_cons_no (show isJsonWs ']' = false by decide) rest (p + 1)]
      dsimp only
      rw [if_pos rfl]
    | cons x t =>
      obtain ⟨hh, tt, hsE, hwsE, hne1, hne2⟩ := serElems_head x t
      have hsplit : serElems (.cons x t) ++ ']' :: rest = hh :: (tt ++ ']' :: rest) := by
        rw [hsE]
        rfl
      have hwA : jsonWeightA (.cons x t) ≤ f := by
        have h1 : jsonWeight (.arr (.cons x t)) = jsonWeightA (.cons x t) + 1 := rfl
        omega
      obtain ⟨w, p2, hE⟩ := serElems_parses (.cons x t) (fun h => JsonArr.noConfusion h)
        f rest (p + 1) [] hwA hstop
      refine ⟨w, p2, ?_⟩
      show parseValue (f + 1) ('[' :: ((serElems (.cons x t) ++ [']']) ++ rest)) p =
        .ok (w, rest, p2)
      rw [List.append_assoc, List.singleton_append]
      rw [parseValue_succ_cons]
      rw [if_neg (show ¬(('[' : Char) = '"') by decide),
        if_neg (show ¬(('[' : Char) = lbrace) by decide), if_pos (rfl : ('[' : Char) = '[')]
      dsimp only
      have hsw : skipWs (serElems (.cons x t) ++ ']' :: rest) (p + 1) =
          (serElems (.cons x t) ++ ']' :: rest, p + 1) := by
        rw [hsplit]
        exact skipWs_cons_no hwsE _ _
      rw [hsw]
      dsimp only
      rw [hsplit]
      dsimp only
      rw [if_neg hne1]
      rw [← hsplit]
      exact hE
  | .obj ms => by
    intro fuel rest p hw hstop
    rcases fuel with - | f
    · exact absurd hw (by rw [show jsonWeight (.obj ms) = jsonWeightO ms + 1 from rfl]; omega)
    cases ms with
    | nil =>
      refine ⟨.obj .nil, p + 2, ?_⟩
      show parseValue (f + 1) (lbrace :: (rbrace :: rest)) p = .ok (.obj .nil, rest, p + 2)
      rw [parseValue_succ_cons]
      rw [if_neg (show ¬(lbrace = '"') by decide), if_pos (rfl : lbrace = lbrace)]
      dsimp only
      rw [skipWs_cons_no (show isJsonWs rbrace = false by decide) rest (p + 1)]
      dsimp only
      rw [if_pos rfl]
    | cons k v t =>
      obtain ⟨tl, hsm, htl⟩ := serMembers_cons_eq k v t
      have hsplit : serMembers (.cons k v t) ++ rbrace :: rest =
          '"' :: ((((k.toList.map escChar).flatten ++ ['"']) ++
            ':' :: ' ' :: (serialize v ++ tl)) ++ rbrace :: rest) := by
        rw [hsm]
        rfl
      have hwO : jsonWeightO (.cons k v t) ≤ f := by
        have h1 : jsonWeight (.obj (.cons k v t)) = jsonWeightO (.cons k v t) + 1 := rfl
        omega
      obtain ⟨w, p2, hM⟩ := serMembers_parses (.cons k v t) (fun h => JsonObj.noConfusion h)
        f rest (p + 1) [] hwO hstop
      refine ⟨w, p2, ?_⟩
      show parseValue (f + 1) (lbrace :: ((serMembers (.cons k v t) ++ [rbrace]) ++ rest)) p =
        .ok (w, rest, p2)
      rw [List.append_assoc, List.singleton_append]
      rw [parseValue_succ_cons]
      rw [if_neg (show ¬(lbrace = '"') by decide), if_pos (rfl : lbrace = lbrace)]
      dsimp only
      have hsw : skipWs (serMembers (.cons k v t) ++ rbrace :: rest) (p + 1) =
          (serMembers (.cons k v t) ++ rbrace :: rest, p + 1) := by
        rw [hsplit]
        exact skipWs_cons_no (show isJsonWs '"' = false by decide) _ _
      rw [hsw]
      dsimp only
      rw [hsplit]
      dsimp only
      rw [if_neg (show ¬(('"' : Char) = rbrace) by decide)]
      rw [← hsplit]
      exact hM

theorem serElems_parses : ∀ (xs : JsonArr), xs ≠ .nil →
    ∀ (fuel : Nat) (rest : List Char) (p : Nat) (acc : List Json),
    jsonWeightA xs ≤ fuel → Stopper rest →
    ∃ w p2, parseElems fuel (serElems xs ++ ']' :: rest) p acc = .ok (w, rest, p2)
  | .nil, hne => absurd rfl hne
  | .cons x .nil, _ => by
    intro fuel rest p acc hw hstop
    rcases fuel with - | g
    · exact absurd hw (by
        rw [show jsonWeightA (.cons x .nil) = max (jsonWeight x) (jsonWeightA .nil) + 1
          from rfl]
        omega)
    have hwx : jsonWeight x ≤ g := by
      have h1 : jsonWeightA (.cons x .nil) = max (jsonWeight x) (jsonWeightA .nil) + 1 := rfl
      have h2 := Nat.le_max_left (jsonWeight x) (jsonWeightA .nil)
      omega
    obtain ⟨w1, p1, hV⟩ := ser_parses x g (']' :: rest) p hwx
      (Or.inr ⟨']', rest, rfl, Or.inr (Or.inl rfl)⟩)
    refine ⟨.arr (JsonArr.ofList (acc ++ [w1])), p1 + 1, ?_⟩
    show parseElems (g + 1) (serialize x ++ ']' :: rest) p acc = _
    rw [parseElems_succ, hV]
    dsimp only
    rw [skipWs_cons_no (show isJsonWs ']' = false by decide) rest p1]
    dsimp only
    rw [if_pos rfl]
  | .cons x (.cons y t2), _ => by
    intro fuel rest p acc hw hstop
    rcases fuel with - | g
    · exact absurd hw (by
        rw [show jsonWeightA (.cons x (.cons y t2)) =
          max (jsonWeight x) (jsonWeightA (.cons y t2)) + 1 from rfl]
        omega)
    have hwx : jsonWeight x ≤ g := by
      have h1 : jsonWeightA (.cons x (.cons y t2)) =
        max (jsonWeight x) (jsonWeightA (.cons y t2)) + 1 := rfl
      have h2 := Nat.le_max_left (jsonWeight x) (jsonWeightA (.cons y t2))
      omega
    have hwt : jsonWeightA (.cons y t2) ≤ g := by
      have h1 : jsonWeightA (.cons x (.cons y t2)) =
        max (jsonWeight x) (jsonWeightA (.cons y t2)) + 1 := rfl
      have h2 := Nat.le_max_right (jsonWeight x) (jsonWeightA (.cons y t2))
      omega
    have htext : serElems (.cons x (.cons y t2)) ++ ']' :: rest =
        serialize x ++ (',' :: ' ' :: (serElems (.cons y t2) ++ ']' :: rest)) := by
      rw [show serElems (.cons x (.cons y t2)) =
        serialize x ++ ',' :: ' ' :: serElems (.cons y t2) from rfl]
      simp
    obtain ⟨w1, p1, hV⟩ := ser_parses x g
      (',' :: ' ' :: (serElems (.cons y t2) ++ ']' :: rest)) p hwx
      (Or.inr ⟨',', _, rfl, Or.inl rfl⟩)
    obtain ⟨hh, tt, hsE, hwsE, -, -⟩ := serElems_head y t2
    have hsplit2 : serElems (.cons y t2) ++ ']' :: rest = hh :: (tt ++ ']' :: rest) := by
      rw [hsE]
      rfl
    obtain ⟨w, p2, hE⟩ := serElems_parses (.cons y t2) (fun h => JsonArr.noConfusion h)
      g rest (p1 + 1 + 1) (acc ++ [w1]) hwt hstop
    refine ⟨w, p2, ?_⟩
    rw [htext]
    rw [parseElems_succ, hV]
    dsimp only
    rw [skipWs_cons_no (show isJsonWs ',' = false by decide) _ p1]
    dsimp only
    rw [if_neg (show ¬((',' : Char) = ']') by decide), if_pos (rfl : (',' : Char) = ',')]
    rw [skipWs_cons_ws (show isJsonWs ' ' = true by decide)]
    have hsw2 : skipWs (serElems (.cons y t2) ++ ']' :: rest) (p1 + 1 + 1) =
        (serElems (.cons y t2) ++ ']' :: rest, p1 + 1 + 1) := by
      rw [hsplit2]
      exact skipWs_cons_no hwsE _ _
    rw [hsw2]
    dsimp only
    exact hE

theorem serMembers_parses : ∀ (ms : JsonObj), ms ≠ .nil →
    ∀ (fuel : Nat) (rest : List Char) (p : Nat) (acc : List (String × Json)),
    jsonWeightO ms ≤ fuel → Stopper rest →
    ∃ w p2, parseMembers fuel (serMembers ms ++ rbrace :: rest) p acc = .ok (w, rest, p2)
  | .nil, hne => absurd rfl hne
  | .cons k v t, _ => by
    intro fuel rest p acc hw hstop
    rcases fuel with - | g
    · exact absurd hw (by
        rw [show jsonWeightO (.cons k v t) = max (jsonWeight v) (jsonWeightO t) + 1 from rfl]
        omega)
    have hwv : jsonWeight v ≤ g := by
      have h1 : jsonWeightO (.cons k v t) = max (jsonWeight v) (jsonWeightO t) + 1 := rfl
      have h2 := Nat.le_max_left (jsonWeight v) (jsonWeightO t)
      omega
    obtain ⟨tl, hsm, htl⟩ := serMembers_cons_eq k v t
    have htext : serMembers (.cons k v t) ++ rbrace :: rest =
        '"' :: (((k.toList.map escChar).flatten ++ ['"']) ++
          (':' :: ' ' :: (serialize v ++ (tl ++ rbrace :: rest)))) := by
      rw [hsm]
      simp
    rw [htext, parseMembers_succ]
    dsimp only
    rw [if_pos rfl]
    obtain ⟨ct, p1, hsb⟩ := serStrBody_parses k.toList
      (':' :: ' ' :: (serialize v ++ (tl ++ rbrace :: rest))) (p + 1) p
    rw [show ((k.toList.map escChar).flatten ++ ['"']) ++
        (':' :: ' ' :: (serialize v ++ (tl ++ rbrace :: rest))) =
        (k.toList.map escChar).flatten ++
        '"' :: (':' :: ' ' :: (serialize v ++ (tl ++ rbrace :: rest))) from by simp]
    rw [hsb]
    dsimp only
    rw [skipWs_cons_no (show isJsonWs ':' = false by decide) _ p1]
    dsimp only
    rw [if_pos (rfl : (':' : Char) = ':')]
    rw [skipWs_cons_ws (show isJsonWs ' ' = true by decide)]
    obtain ⟨hh, tt, hsv, hwsv, -, -⟩ := serialize_head v
    have hsw : skipWs (serialize v ++ (tl ++ rbrace :: rest)) (p1 + 1 + 1) =
        (serialize v ++ (tl ++ rbrace :: rest), p1 + 1 + 1) := by
      rw [hsv]
      exact skipWs_cons_no hwsv _ _
    rw [hsw]
    dsimp only
    rcases htl with rfl | ⟨k2, v2, t2, rfl, rfl⟩
    · obtain ⟨w1, p4, hV⟩ := ser_parses v g (rbrace :: rest) (p1 + 1 + 1) hwv
        (Or.inr ⟨rbrace, rest, rfl, Or.inr (Or.inr rfl)⟩)
      rw [show ([] : List Char) ++ rbrace :: rest = rbrace :: rest from rfl]
      rw [hV]
      dsimp only
      rw [skipWs_cons_no (show isJsonWs rbrace = false by decide) rest p4]
      dsimp only
      rw [if_pos rfl]
      exact ⟨_, _, rfl⟩
    · have hwt : jsonWeightO (.cons k2 v2 t2) ≤ g := by
        have h1 : jsonWeightO (.cons k v (.cons k2 v2 t2)) =
          max (jsonWeight v) (jsonWeightO (.cons k2 v2 t2)) + 1 := rfl
        have h2 := Nat.le_max_right (jsonWeight v) (jsonWeightO (.cons k2 v2 t2))
        omega
      have htail : (',' :: ' ' :: serMembers (.cons k2 v2 t2)) ++ rbrace :: rest =
          ',' :: ' ' :: (serMembers (.cons k2 v2 t2) ++ rbrace :: rest) := by
        simp
      rw [htail]
      obtain ⟨w1, p4, hV⟩ := ser_parses v g
        (',' :: ' ' :: (serMembers (.cons k2 v2 t2) ++ rbrace :: rest)) (p1 + 1 + 1) hwv
        (Or.inr ⟨',', _, rfl, Or.inl rfl⟩)
      rw [hV]
      dsimp only
      rw [skipWs_cons_no (show isJsonWs ',' = false by decide) _ p4]
      dsimp only
      rw [if_neg (show ¬((',' : Char) = rbrace) by decide),
        if_pos (rfl : (',' : Char) = ',')]
      rw [skipWs_cons_ws (show isJsonWs ' ' = true by decide)]
      have hsw2 : skipWs (serMembers (.cons k2 v2 t2) ++ rbrace :: rest) (p4 + 1 + 1) =
          (serMembers (.cons k2 v2 t2) ++ rbrace :: rest, p4 + 1 + 1) := by
        obtain ⟨tl2, hsm2, -⟩ := serMembers_cons_eq k2 v2 t2
        rw [hsm2]
        exact skipWs_cons_no (show isJsonWs '"' = false by decide) _ _
      rw [hsw2]
      dsimp only
      exact serMembers_parses (.cons k2 v2 t2) (fun h => JsonObj.noConfusion h) g rest
        (p4 + 1 + 1) (acc ++ [(String.mk ct, w1)]) hwt hstop

end

/-! ## Serialized values are scanner-neutral; round-trip acceptance -/

theorem serNeutral (v : Json) : NeutralChunk (serialize v) := by
  obtain ⟨w, p2, hV⟩ := ser_parses v (jsonWeight v) [] 0 (le_refl _) (Or.inl rfl)
  obtain ⟨consumed, hcon, hN⟩ := (parser_consumed (jsonWeight v)).1 _ _ _ _ _ hV
  rw [List.append_nil, List.append_nil] at hcon
  rwa [hcon]

theorem jsonLoads_serialize (v : Json) :
    (jsonLoads (String.mk (serialize v))).isOk = true := by
  obtain ⟨w, p2, hV⟩ := ser_parses v ((serialize v).length + 1) [] 0
    (by have := jsonWeight_le v; omega) (Or.inl rfl)
  rw [List.append_nil] at hV
  obtain ⟨hh, tt, hsv, hwsv, -, -⟩ := serialize_head v
  unfold jsonLoads
  dsimp only
  have hsw : skipWs (String.mk (serialize v)).toList 0 =
      ((String.mk (serialize v)).toList, 0) := by
    show skipWs (serialize v) 0 = (serialize v, 0)
    rw [hsv]
    exact skipWs_cons_no hwsv _ _
  rw [hsw]
  dsimp only
  rw [show (String.mk (serialize v)).toList = serialize v from rfl]
  rw [hV]
  dsimp only
  rw [show skipWs [] p2 = ([], p2) from rfl]
  simp [Except.isOk, Except.toBool]

/-! ## Open-chunk algebra -/

theorem open_of_neutral {p : List Char} (h : NeutralChunk p) : OpenChunk p [] := by
  intro S L i rest
  obtain ⟨L2, h2⟩ := h S L i rest
  refine ⟨L2, ?_⟩
  rw [List.append_nil]
  exact h2

theorem open_pre {p q bs : List Char} (hp : NeutralChunk p) (hq : OpenChunk q bs) :
    OpenChunk (p ++ q) bs := by
  intro S L i rest
  obtain ⟨L2, h2⟩ := hp S L i (q ++ rest)
  obtain ⟨L3, h3⟩ := hq S L2 (i + p.length) rest
  refine ⟨L3, ?_⟩
  have hlen : i + p.length + q.length = i + (p ++ q).length := by
    rw [List.length_append]
    omega
  rw [List.append_assoc, h2, h3, hlen]

theorem open_cons_sq {p bs : List Char} (hp : OpenChunk p bs) :
    OpenChunk ('[' :: p) ('[' :: bs) := by
  intro S L i rest
  obtain ⟨L2, h2⟩ := hp (S ++ ['[']) L (i + 1) rest
  refine ⟨L2, ?_⟩
  have hr : rstep i '[' ⟨S, L, false, false⟩ = ⟨S ++ ['['], L, false, false⟩ := by
    simp [rstep, lbrace]
  have hstep : scanFrom ⟨S, L, false, false⟩ i (('[' :: p) ++ rest) =
      scanFrom (rstep i '[' ⟨S, L, false, false⟩) (i + 1) (p ++ rest) := rfl
  rw [hstep, hr, h2]
  rw [show (S ++ ['[']) ++ bs = S ++ '[' :: bs from by simp]
  congr 1
  simp only [List.length_cons]
  omega

theorem open_cons_br {p bs : List Char} (hp : OpenChunk p bs) :
    OpenChunk (lbrace :: p) (lbrace :: bs) := by
  intro S L i rest
  obtain ⟨L2, h2⟩ := hp (S ++ [lbrace]) L (i + 1) rest
  refine ⟨L2, ?_⟩
  have hr : rstep i lbrace ⟨S, L, false, false⟩ = ⟨S ++ [lbrace], L, false, false⟩ := by
    simp [rstep, lbrace, rbrace]
  have hstep : scanFrom ⟨S, L, false, false⟩ i ((lbrace :: p) ++ rest) =
      scanFrom (rstep i lbrace ⟨S, L, false, false⟩) (i + 1) (p ++ rest) := rfl
  rw [hstep, hr, h2]
  rw [show (S ++ [lbrace]) ++ bs = S ++ lbrace :: bs from by simp]
  congr 1
  simp only [List.length_cons]
  omega

theorem open_scan_init {p bs : List Char} (hp : OpenChunk p bs) :
    ∃ L2, scanFrom initRState 0 p = ⟨bs, L2, false, false⟩ := by
  obtain ⟨L2, h2⟩ := hp [] 0 0 []
  rw [List.append_nil] at h2
  refine ⟨L2, ?_⟩
  show scanFrom ⟨[], 0, false, false⟩ 0 p = _
  rw [h2]
  rfl

/-! ## `lastValid` tracking: only a pop can move it to the scan's end -/

theorem rstep_lastValid_le (i : Nat) (c : Char) (st : RState) (h : st.lastValid ≤ i) :
    (rstep i c st).lastValid ≤ i + 1 := by
  unfold rstep
  split_ifs <;> (try simp) <;> omega

theorem scanFrom_lastValid_le : ∀ (cs : List Char) (st : RState) (i : Nat),
    st.lastValid ≤ i → (scanFrom st i cs).lastValid ≤ i + cs.length := by
  intro cs
  induction cs with
  | nil =>
    intro st i h
    simpa [scanFrom] using h
  | cons c rest ih =>
    intro st i h
    show (scanFrom (rstep i c st) (i + 1) rest).lastValid ≤ i + (c :: rest).length
    have h1 := rstep_lastValid_le i c st h
    have h2 := ih (rstep i c st) (i + 1) h1
    simp only [List.length_cons] at h2 ⊢
    omega

theorem rstep_lastValid_cases (i : Nat) (c : Char) (st : RState) :
    (rstep i c st).lastValid = st.lastValid ∨
      ((rstep i c st).lastValid = i + 1 ∧ (c = rbrace ∨ c = ']')) := by
  unfold rstep
  split_ifs with h1 h2 h3 h4 h5 h6 h7
  · exact Or.inl rfl
  · exact Or.inl rfl
  · exact Or.inl rfl
  · exact Or.inl rfl
  · exact Or.inl rfl
  · exact Or.inr ⟨rfl, Or.inl h6.1⟩
  · exact Or.inr ⟨rfl, Or.inr h7.1⟩
  · exact Or.inl rfl

theorem pop_end (cs : List Char) (st : RState) (i : Nat) (h0 : st.lastValid ≤ i)
    (hcs : cs ≠ []) (hlv : (scanFrom st i cs).lastValid = i + cs.length) :
    ∃ q0 c, cs = q0 ++ [c] ∧ (c = ']' ∨ c = rbrace) := by
  rcases List.eq_nil_or_concat cs with rfl | ⟨q0, c, hc⟩
  · exact absurd rfl hcs
  rw [List.concat_eq_append] at hc
  subst hc
  refine ⟨q0, c, rfl, ?_⟩
  have hsplit : scanFrom st i (q0 ++ [c]) =
      rstep (i + q0.length) c (scanFrom st i q0) := by
    rw [scanFrom_append]
    rfl
  rw [hsplit] at hlv
  have hb := scanFrom_lastValid_le q0 st i h0
  rcases rstep_lastValid_cases (i + q0.length) c (scanFrom st i q0) with h | ⟨h1, h2⟩
  · rw [h] at hlv
    simp only [List.length_append, List.length_singleton] at hlv
    omega
  · rcases h2 with rfl | rfl
    · exact Or.inr rfl
    · exact Or.inl rfl

/-! ## Inside a string literal the scanner never pops -/

theorem strInner_closed {p : List Char} (hp : StrInner p) (S : List Char) (L i : Nat) :
    scanFrom ⟨S, L, true, false⟩ i p = ⟨S, L, true, false⟩ := by
  have h := hp S L i []
  rw [List.append_nil] at h
  rw [h]
  rfl

theorem strInner_escape (e : Char) : StrInner ['\\', e] := by
  intro S L i rest
  have h1 : rstep i '\\' ⟨S, L, true, false⟩ = ⟨S, L, true, true⟩ := by
    simp [rstep]
  have h2 : rstep (i + 1) e ⟨S, L, true, true⟩ = ⟨S, L, true, false⟩ := by
    simp [rstep]
  show scanFrom (rstep (i + 1) e (rstep i '\\' ⟨S, L, true, false⟩)) (i + 1 + 1) rest = _
  rw [h1, h2]
  congr 1

theorem strInner_plain (c : Char) (hq : c ≠ '"') (hb : c ≠ '\\') : StrInner [c] := by
  intro S L i rest
  have h1 : rstep i c ⟨S, L, true, false⟩ = ⟨S, L, true, false⟩ := by
    simp [rstep, hq, hb]
  show scanFrom (rstep i c ⟨S, L, true, false⟩) (i + 1) rest = _
  rw [h1]
  congr 1

theorem strInner_append {p q : List Char} (hp : StrInner p) (hq : StrInner q) :
    StrInner (p ++ q) := by
  intro S L i rest
  rw [List.append_assoc, hp S L i (q ++ rest), hq S L (i + p.length) rest]
  congr 1
  rw [List.length_append]
  omega

theorem strInner_escChar (c : Char) : StrInner (escChar c) := by
  by_cases h1 : c = '"'
  · subst h1
    rw [show escChar '"' = ['\\', '"'] from by decide]
    exact strInner_escape '"'
  by_cases h2 : c = '\\'
  · subst h2
    rw [show escChar '\\' = ['\\', '\\'] from by decide]
    exact strInner_escape '\\'
  by_cases h3 : c = '\n'
  · subst h3
    rw [show escChar '\n' = ['\\', 'n'] from by decide]
    exact strInner_escape 'n'
  by_cases h4 : c = '\t'
  · subst h4
    rw [show escChar '\t' = ['\\', 't'] from by decide]
    exact strInner_escape 't'
  by_cases h5 : c = '\r'
  · subst h5
    rw [show escChar '\r' = ['\\', 'r'] from by decide]
    exact strInner_escape 'r'
  by_cases h6 : c = Char.ofNat 8
  · subst h6
    rw [show escChar (Char.ofNat 8) = ['\\', 'b'] from by decide]
    exact strInner_escape 'b'
  by_cases h7 : c = Char.ofNat 12
  · subst h7
    rw [show escChar (Char.ofNat 12) = ['\\', 'f'] from by decide]
    exact strInner_escape 'f'
  by_cases h8 : c.toNat < 32
  · have hec : escChar c =
        ['\\', 'u', '0', '0', hexDigit (c.toNat / 16), hexDigit (c.toNat % 16)] := by
      simp only [escChar]
      rw [if_neg h1, if_neg h2, if_neg h3, if_neg h4, if_neg h5, if_neg h6, if_neg h7,
        if_pos h8]
    rw [hec]
    have hdiv := hexDigit_facts (c.toNat / 16) (by omega)
    have hmod := hexDigit_facts (c.toNat % 16) (by omega)
    exact strInner_append (strInner_escape 'u')
      (strInner_append (strInner_plain '0' (by decide) (by decide))
        (strInner_append (strInner_plain '0' (by decide) (by decide))
          (strInner_append (strInner_plain _ hdiv.2.1 hdiv.2.2)
            (strInner_plain _ hmod.2.1 hmod.2.2))))
  · have hec : escChar c = [c] := by
      simp only [escChar]
      rw [if_neg h1, if_neg h2, if_neg h3, if_neg h4, if_neg h5, if_neg h6, if_neg h7,
        if_neg h8]
    rw [hec]
    exact strInner_plain c h1 h2

theorem escape_block_partial (x : Char) (w u : List Char) (heq : ['\\', x] = w ++ u)
    (S : List Char) (L i : Nat) :
    ∃ e2, scanFrom ⟨S, L, true, false⟩ i w = ⟨S, L, true, e2⟩ := by
  rcases w with - | ⟨w1, w⟩
  · exact ⟨false, rfl⟩
  rcases w with - | ⟨w2, w⟩
  · simp only [List.cons_append, List.nil_append, List.cons.injEq] at heq
    obtain ⟨rfl, -⟩ := heq
    refine ⟨true, ?_⟩
    show scanFrom (rstep i '\\' ⟨S, L, true, false⟩) (i + 1) [] = _
    rw [show rstep i '\\' ⟨S, L, true, false⟩ = ⟨S, L, true, true⟩ from by simp [rstep]]
    rfl
  rcases w with - | ⟨w3, w⟩
  · simp only [List.cons_append, List.nil_append, List.cons.injEq] at heq
    obtain ⟨rfl, rfl, -⟩ := heq
    exact ⟨false, strInner_closed (strInner_escape x) S L i⟩
  · exfalso
    simp at heq

theorem u_block_partial (d1 d2 : Char) (h1q : d1 ≠ '"') (h1b : d1 ≠ '\\')
    (h2q : d2 ≠ '"') (h2b : d2 ≠ '\\') (w u : List Char)
    (heq : ['\\', 'u', '0', '0', d1, d2] = w ++ u) (S : List Char) (L i : Nat) :
    ∃ e2, scanFrom ⟨S, L, true, false⟩ i w = ⟨S, L, true, e2⟩ := by
  rcases w with - | ⟨w1, w⟩
  · exact ⟨false, rfl⟩
  rcases w with - | ⟨w2, w⟩
  · simp only [List.cons_append, List.nil_append, List.cons.injEq] at heq
    obtain ⟨rfl, -⟩ := heq
    refine ⟨true, ?_⟩
    show scanFrom (rstep i '\\' ⟨S, L, true, false⟩) (i + 1) [] = _
    rw [show rstep i '\\' ⟨S, L, true, false⟩ = ⟨S, L, true, true⟩ from by simp [rstep]]
    rfl
  rcases w with - | ⟨w3, w⟩
  · simp only [List.cons_append, List.nil_append, List.cons.injEq] at heq
    obtain ⟨rfl, rfl, -⟩ := heq
    exact ⟨false, strInner_closed (strInner_escape 'u') S L i⟩
  rcases w with - | ⟨w4, w⟩
  · simp only [List.cons_append, List.nil_append, List.cons.injEq] at heq
    obtain ⟨rfl, rfl, rfl, -⟩ := heq
    exact ⟨false, strInner_closed
      (strInner_append (strInner_escape 'u') (strInner_plain '0' (by decide) (by decide)))
      S L i⟩
  rcases w with - | ⟨w5, w⟩
  · simp only [List.cons_append, List.nil_append, List.cons.injEq] at heq
    obtain ⟨rfl, rfl, rfl, rfl, -⟩ := heq
    exact ⟨false, strInner_closed
      (strInner_append (strInner_escape 'u')
        (strInner_append (strInner_plain '0' (by decide) (by decide))
          (strInner_plain '0' (by decide) (by decide)))) S L i⟩
  rcases w with - | ⟨w6, w⟩
  · simp only [List.cons_append, List.nil_append, List.cons.injEq] at heq
    obtain ⟨rfl, rfl, rfl, rfl, rfl, -⟩ := heq
    exact ⟨false, strInner_closed
      (strInner_append (strInner_escape 'u')
        (strInner_append (strInner_plain '0' (by decide) (by decide))
          (strInner_append (strInner_plain '0' (by decide) (by decide))
            (strInner_plain d1 h1q h1b)))) S L i⟩
  rcases w with - | ⟨w7, w⟩
  · simp only [List.cons_append, List.nil_append, List.cons.injEq] at heq
    obtain ⟨rfl, rfl, rfl, rfl, rfl, rfl, -⟩ := heq
    exact ⟨false, strInner_closed
      (strInner_append (strInner_escape 'u')
        (strInner_append (strInner_plain '0' (by decide) (by decide))
          (strInner_append (strInner_plain '0' (by decide) (by decide))
            (strInner_append (strInner_plain d1 h1q h1b)
              (strInner_plain d2 h2q h2b))))) S L i⟩
  · exfalso
    simp at heq

theorem escChar_partial (c : Char) (w u : List Char) (heq : escChar c = w ++ u)
    (S : List Char) (L i : Nat) :
    ∃ e2, scanFrom ⟨S, L, true, false⟩ i w = ⟨S, L, true, e2⟩ := by
  by_cases h1 : c = '"'
  · subst h1
    rw [show escChar '"' = ['\\', '"'] from by decide] at heq
    exact escape_block_partial '"' w u heq S L i
  by_cases h2 : c = '\\'
  · subst h2
    rw [show escChar '\\' = ['\\', '\\'] from by decide] at heq
    exact escape_block_partial '\\' w u heq S L i
  by_cases h3 : c = '\n'
  · subst h3
    rw [show escChar '\n' = ['\\', 'n'] from by decide] at heq
    exact escape_block_partial 'n' w u heq S L i
  by_cases h4 : c = '\t'
  · subst h4
    rw [show escChar '\t' = ['\\', 't'] from by decide] at heq
    exact escape_block_partial 't' w u heq S L i
  by_cases h5 : c = '\r'
  · subst h5
    rw [show escChar '\r' = ['\\', 'r'] from by decide] at heq
    exact escape_block_partial 'r' w u heq S L i
  by_cases h6 : c = Char.ofNat 8
  · subst h6
    rw [show escChar (Char.ofNat 8) = ['\\', 'b'] from by decide] at heq
    exact escape_block_partial 'b' w u heq S L i
  by_cases h7 : c = Char.ofNat 12
  · subst h7
    rw [show escChar (Char.ofNat 12) = ['\\', 'f'] from by decide] at heq
    exact escape_block_partial 'f' w u heq S L i
  by_cases h8 : c.toNat < 32
  · have hec : escChar c =
        ['\\', 'u', '0', '0', hexDigit (c.toNat / 16), hexDigit (c.toNat % 16)] := by
      simp only [escChar]
      rw [if_neg h1, if_neg h2, if_neg h3, if_neg h4, if_neg h5, if_neg h6, if_neg h7,
        if_pos h8]
    rw [hec] at heq
    have hdiv := hexDigit_facts (c.toNat / 16) (by omega)
    have hmod := hexDigit_facts (c.toNat % 16) (by omega)
    exact u_block_partial _ _ hdiv.2.1 hdiv.2.2 hmod.2.1 hmod.2.2 w u heq S L i
  · have hec : escChar c = [c] := by
      simp only [escChar]
      rw [if_neg h1, if_neg h2, if_neg h3, if_neg h4, if_neg h5, if_neg h6, if_neg h7,
        if_neg h8]
    rw [hec] at heq
    rcases w with - | ⟨w1, w⟩
    · exact ⟨false, rfl⟩
    rcases w with - | ⟨w2, w⟩
    · simp only [List.cons_append, List.nil_append, List.cons.injEq] at heq
      obtain ⟨rfl, -⟩ := heq
      exact ⟨false, strInner_closed (strInner_plain c h1 h2) S L i⟩
    · exfalso
      simp at heq

theorem body_partial : ∀ (l : List Char) (w u : List Char),
    (l.map escChar).flatten = w ++ u → ∀ (S : List Char) (L i : Nat),
    ∃ e2, scanFrom ⟨S, L, true, false⟩ i w = ⟨S, L, true, e2⟩ := by
  intro l
  induction l with
  | nil =>
    intro w u heq S L i
    have hw : w = [] := by
      cases w with
      | nil => rfl
      | cons a b => simp at heq
    subst hw
    exact ⟨false, rfl⟩
  | cons c l ih =>
    intro w u heq S L i
    rw [List.map_cons, List.flatten_cons] at heq
    rcases List.append_eq_append_iff.mp heq with ⟨a2, ha, hb⟩ | ⟨c2, hc, hd⟩
    · -- w = escChar c ++ a2, flatten l = a2 ++ u
      subst ha
      obtain ⟨e2, h2⟩ := ih a2 u hb S L (i + (escChar c).length)
      refine ⟨e2, ?_⟩
      rw [strInner_escChar c S L i a2]
      exact h2
    · -- escChar c = w ++ c2
      exact escChar_partial c w c2 hc S L i

theorem string_cut_frozen (l w u : List Char)
    (hbody : (l.map escChar).flatten = w ++ u) (S0 : List Char) (L0 i0 : Nat)
    (h0 : L0 ≤ i0)
    (hlv : (scanFrom ⟨S0, L0, false, false⟩ i0 ('"' :: w)).lastValid =
      i0 + ('"' :: w).length) : False := by
  obtain ⟨e2, hscan⟩ := body_partial l w u hbody S0 L0 (i0 + 1)
  have hstep : scanFrom ⟨S0, L0, false, false⟩ i0 ('"' :: w) =
      scanFrom (rstep i0 '"' ⟨S0, L0, false, false⟩) (i0 + 1) w := rfl
  rw [hstep, show rstep i0 '"' ⟨S0, L0, false, false⟩ = ⟨S0, L0, true, false⟩ from by
    simp [rstep], hscan] at hlv
  have hproj : (⟨S0, L0, true, e2⟩ : RState).lastValid = L0 := rfl
  simp only [List.length_cons] at hlv
  omega

/-! ## Cut-point bookkeeping helpers -/

theorem last_of_concat_eq {l1 l2 : List Char} {a b : Char} (h : l1 ++ [a] = l2 ++ [b]) :
    a = b := by
  have h1 := congrArg (fun l => l.getLast?) h
  simp only [List.getLast?_concat, Option.some.injEq] at h1
  exact h1

theorem init_of_concat_eq {l1 l2 : List Char} {a b : Char} (h : l1 ++ [a] = l2 ++ [b]) :
    l1 = l2 :=
  (List.append_inj' h (by simp)).1

theorem c_close_ne {c x : Char} (hc : c = ']' ∨ c = rbrace) (hx1 : x ≠ ']')
    (hx2 : x ≠ rbrace) (h : c = x) : False := by
  rcases hc with rfl | rfl
  · exact hx1 h.symm
  · exact hx2 h.symm

theorem intRepr_mem (n : Int) {c : Char} (h : c ∈ intRepr n) :
    c = '-' ∨ isPyDigit c = true := by
  cases n with
  | ofNat m =>
    obtain ⟨ds, hds, hdig, -⟩ := natReprAux_shape (m + 1) m []
    have hn : intRepr (Int.ofNat m) = ds := by
      show natRepr m = ds
      unfold natRepr
      rw [hds, List.append_nil]
    rw [hn] at h
    exact Or.inr (hdig c h)
  | negSucc m =>
    obtain ⟨ds, hds, hdig, -⟩ := natReprAux_shape (m + 2) (m + 1) []
    have hn : intRepr (Int.negSucc m) = '-' :: ds := by
      show '-' :: natRepr (m + 1) = '-' :: ds
      unfold natRepr
      rw [hds, List.append_nil]
    rw [hn] at h
    rcases List.mem_cons.mp h with rfl | h2
    · exact Or.inl rfl
    · exact Or.inr (hdig c h2)

theorem neutral_comma_space_pre {p : List Char} {bs : List Char} (hp : OpenChunk p bs) :
    OpenChunk (',' :: ' ' :: p) bs := by
  have h := open_pre (neutral_plain (show PlainChar ',' by decide))
    (open_pre (neutral_plain (show PlainChar ' ' by decide)) hp)
  intro S L i rest
  obtain ⟨L2, h2⟩ := h S L i rest
  refine ⟨L2, ?_⟩
  rw [show ((([','] : List Char) ++ ([' '] ++ p)) ++ rest) =
    (',' :: ' ' :: p) ++ rest from by simp] at h2
  rw [show i + (([','] : List Char) ++ ([' '] ++ p)).length =
    i + ((',' :: ' ' :: p).length) from by simp] at h2
  exact h2

theorem plain_scan : ∀ (E : List Char), (∀ c ∈ E, PlainChar c) →
    ∀ (S : List Char) (L i : Nat) (rest : List Char),
    scanFrom ⟨S, L, false, false⟩ i (E ++ rest) =
      scanFrom ⟨S, L, false, false⟩ (i + E.length) rest := by
  intro E
  induction E with
  | nil =>
    intro h S L i rest
    simp
  | cons e E ih =>
    intro h S L i rest
    obtain ⟨h1, h2, h3, h4, h5⟩ := h e (by simp)
    show scanFrom (rstep i e ⟨S, L, false, false⟩) (i + 1) (E ++ rest) = _
    rw [show rstep i e ⟨S, L, false, false⟩ = ⟨S, L, false, false⟩ from by
      simp [rstep, h1, h2, h3, h4, h5]]
    rw [ih (fun c hc => h c (by simp [hc])) S L (i + 1) rest]
    congr 1
    simp only [List.length_cons]
    omega

theorem scan_shift_neutral {P : List Char} (hP : NeutralChunk P) (EXTRA : List Char)
    (hEX : ∀ c ∈ EXTRA, PlainChar c)
    (W : List Char) (S0 : List Char) (L0 i0 : Nat) (h0 : L0 ≤ i0)
    (hlv : (scanFrom ⟨S0, L0, false, false⟩ i0 (P ++ (EXTRA ++ W))).lastValid =
      i0 + (P ++ (EXTRA ++ W)).length) :
    ∃ L2, L2 ≤ i0 + P.length + EXTRA.length ∧
      (scanFrom ⟨S0, L2, false, false⟩ (i0 + P.length + EXTRA.length) W).lastValid =
        (i0 + P.length + EXTRA.length) + W.length := by
  obtain ⟨L2, hM⟩ := hP S0 L0 i0 []
  rw [List.append_nil] at hM
  have hM2 : scanFrom ⟨S0, L0, false, false⟩ i0 P = ⟨S0, L2, false, false⟩ := by
    rw [hM]
    rfl
  have hL2 : L2 ≤ i0 + P.length := by
    have hb := scanFrom_lastValid_le P ⟨S0, L0, false, false⟩ i0 h0
    rw [hM2] at hb
    exact hb
  have hsplit : scanFrom ⟨S0, L0, false, false⟩ i0 (P ++ (EXTRA ++ W)) =
      scanFrom ⟨S0, L2, false, false⟩ (i0 + P.length + EXTRA.length) W := by
    rw [scanFrom_append, hM2, plain_scan EXTRA hEX]
  refine ⟨L2, by omega, ?_⟩
  rw [hsplit] at hlv
  rw [hlv]
  simp only [List.length_append]
  omega

/-- A cut that ends with a pop cannot land inside a serialized string literal:
inside the literal the scanner never pops, so `lastValid` cannot reach the
cut's end. -/
theorem serStr_cut_contra (sl : List Char) (q : List Char) (c : Char) (c2 : List Char)
    (hc : c = ']' ∨ c = rbrace) (S0 : List Char) (L0 i0 : Nat) (h0 : L0 ≤ i0)
    (ha : '"' :: ((sl.map escChar).flatten ++ ['"']) = (q ++ [c]) ++ c2)
    (hlv : (scanFrom ⟨S0, L0, false, false⟩ i0 (q ++ [c])).lastValid =
      i0 + (q ++ [c]).length) : False := by
  rcases q with - | ⟨qh, q1⟩
  · simp only [List.nil_append, List.singleton_append] at ha
    exact c_close_ne hc (by decide) (by decide) ((List.cons.inj ha).1).symm
  · simp only [List.cons_append] at ha
    obtain ⟨hqh, heq2⟩ := List.cons.inj ha
    subst hqh
    rcases List.append_eq_append_iff.mp heq2 with ⟨a2, ha2, hb2⟩ | ⟨c3, ha3, hb3⟩
    · rcases a2 with - | ⟨a2h, a2t⟩
      · rw [List.append_nil] at ha2
        exact string_cut_frozen sl (q1 ++ [c]) []
          (by rw [List.append_nil]; exact ha2.symm) S0 L0 i0 h0 hlv
      · simp only [List.cons_append] at hb2
        obtain ⟨h2, h3⟩ := List.cons.inj hb2
        obtain ⟨rfl, rfl⟩ := List.append_eq_nil.mp h3.symm
        rw [← h2] at ha2
        exact c_close_ne hc (by decide) (by decide) (last_of_concat_eq ha2)
    · exact string_cut_frozen sl (q1 ++ [c]) c3 ha3 S0 L0 i0 h0 hlv

/-! ## Pruning: a truncation cut right after a pop extends to a serialization -/

mutual

theorem pruneV : ∀ (v : Json) (q : List Char) (c : Char) (r : List Char)
    (S0 : List Char) (L0 i0 : Nat),
    serialize v = (q ++ [c]) ++ r →
    (c = ']' ∨ c = rbrace) →
    L0 ≤ i0 →
    (scanFrom ⟨S0, L0, false, false⟩ i0 (q ++ [c])).lastValid = i0 + (q ++ [c]).length →
    ∃ v' bs, OpenChunk (q ++ [c]) bs ∧
      (q ++ [c]) ++ (bs.reverse.map closerOf) = serialize v'
  | .null => by
    intro q c r S0 L0 i0 heq hc h0 hlv
    exfalso
    have hm : c ∈ (q ++ [c]) ++ r := by simp
    rw [← heq] at hm
    rcases hc with rfl | rfl <;> exact absurd hm (by decide)
  | .bool true => by
    intro q c r S0 L0 i0 heq hc h0 hlv
    exfalso
    have hm : c ∈ (q ++ [c]) ++ r := by simp
    rw [← heq] at hm
    rcases hc with rfl | rfl <;> exact absurd hm (by decide)
  | .bool false => by
    intro q c r S0 L0 i0 heq hc h0 hlv
    exfalso
    have hm : c ∈ (q ++ [c]) ++ r := by simp
    rw [← heq] at hm
    rcases hc with rfl | rfl <;> exact absurd hm (by decide)
  | .num n => by
    intro q c r S0 L0 i0 heq hc h0 hlv
    exfalso
    have hm : c ∈ (q ++ [c]) ++ r := by simp
    rw [← heq] at hm
    rcases intRepr_mem n hm with h | h
    · exact c_close_ne hc (by decide) (by decide) h
    · rcases hc with rfl | rfl <;> exact absurd h (by decide)
  | .str s => by
    intro q c r S0 L0 i0 heq hc h0 hlv
    exact (serStr_cut_contra s.toList q c r hc S0 L0 i0 h0 heq hlv).elim
  | .arr xs => by
    intro q c r S0 L0 i0 heq hc h0 hlv
    rw [show serialize (.arr xs) = '[' :: (serElems xs ++ [']']) from rfl] at heq
    rcases q with - | ⟨qh, q1⟩
    · exfalso
      simp only [List.nil_append, List.singleton_append] at heq
      exact c_close_ne hc (by decide) (by decide) ((List.cons.inj heq).1).symm
    · simp only [List.cons_append] at heq
      obtain ⟨hqh, heq2⟩ := List.cons.inj heq
      subst hqh
      have hlv1 : (scanFrom ⟨S0 ++ ['['], L0, false, false⟩ (i0 + 1) (q1 ++ [c])).lastValid =
          (i0 + 1) + (q1 ++ [c]).length := by
        have hstep : scanFrom ⟨S0, L0, false, false⟩ i0 (('[' :: q1) ++ [c]) =
            scanFrom ⟨S0 ++ ['['], L0, false, false⟩ (i0 + 1) (q1 ++ [c]) := by
          show scanFrom (rstep i0 '[' ⟨S0, L0, false, false⟩) (i0 + 1) (q1 ++ [c]) = _
          rw [show rstep i0 '[' ⟨S0, L0, false, false⟩ = ⟨S0 ++ ['['], L0, false, false⟩
            from by simp [rstep, lbrace]]
        rw [hstep] at hlv
        rw [hlv]
        simp only [List.cons_append, List.length_cons, List.length_append]
        omega
      rcases List.append_eq_append_iff.mp heq2 with ⟨a2, ha, hb⟩ | ⟨c2, ha, hb⟩
      · rcases a2 with - | ⟨a2h, a2t⟩
        · rw [List.append_nil] at ha
          obtain ⟨z, zs, bs, hopen, hser⟩ := pruneE xs q1 c [] (S0 ++ ['[']) L0 (i0 + 1)
            (by rw [List.append_nil]; exact ha.symm) hc (by omega) hlv1
          refine ⟨.arr (.cons z zs), '[' :: bs, open_cons_sq hopen, ?_⟩
          rw [show serialize (.arr (.cons z zs)) =
            '[' :: (serElems (.cons z zs) ++ [']']) from rfl]
          rw [← hser]
          simp only [List.reverse_cons, List.map_append, List.map_cons, List.map_nil]
          rw [show closerOf '[' = ']' from by decide]
          simp
        · simp only [List.cons_append] at hb
          obtain ⟨hj, h3⟩ := List.cons.inj hb
          obtain ⟨rfl, rfl⟩ := List.append_eq_nil.mp h3.symm
          rw [← hj] at ha
          have hfull : ('[' :: q1) ++ [c] = serialize (.arr xs) := by
            rw [show serialize (.arr xs) = '[' :: (serElems xs ++ [']']) from rfl]
            simp only [List.cons_append]
            rw [ha]
          refine ⟨.arr xs, [], ?_, ?_⟩
          · rw [hfull]
            exact open_of_neutral (serNeutral (.arr xs))
          · simp only [List.reverse_nil, List.map_nil, List.append_nil]
            exact hfull
      · obtain ⟨z, zs, bs, hopen, hser⟩ := pruneE xs q1 c c2 (S0 ++ ['[']) L0 (i0 + 1)
          ha hc (by omega) hlv1
        refine ⟨.arr (.cons z zs), '[' :: bs, open_cons_sq hopen, ?_⟩
        rw [show serialize (.arr (.cons z zs)) =
          '[' :: (serElems (.cons z zs) ++ [']']) from rfl]
        rw [← hser]
        simp only [List.reverse_cons, List.map_append, List.map_cons, List.map_nil]
        rw [show closerOf '[' = ']' from by decide]
        simp
  | .obj ms => by
    intro q c r S0 L0 i0 heq hc h0 hlv
    rw [show serialize (.obj ms) = lbrace :: (serMembers ms ++ [rbrace]) from rfl] at heq
    rcases q with - | ⟨qh, q1⟩
    · exfalso
      simp only [List.nil_append, List.singleton_append] at heq
      exact c_close_ne hc (by decide) (by decide) ((List.cons.inj heq).1).symm
    · simp only [List.cons_append] at heq
      obtain ⟨hqh, heq2⟩ := List.cons.inj heq
      subst hqh
      have hlv1 : (scanFrom ⟨S0 ++ [lbrace], L0, false, false⟩ (i0 + 1)
            (q1 ++ [c])).lastValid = (i0 + 1) + (q1 ++ [c]).length := by
        have hstep : scanFrom ⟨S0, L0, false, false⟩ i0 ((lbrace :: q1) ++ [c]) =
            scanFrom ⟨S0 ++ [lbrace], L0, false, false⟩ (i0 + 1) (q1 ++ [c]) := by
          show scanFrom (rstep i0 lbrace ⟨S0, L0, false, false⟩) (i0 + 1) (q1 ++ [c]) = _
          rw [show rstep i0 lbrace ⟨S0, L0, false, false⟩ = ⟨S0 ++ [lbrace], L0, false, false⟩
            from by simp [rstep, lbrace, rbrace]]
        rw [hstep] at hlv
        rw [hlv]
        simp only [List.cons_append, List.length_cons, List.length_append]
        omega
      rcases List.append_eq_append_iff.mp heq2 with ⟨a2, ha, hb⟩ | ⟨c2, ha, hb⟩
      · rcases a2 with - | ⟨a2h, a2t⟩
        · rw [List.append_nil] at ha
          obtain ⟨k', v', ms', bs, hopen, hser⟩ := pruneM ms q1 c []
            (S0 ++ [lbrace]) L0 (i0 + 1)
            (by rw [List.append_nil]; exact ha.symm) hc (by omega) hlv1
          refine ⟨.obj (.cons k' v' ms'), lbrace :: bs, open_cons_br hopen, ?_⟩
          rw [show serialize (.obj (.cons k' v' ms')) =
            lbrace :: (serMembers (.cons k' v' ms') ++ [rbrace]) from rfl]
          rw [← hser]
          simp only [List.reverse_cons, List.map_append, List.map_cons, List.map_nil]
          rw [show closerOf lbrace = rbrace from by decide]
          simp
        · simp only [List.cons_append] at hb
          obtain ⟨hj, h3⟩ := List.cons.inj hb
          obtain ⟨rfl, rfl⟩ := List.append_eq_nil.mp h3.symm
          rw [← hj] at ha
          have hfull : (lbrace :: q1) ++ [c] = serialize (.obj ms) := by
            rw [show serialize (.obj ms) = lbrace :: (serMembers ms ++ [rbrace]) from rfl]
            simp only [List.cons_append]
            rw [ha]
          refine ⟨.obj ms, [], ?_, ?_⟩
          · rw [hfull]
            exact open_of_neutral (serNeutral (.obj ms))
          · simp only [List.reverse_nil, List.map_nil, List.append_nil]
            exact hfull
      · obtain ⟨k', v', ms', bs, hopen, hser⟩ := pruneM ms q1 c c2
          (S0 ++ [lbrace]) L0 (i0 + 1) ha hc (by omega) hlv1
        refine ⟨.obj (.cons k' v' ms'), lbrace :: bs, open_cons_br hopen, ?_⟩
        rw [show serialize (.obj (.cons k' v' ms')) =
          lbrace :: (serMembers (.cons k' v' ms') ++ [rbrace]) from rfl]
        rw [← hser]
        simp only [List.reverse_cons, List.map_append, List.map_cons, List.map_nil]
        rw [show closerOf lbrace = rbrace from by decide]
        simp

theorem pruneE : ∀ (xs : JsonArr) (q : List Char) (c : Char) (r : List Char)
    (S0 : List Char) (L0 i0 : Nat),
    serElems xs = (q ++ [c]) ++ r →
    (c = ']' ∨ c = rbrace) →
    L0 ≤ i0 →
    (scanFrom ⟨S0, L0, false, false⟩ i0 (q ++ [c])).lastValid = i0 + (q ++ [c]).length →
    ∃ z zs bs, OpenChunk (q ++ [c]) bs ∧
      (q ++ [c]) ++ (bs.reverse.map closerOf) = serElems (.cons z zs)
  | .nil => by
    intro q c r S0 L0 i0 heq hc h0 hlv
    exfalso
    rw [show serElems .nil = [] from rfl] at heq
    have hl := congrArg List.length heq
    simp only [List.length_nil, List.length_append, List.length_cons] at hl
    omega
  | .cons x .nil => by
    intro q c r S0 L0 i0 heq hc h0 hlv
    obtain ⟨v', bs, hopen, hser⟩ := pruneV x q c r S0 L0 i0 heq hc h0 hlv
    exact ⟨v', .nil, bs, hopen, by
      rw [show serElems (.cons v' .nil) = serialize v' from rfl]
      exact hser⟩
  | .cons x (.cons y t2) => by
    intro q c r S0 L0 i0 heq hc h0 hlv
    rw [show serElems (.cons x (.cons y t2)) =
      serialize x ++ (',' :: ' ' :: serElems (.cons y t2)) from rfl] at heq
    rcases List.append_eq_append_iff.mp heq with ⟨a2, ha, hb⟩ | ⟨c2, ha, hb⟩
    · rcases a2 with - | ⟨a2h, a2t⟩
      · rw [List.append_nil] at ha
        obtain ⟨v', bs, hopen, hser⟩ := pruneV x q c [] S0 L0 i0
          (by rw [List.append_nil]; exact ha.symm) hc h0 hlv
        exact ⟨v', .nil, bs, hopen, by
          rw [show serElems (.cons v' .nil) = serialize v' from rfl]
          exact hser⟩
      · simp only [List.cons_append] at hb
        obtain ⟨hcm, hb2⟩ := List.cons.inj hb
        subst hcm
        rcases a2t with - | ⟨a3h, a3t⟩
        · exact (c_close_ne hc (by decide) (by decide) (last_of_concat_eq ha)).elim
        · simp only [List.cons_append] at hb2
          obtain ⟨hsp, hb3⟩ := List.cons.inj hb2
          subst hsp
          rcases List.eq_nil_or_concat a3t with rfl | ⟨q2, cl, hq2⟩
          · have ha' : q ++ [c] = (serialize x ++ [',']) ++ [' '] := by
              rw [ha]
              simp
            exact (c_close_ne hc (by decide) (by decide) (last_of_concat_eq ha')).elim
          · rw [List.concat_eq_append] at hq2
            subst hq2
            have hlast : (serialize x ++ (',' :: ' ' :: q2)) ++ [cl] = q ++ [c] := by
              rw [ha]
              simp
            have hcc := last_of_concat_eq hlast
            subst hcc
            have ha2 : q ++ [cl] = serialize x ++ ([',', ' '] ++ (q2 ++ [cl])) := by
              rw [ha]
              rfl
            rw [ha2] at hlv
            obtain ⟨L2, hL2, hlv2⟩ := scan_shift_neutral (serNeutral x) [',', ' ']
              (by decide) (q2 ++ [cl]) S0 L0 i0 h0 hlv
            obtain ⟨z, zs, bs, hopen, hser⟩ := pruneE (.cons y t2) q2 cl r S0 L2
              (i0 + (serialize x).length + ([',', ' '] : List Char).length)
              hb3 hc hL2 hlv2
            refine ⟨x, .cons z zs, bs, ?_, ?_⟩
            · rw [ha2]
              exact open_pre (serNeutral x)
                (open_pre (neutral_all_plain (by decide)) hopen)
            · rw [show serElems (.cons x (.cons z zs)) =
                serialize x ++ (',' :: ' ' :: serElems (.cons z zs)) from rfl]
              rw [← hser, ha2]
              simp
    · obtain ⟨v', bs, hopen, hser⟩ := pruneV x q c c2 S0 L0 i0 ha hc h0 hlv
      exact ⟨v', .nil, bs, hopen, by
        rw [show serElems (.cons v' .nil) = serialize v' from rfl]
        exact hser⟩

theorem pruneM : ∀ (ms : JsonObj) (q : List Char) (c : Char) (r : List Char)
    (S0 : List Char) (L0 i0 : Nat),
    serMembers ms = (q ++ [c]) ++ r →
    (c = ']' ∨ c = rbrace) →
    L0 ≤ i0 →
    (scanFrom ⟨S0, L0, false, false⟩ i0 (q ++ [c])).lastValid = i0 + (q ++ [c]).length →
    ∃ k' v' ms' bs, OpenChunk (q ++ [c]) bs ∧
      (q ++ [c]) ++ (bs.reverse.map closerOf) = serMembers (.cons k' v' ms')
  | .nil => by
    intro q c r S0 L0 i0 heq hc h0 hlv
    exfalso
    rw [show serMembers .nil = [] from rfl] at heq
    have hl := congrArg List.length heq
    simp only [List.length_nil, List.length_append, List.length_cons] at hl
    omega
  | .cons k v .nil => by
    intro q c r S0 L0 i0 heq hc h0 hlv
    rw [show serMembers (.cons k v .nil) = serStr k ++ (':' :: ' ' :: serialize v) from rfl]
      at heq
    rcases List.append_eq_append_iff.mp heq with ⟨a2, ha, hb⟩ | ⟨c2, ha, hb⟩
    · rcases a2 with - | ⟨a2h, a2t⟩
      · rw [List.append_nil] at ha
        have ha' : q ++ [c] = ('"' :: (k.toList.map escChar).flatten) ++ ['"'] := by
          rw [ha]
          rfl
        exact (c_close_ne hc (by decide) (by decide) (last_of_concat_eq ha')).elim
      · simp only [List.cons_append] at hb
        obtain ⟨hcl, hb2⟩ := List.cons.inj hb
        subst hcl
        rcases a2t with - | ⟨a3h, a3t⟩
        · exact (c_close_ne hc (by decide) (by decide) (last_of_concat_eq ha)).elim
        · simp only [List.cons_append] at hb2
          obtain ⟨hsp, hb3⟩ := List.cons.inj hb2
          subst hsp
          rcases List.eq_nil_or_concat a3t with rfl | ⟨q2, cl, hq2⟩
          · have ha' : q ++ [c] = (serStr k ++ [':']) ++ [' '] := by
              rw [ha]
              simp
            exact (c_close_ne hc (by decide) (by decide) (last_of_concat_eq ha')).elim
          · rw [List.concat_eq_append] at hq2
            subst hq2
            have hlast : (serStr k ++ (':' :: ' ' :: q2)) ++ [cl] = q ++ [c] := by
              rw [ha]
              simp
            have hcc := last_of_concat_eq hlast
            subst hcc
            have ha2 : q ++ [cl] = serialize (Json.str k) ++ ([':', ' '] ++ (q2 ++ [cl])) := by
              rw [ha]
              rfl
            rw [ha2] at hlv
            obtain ⟨L2, hL2, hlv2⟩ := scan_shift_neutral (serNeutral (Json.str k)) [':', ' ']
              (by decide) (q2 ++ [cl]) S0 L0 i0 h0 hlv
            obtain ⟨v', bs, hopen, hser⟩ := pruneV v q2 cl r S0 L2
              (i0 + (serialize (Json.str k)).length + ([':', ' '] : List Char).length)
              hb3 hc hL2 hlv2
            refine ⟨k, v', .nil, bs, ?_, ?_⟩
            · rw [ha2]
              exact open_pre (serNeutral (Json.str k))
                (open_pre (neutral_all_plain (by decide)) hopen)
            · rw [show serMembers (.cons k v' .nil) =
                serStr k ++ (':' :: ' ' :: serialize v') from rfl]
              rw [← hser, ha2]
              rw [show serialize (Json.str k) = serStr k from rfl]
              simp
    · exact (serStr_cut_contra k.toList q c c2 hc S0 L0 i0 h0 ha hlv).elim
  | .cons k v (.cons k2 v2 t2) => by
    intro q c r S0 L0 i0 heq hc h0 hlv
    have hsmshape : serMembers (.cons k v (.cons k2 v2 t2)) =
        serStr k ++ (':' :: ' ' ::
          (serialize v ++ (',' :: ' ' :: serMembers (.cons k2 v2 t2)))) := by
      show (serStr k ++ (':' :: ' ' :: serialize v)) ++
        (',' :: ' ' :: serMembers (.cons k2 v2 t2)) = _
      simp
    rw [hsmshape] at heq
    rcases List.append_eq_append_iff.mp heq with ⟨a2, ha, hb⟩ | ⟨c2, ha, hb⟩
    · rcases a2 with - | ⟨a2h, a2t⟩
      · rw [List.append_nil] at ha
        have ha' : q ++ [c] = ('"' :: (k.toList.map escChar).flatten) ++ ['"'] := by
          rw [ha]
          rfl
        exact (c_close_ne hc (by decide) (by decide) (last_of_concat_eq ha')).elim
      · simp only [List.cons_append] at hb
        obtain ⟨hcl, hb2⟩ := List.cons.inj hb
        subst hcl
        rcases a2t with - | ⟨a3h, a3t⟩
        · exact (c_close_ne hc (by decide) (by decide) (last_of_concat_eq ha)).elim
        · simp only [List.cons_append] at hb2
          obtain ⟨hsp, hb3⟩ := List.cons.inj hb2
          subst hsp
          rcases List.eq_nil_or_concat a3t with rfl | ⟨q2, cl, hq2⟩
          · have ha' : q ++ [c] = (serStr k ++ [':']) ++ [' '] := by
              rw [ha]
              simp
            exact (c_close_ne hc (by decide) (by decide) (last_of_concat_eq ha')).elim
          · rw [List.concat_eq_append] at hq2
            subst hq2
            have hlast : (serStr k ++ (':' :: ' ' :: q2)) ++ [cl] = q ++ [c] := by
              rw [ha]
              simp
            have hcc := last_of_concat_eq hlast
            subst hcc
            have ha2 : q ++ [cl] = serialize (Json.str k) ++ ([':', ' '] ++ (q2 ++ [cl])) := by
              rw [ha]
              rfl
            rw [ha2] at hlv
            obtain ⟨L2, hL2, hlv2⟩ := scan_shift_neutral (serNeutral (Json.str k)) [':', ' ']
              (by decide) (q2 ++ [cl]) S0 L0 i0 h0 hlv
            rcases List.append_eq_append_iff.mp hb3 with ⟨a5, ha5, hb5⟩ | ⟨c3, hc5, hd5⟩
            · rcases a5 with - | ⟨a5h, a5t⟩
              · rw [List.append_nil] at ha5
                obtain ⟨v', bs, hopen, hser⟩ := pruneV v q2 cl [] S0 L2
                  (i0 + (serialize (Json.str k)).length + ([':', ' '] : List Char).length)
                  (by rw [List.append_nil]; exact ha5.symm) hc hL2 hlv2
                refine ⟨k, v', .nil, bs, ?_, ?_⟩
                · rw [ha2]
                  exact open_pre (serNeutral (Json.str k))
                    (open_pre (neutral_all_plain (by decide)) hopen)
                · rw [show serMembers (.cons k v' .nil) =
                    serStr k ++ (':' :: ' ' :: serialize v') from rfl]
                  rw [← hser, ha2]
                  rw [show serialize (Json.str k) = serStr k from rfl]
                  simp
              · simp only [List.cons_append] at hb5
                obtain ⟨hcm, hb6⟩ := List.cons.inj hb5
                subst hcm
                rcases a5t with - | ⟨a6h, a6t⟩
                · exact (c_close_ne hc (by decide) (by decide)
                    (last_of_concat_eq ha5)).elim
                · simp only [List.cons_append] at hb6
                  obtain ⟨hsp2, hb7⟩ := List.cons.inj hb6
                  subst hsp2
                  rcases List.eq_nil_or_concat a6t with rfl | ⟨q3, cl2, hq3⟩
                  · have ha5' : q2 ++ [cl] = (serialize v ++ [',']) ++ [' '] := by
                      rw [ha5]
                      simp
                    exact (c_close_ne hc (by decide) (by decide)
                      (last_of_concat_eq ha5')).elim
                  · rw [List.concat_eq_append] at hq3
                    subst hq3
                    have hlast2 : (serialize v ++ (',' :: ' ' :: q3)) ++ [cl2] =
                        q2 ++ [cl] := by
                      rw [ha5]
                      simp
                    have hcc2 := last_of_concat_eq hlast2
                    subst hcc2
                    have ha6 : q2 ++ [cl2] = serialize v ++ ([',', ' '] ++ (q3 ++ [cl2])) := by
                      rw [ha5]
                      rfl
                    rw [ha6] at hlv2
                    obtain ⟨L3, hL3, hlv3⟩ := scan_shift_neutral (serNeutral v) [',', ' ']
                      (by decide) (q3 ++ [cl2]) S0 L2
                      (i0 + (serialize (Json.str k)).length +
                        ([':', ' '] : List Char).length) hL2 hlv2
                    obtain ⟨k', v', ms', bs, hopen, hser⟩ := pruneM (.cons k2 v2 t2) q3 cl2 r
                      S0 L3
                      (i0 + (serialize (Json.str k)).length +
                        ([':', ' '] : List Char).length + (serialize v).length +
                        ([',', ' '] : List Char).length)
                      hb7 hc hL3 hlv3
                    have hshape : q ++ [cl2] = serialize (Json.str k) ++
                        ([':', ' '] ++ (serialize v ++ ([',', ' '] ++ (q3 ++ [cl2])))) := by
                      rw [ha2, ha6]
                    refine ⟨k, v, .cons k' v' ms', bs, ?_, ?_⟩
                    · rw [hshape]
                      exact open_pre (serNeutral (Json.str k))
                        (open_pre (neutral_all_plain (by decide))
                          (open_pre (serNeutral v)
                            (open_pre (neutral_all_plain (by decide)) hopen)))
                    · have hsmshape2 : serMembers (.cons k v (.cons k' v' ms')) =
                          serStr k ++ (':' :: ' ' ::
                            (serialize v ++ (',' :: ' ' :: serMembers (.cons k' v' ms')))) := by
                        show (serStr k ++ (':' :: ' ' :: serialize v)) ++
                          (',' :: ' ' :: serMembers (.cons k' v' ms')) = _
                        simp
                      rw [hsmshape2]
                      rw [← hser, hshape]
                      rw [show serialize (Json.str k) = serStr k from rfl]
                      simp
            · obtain ⟨v', bs, hopen, hser⟩ := pruneV v q2 cl c3 S0 L2
                (i0 + (serialize (Json.str k)).length + ([':', ' '] : List Char).length)
                hc5 hc hL2 hlv2
              refine ⟨k, v', .nil, bs, ?_, ?_⟩
              · rw [ha2]
                exact open_pre (serNeutral (Json.str k))
                  (open_pre (neutral_all_plain (by decide)) hopen)
              · rw [show serMembers (.cons k v' .nil) =
                  serStr k ++ (':' :: ' ' :: serialize v') from rfl]
                rw [← hser, ha2]
                rw [show serialize (Json.str k) = serStr k from rfl]
                simp
    · exact (serStr_cut_contra k.toList q c c2 hc S0 L0 i0 h0 ha hlv).elim

end

/-! ## Claim theorems: JSON repair on truncated serializations -/

theorem pyRstrip_noop (l : List Char) (c : Char) (hws : isPySpace c = false)
    (hcm : (c == ',') = false) :
    pyRstripComma (pyRstripWs (String.mk (l ++ [c]))) = String.mk (l ++ [c]) := by
  unfold pyRstripWs
  rw [show (String.mk (l ++ [c])).toList = l ++ [c] from rfl]
  have h1 : (l ++ [c]).reverse = c :: l.reverse := by
    simp
  rw [h1]
  rw [show List.dropWhile isPySpace (c :: l.reverse) = c :: l.reverse from by
    simp [List.dropWhile_cons, hws]]
  rw [← h1, List.reverse_reverse]
  unfold pyRstripComma
  rw [show (String.mk (l ++ [c])).toList = l ++ [c] from rfl]
  rw [h1]
  rw [show List.dropWhile (fun x => x == ',') (c :: l.reverse) = c :: l.reverse from by
    simp [List.dropWhile_cons, hcm]]
  rw [← h1, List.reverse_reverse]

/-- C2 counterexample: `[1]` serialized and truncated at offset 2 — outside any
string literal — repairs to `"]"`, which does not parse: the repair keeps only
the text up to the last completed closure (here none, so nothing) yet appends a
closer for the still-open bracket that was truncated away. -/
theorem C2_counterexample :
    serialize c2cexVal = ['[', '1', ']'] ∧
      (scanFrom initRState 0 ((serialize c2cexVal).take 2)).inString = false ∧
      repair_json (String.mk ((serialize c2cexVal).take 2)) = String.mk [']'] ∧
      (jsonLoads (repair_json (String.mk ((serialize c2cexVal).take 2)))).isOk = false :=
  ⟨rfl, rfl, rfl, rfl⟩

/-- C2 (amended): if the serialization of `v` is truncated at an offset that
lands outside any string literal, **immediately after a completed array/object
closure** (the scan's `lastValid` equals the truncated length), with at least
one bracket still open, then `repair_json` yields a string that parses
successfully as JSON (the serialization of a pruned value). -/
theorem C2_truncation_amended (v : Json) (k : Nat)
    (hin : (scanFrom initRState 0 ((serialize v).take k)).inString = false)
    (hne : (scanFrom initRState 0 ((serialize v).take k)).stack ≠ [])
    (hlv : (scanFrom initRState 0 ((serialize v).take k)).lastValid =
      ((serialize v).take k).length) :
    (jsonLoads (repair_json (String.mk ((serialize v).take k)))).isOk = true := by
  set text := (serialize v).take k with htext
  have htne : text ≠ [] := by
    intro h
    rw [h] at hne
    exact hne rfl
  obtain ⟨q0, c0, hdecomp, hc0⟩ := pop_end text initRState 0 (le_refl 0) htne
    (by rw [hlv]; omega)
  have hser : serialize v = (q0 ++ [c0]) ++ (serialize v).drop k := by
    rw [← hdecomp, htext]
    exact (List.take_append_drop k (serialize v)).symm
  obtain ⟨v', bs, hopen, hserEq⟩ := pruneV v q0 c0 ((serialize v).drop k) [] 0 0 hser hc0
    (le_refl 0)
    (by
      rw [← hdecomp]
      show (scanFrom initRState 0 text).lastValid = 0 + text.length
      rw [hlv]
      omega)
  obtain ⟨L2, hscan⟩ := open_scan_init hopen
  rw [← hdecomp] at hscan
  have hbs : bs ≠ [] := by
    intro h
    apply hne
    rw [hscan]
    exact h
  have hbsE : bs.isEmpty = false := by
    rcases bs with - | ⟨b, bs'⟩
    · exact absurd rfl hbs
    · rfl
  have hcond : ¬((scanFrom initRState 0 text).stack.isEmpty = true) := by
    rw [hscan]
    show ¬(bs.isEmpty = true)
    rw [hbsE]
    exact Bool.false_ne_true
  unfold repair_json
  dsimp only
  rw [show (String.mk text).toList = text from rfl]
  rw [if_neg hcond]
  rw [hlv, List.take_length]
  rw [hscan]
  rw [show (⟨bs, L2, false, false⟩ : RState).stack = bs from rfl]
  rw [hdecomp]
  rw [pyRstrip_noop q0 c0 (by rcases hc0 with rfl | rfl <;> decide)
    (by rcases hc0 with rfl | rfl <;> decide)]
  rw [show String.mk (q0 ++ [c0]) ++ String.mk (bs.reverse.map closerOf) =
    String.mk ((q0 ++ [c0]) ++ (bs.reverse.map closerOf)) from rfl]
  rw [hserEq]
  exact jsonLoads_serialize v'

/-- C2 witness: `[[1]]` truncated at offset 4 (right after the inner `]`, one
bracket still open) repairs to a string that parses. -/
theorem C2_witness :
    (scanFrom initRState 0 ((serialize c2wVal).take 4)).inString = false ∧
      (scanFrom initRState 0 ((serialize c2wVal).take 4)).stack ≠ [] ∧
      (scanFrom initRState 0 ((serialize c2wVal).take 4)).lastValid =
        ((serialize c2wVal).take 4).length ∧
      (jsonLoads (repair_json (String.mk ((serialize c2wVal).take 4)))).isOk = true :=
  ⟨rfl, by decide, rfl, C2_truncation_amended c2wVal 4 rfl (by decide) rfl⟩

end ReadingGuides
